import Mathlib

/-!
# rush: the clause pipeline of the shell, embedded and verified

Source: `src/rush.c`.  The embedding follows one process through
`parse_and_execute` and `execute_command`.

* A C string is the list of its bytes before the terminating NUL (`Str`).
* The operating system is a record of answers (`OS`): what `chdir`, `open`,
  `fork`, `dup2` and `execv` return.  `fork` answers with the value it returns
  in the process being followed, so the parent (`pid > 0`), the failed spawn
  (`pid < 0`) and the child (`pid = 0`) are three runs of the same code.
* Every system call is appended to `Shell.trace`, in program order.
* `args` is held as the list of its entries before the terminator, `paths` as
  a map from index to entry (`none` is `NULL`) next to `path_count`.  The
  stores into the two arrays are logged by index in `Shell.stores`; the
  capacities `MAX_ARGS` and `MAX_PATHS` are not enforced by the stores
  themselves.
* `commands`, the array of `execute_parallel`, has its capacity enforced: each
  store `commands[command_count++]` is logged by index in `Shell.stores`, and a
  store at an index that is not below `MAX_ARGS` ends the run with the status
  `undefined`, before any clause is run.  Nothing is said of what the process
  does after such a store.
* `strdup` is taken to succeed.
-/

namespace Rush

/-- A C string: its bytes up to the terminating NUL, one `Char` per byte. -/
abbrev Str := List Char

def MAX_PATHS : Nat := 100

def MAX_ARGS : Nat := 100

def MAX_CMD_LEN : Nat := 255

def STDOUT_FILENO : Int := 1

def STDERR_FILENO : Int := 2

/-- The flags `parse_and_execute` passes to `open`. -/
inductive OFlag where
  | O_CREAT
  | O_WRONLY
  | O_TRUNC
  deriving DecidableEq, Repr

/-- One system call made by the process, with its arguments and its answer.
`fork args output_fd ret` is the `fork()` inside `execute_command(args, output_fd)`. -/
inductive Event where
  | write (fd : Int) (buf : Str)
  | chdir (dir : Str) (ret : Int)
  | open_ (file : Str) (flags : List OFlag) (mode : Nat) (ret : Int)
  | fork (args : List Str) (output_fd : Int) (ret : Int)
  | dup2 (oldfd newfd ret : Int)
  | close (fd : Int)
  | execv (cmd : Str) (args : List Str) (ok : Bool)
  | wait (reaped : Bool)
  | exit (status : Int)
  deriving DecidableEq, Repr

/-- A store into one of the fixed arrays, by index: `args` of
`parse_and_execute`, the global `paths`, `commands` of `execute_parallel`. -/
inductive Store where
  | args (i : Nat)
  | paths (i : Nat)
  | commands (i : Nat)
  deriving DecidableEq, Repr

/-- What has become of the process. `replaced` is a successful `execv`;
`undefined` is a `NULL` handed to a function that reads a string, or a store
past the end of `commands`: what the process does from there on is not defined. -/
inductive Status where
  | running
  | exited (status : Int)
  | replaced (cmd : Str) (args : List Str)
  | undefined
  deriving DecidableEq, Repr

/-- The state of the process being followed. -/
structure Shell where
  paths : Nat → Option Str
  path_count : Nat
  cwd : Str
  children : Nat
  trace : List Event
  stores : List Store
  status : Status

/-- The answers of the operating system. `chdir` and `open_`, `fork`, `dup2` see
the calls made so far; `chdir` answers with the new working directory, or `none`
when it fails (it then returns -1 and changes nothing). Whether `execv`
succeeds depends on the file and the argument vector only. -/
structure OS where
  chdir : List Event → Str → Str → Option Str
  open_ : List Event → Str → Int
  fork : List Event → Int
  dup2 : List Event → Int → Int → Int
  execv : Str → List Str → Bool

/-- Control after a block of statements: `next` goes on with the statement that
follows, `stop` leaves `parse_and_execute` (an early `return`, or the process
has ended). -/
inductive Flow where
  | next (s : Shell)
  | stop (s : Shell)

/-- The state in a `Flow`. -/
def Flow.state : Flow → Shell
  | Flow.next s => s
  | Flow.stop s => s

/-- The state at start-up: `char *paths[MAX_PATHS] = {"/bin", NULL}; int path_count = 1;`,
no child, nothing called yet. -/
def initial (cwd : Str) : Shell :=
  { paths := fun i => if i = 0 then some ['/', 'b', 'i', 'n'] else none
    path_count := 1
    cwd := cwd
    children := 0
    trace := []
    stores := []
    status := Status.running }

/-- The Path Registry: the entries `paths[0 .. path_count - 1]`. -/
def registry (s : Shell) : List (Option Str) :=
  (List.range s.path_count).map s.paths

/-- Record one system call. -/
def emit (s : Shell) (e : Event) : Shell :=
  { s with trace := s.trace ++ [e] }

def error_message : Str := "An error has occurred\n".toList

/-- The function `print_error`: `write(STDERR_FILENO, error_message, strlen(error_message))`. -/
def print_error (s : Shell) : Shell :=
  emit s (Event.write STDERR_FILENO error_message)

/-- The call `exit(status)`. -/
def sys_exit (s : Shell) (status : Int) : Shell :=
  { emit s (Event.exit status) with status := Status.exited status }

/-- The call `chdir(dir)`: returns 0 and moves, or returns -1 and stays. -/
def sys_chdir (os : OS) (s : Shell) (dir : Str) : Int × Shell :=
  match os.chdir s.trace s.cwd dir with
  | some d => (0, { emit s (Event.chdir dir 0) with cwd := d })
  | none => (-1, emit s (Event.chdir dir (-1)))

/-- The loop `while (wait(NULL) > 0);` with `n` children outstanding: each of
them is reaped by one call, the call after the last one fails. -/
def wait_loop : Nat → List Event
  | 0 => [Event.wait false]
  | n + 1 => Event.wait true :: wait_loop n

/-- The wait loop run to its end: no child is left. -/
def wait_all (s : Shell) : Shell :=
  { s with trace := s.trace ++ wait_loop s.children, children := 0 }

/-- The delimiters of the tokenizer: `" \t\n"`. -/
def delims : List Char := [' ', '\t', '\n']

/-- One call of `strtok` on what is left of the buffer: skip the leading
delimiters; at the end of the buffer there is no token; otherwise the token runs
up to the next delimiter, which is overwritten, and scanning resumes after it. -/
def strtok (delim : List Char) (s : Str) : Option (Str × Str) :=
  match s.dropWhile (fun c => delim.contains c) with
  | [] => none
  | c :: cs =>
    some ((c :: cs).takeWhile (fun x => !delim.contains x),
          ((c :: cs).dropWhile (fun x => !delim.contains x)).drop 1)

/-- The loop `for (token = strtok(..); token != NULL; token = strtok(NULL, ..))
args[arg_count++] = token;`. -/
def tokenize_loop (delim : List Char) : Nat → Str → List Str → List Str
  | 0, _, args => args
  | fuel + 1, rest, args =>
    match strtok delim rest with
    | none => args
    | some (token, rest') => tokenize_loop delim fuel rest' (args ++ [token])

/-- The tokens of a clause (lines 103-110). Every call of `strtok` that yields a
token consumes at least one byte, so `length + 1` calls reach the end. -/
def tokenize (input : Str) : List Str :=
  tokenize_loop delims (input.length + 1) input []

def str_exit : Str := ['e', 'x', 'i', 't']

def str_cd : Str := ['c', 'd']

def str_path : Str := ['p', 'a', 't', 'h']

def str_gt : Str := ['>']

/-- The call `snprintf(cmd, sizeof(cmd), "%s/%s", dir, name)`: at most
`MAX_CMD_LEN - 1` bytes are written before the terminator. -/
def snprintf_cmd (dir name : Str) : Str :=
  (dir ++ '/' :: name).take (MAX_CMD_LEN - 1)

/-- The loop of lines 87-91, `n` iterations left, at index `i`. -/
def exec_paths (os : OS) (args : List Str) : Nat → Nat → Shell → Flow
  | 0, _, s => Flow.next s
  | n + 1, i, s =>
    match s.paths i, args[0]? with
    | some dir, some name =>
      let cmd := snprintf_cmd dir name
      if os.execv cmd args then
        Flow.stop { emit s (Event.execv cmd args true) with status := Status.replaced cmd args }
      else exec_paths os args n (i + 1) (emit s (Event.execv cmd args false))
    | _, _ => Flow.stop { s with status := Status.undefined }

/-- The child's search of the registry and what follows it (lines 86-95). -/
def child_exec (os : OS) (s : Shell) (args : List Str) : Shell :=
  match exec_paths os args s.path_count 0 s with
  | Flow.stop s1 => s1
  | Flow.next s1 => sys_exit (print_error s1) 1

/-- The child's branch of `execute_command` (lines 76-96). -/
def child (os : OS) (s : Shell) (args : List Str) (output_fd : Int) : Shell :=
  if output_fd ≠ STDOUT_FILENO then
    let r := os.dup2 s.trace output_fd STDOUT_FILENO
    let s1 := emit s (Event.dup2 output_fd STDOUT_FILENO r)
    if r < 0 then sys_exit (print_error s1) 1
    else child_exec os (emit s1 (Event.close output_fd)) args
  else child_exec os s args

/-- The function `execute_command(args, output_fd)`: the process followed is the
parent when `fork` answers a pid, the child when it answers 0. -/
def execute_command (os : OS) (s : Shell) (args : List Str) (output_fd : Int) : Flow :=
  let pid := os.fork s.trace
  let s1 := emit s (Event.fork args output_fd pid)
  if pid < 0 then Flow.next (print_error s1)
  else if pid = 0 then Flow.stop (child os { s1 with children := 0 } args output_fd)
  else Flow.next { s1 with children := s1.children + 1 }

/-- The loop of lines 130-132, `n` iterations left, at index `i`. -/
def path_loop (args : List Str) : Nat → Nat → Shell → Shell
  | 0, _, s => s
  | n + 1, i, s =>
    path_loop args n (i + 1)
      { s with
        paths := Function.update s.paths s.path_count args[i]?
        path_count := s.path_count + 1
        stores := s.stores ++ [Store.paths s.path_count] }

/-- The `path` built-in (lines 129-133). -/
def set_paths (s : Shell) (args : List Str) : Shell :=
  let s1 := path_loop args (args.length - 1) 1 { s with path_count := 0 }
  { s1 with
    paths := Function.update s1.paths s1.path_count none
    stores := s1.stores ++ [Store.paths s1.path_count] }

/-- The chain of built-ins (lines 115-133); `none` when no name matches and
control reaches the `else` of line 134. -/
def builtin (os : OS) (s : Shell) (args : List Str) : Option Flow :=
  if args[0]? = some str_exit then
    if args.length ≠ 1 then some (Flow.next (print_error s))
    else some (Flow.stop (sys_exit s 0))
  else if args[0]? = some str_cd then
    if args.length ≠ 2 then some (Flow.next (print_error s))
    else
      match args[1]? with
      | some dir =>
        let r := sys_chdir os s dir
        if r.1 ≠ 0 then some (Flow.next (print_error r.2)) else some (Flow.next r.2)
      | none => some (Flow.stop { s with status := Status.undefined })
  else if args[0]? = some str_path then some (Flow.next (set_paths s args))
  else none

/-- How the loop of lines 138-154 ends: the clause is launched with an argument
vector and an output descriptor, or the function returns. -/
inductive Scan where
  | launch (args : List Str) (output_fd : Int) (s : Shell)
  | abort (s : Shell)

/-- The loop of lines 138-154, `n` iterations left, at index `i`. -/
def redirect_scan (os : OS) (args : List Str) : Nat → Nat → Shell → Scan
  | 0, _, s => Scan.launch args STDOUT_FILENO s
  | n + 1, i, s =>
    if args[i]? = some str_gt then
      if (i : Int) = (args.length : Int) - 2 then
        match args[i + 1]? with
        | some file =>
          let fd := os.open_ s.trace file
          let s1 := emit s (Event.open_ file [OFlag.O_CREAT, OFlag.O_WRONLY, OFlag.O_TRUNC] 0o644 fd)
          if fd < 0 then Scan.abort (print_error s1)
          else Scan.launch (args.take i) fd { s1 with stores := s1.stores ++ [Store.args i] }
        | none => Scan.abort { s with status := Status.undefined }
      else Scan.abort (print_error s)
    else redirect_scan os args n (i + 1) s

/-- The `else` branch of lines 134-163: redirection, launch, close. -/
def external (os : OS) (s : Shell) (args : List Str) : Flow :=
  match redirect_scan os args args.length 0 s with
  | Scan.abort s1 => Flow.stop s1
  | Scan.launch argv fd s1 =>
    match execute_command os s1 argv fd with
    | Flow.stop s2 => Flow.stop s2
    | Flow.next s2 =>
      Flow.next (if fd ≠ STDOUT_FILENO then emit s2 (Event.close fd) else s2)

/-- Lines 114-163 on the tokens of the clause. -/
def dispatch (os : OS) (s : Shell) (args : List Str) : Flow :=
  match builtin os s args with
  | some f => f
  | none => external os s args

/-- Lines 165-168. -/
def finish (is_parallel : Int) : Flow → Shell
  | Flow.stop s => s
  | Flow.next s => if is_parallel = 0 then wait_all s else s

/-- The function `parse_and_execute(input, is_parallel)`. -/
def parse_and_execute (os : OS) (s : Shell) (input : Str) (is_parallel : Int) : Shell :=
  let args := tokenize input
  let s0 := { s with stores := s.stores ++ (List.range (args.length + 1)).map Store.args }
  if args.length = 0 then s0
  else finish is_parallel (dispatch os s0 args)

/-- The function `trim`: the leading blanks are skipped; unless nothing is left,
the trailing blanks are cut, the scan from the end never going back past the
first byte. -/
def trim (str : Str) : Str :=
  match str.dropWhile (fun c => delims.contains c) with
  | [] => []
  | c :: cs => c :: (cs.reverse.dropWhile (fun x => delims.contains x)).reverse

/-- How the loop of lines 179-181 ends: `done` with the pieces it has stored in
`commands`, or `overflow` at a store past the end of `char *commands[MAX_ARGS]`. -/
inductive Split where
  | done (commands : List Str) (s : Shell)
  | overflow (s : Shell)

/-- The loop of lines 179-181: `strtok_r` on `&`, each piece trimmed and stored
by `commands[command_count++] = trim(command)`; `command_count` is the length
of `commands`. Every store is logged. The array has `MAX_ARGS` entries: a store
at an index that is not below `MAX_ARGS` is out of bounds, and the run is
`undefined` from there. -/
def commands_loop : Nat → Str → List Str → Shell → Split
  | 0, _, commands, s => Split.done commands s
  | fuel + 1, rest, commands, s =>
    match strtok ['&'] rest with
    | none => Split.done commands s
    | some (command, rest') =>
      if commands.length < MAX_ARGS then
        commands_loop fuel rest' (commands ++ [trim command])
          { s with stores := s.stores ++ [Store.commands commands.length] }
      else
        Split.overflow
          { s with stores := s.stores ++ [Store.commands commands.length]
                   status := Status.undefined }

/-- The loop of lines 184-186; it goes on only while the process is running. -/
def run_commands (os : OS) : List Str → Shell → Shell
  | [], s => s
  | command :: commands, s =>
    let s1 := parse_and_execute os s command 1
    if s1.status = Status.running then run_commands os commands s1 else s1

/-- The function `execute_parallel(input)`. -/
def execute_parallel (os : OS) (s : Shell) (input : Str) : Shell :=
  match commands_loop (input.length + 1) input [] s with
  | Split.overflow s1 => s1
  | Split.done commands s1 =>
    let s2 := run_commands os commands s1
    if s2.status = Status.running then wait_all s2 else s2

/-- The maximal runs of a line, in the words of the specification: `Runs line ts`
says that `line` is a stretch of delimiters, then the first run, then the rest
of the line, which is empty or begins with a delimiter and holds the other
runs in the same way; a run is non-empty and holds no delimiter. -/
inductive Runs : Str → List Str → Prop where
  | none (gap : Str) (hgap : ∀ c ∈ gap, c ∈ delims) : Runs gap []
  | run (gap tok rest : Str) (toks : List Str)
      (hgap : ∀ c ∈ gap, c ∈ delims)
      (hne : tok ≠ []) (htok : ∀ c ∈ tok, c ∉ delims)
      (hsep : rest = [] ∨ ∃ d r, rest = d :: r ∧ d ∈ delims)
      (hrest : Runs rest toks) : Runs (gap ++ tok ++ rest) (tok :: toks)

/-- The flags of line 142: `O_CREAT | O_WRONLY | O_TRUNC`. -/
def open_flags : List OFlag := [OFlag.O_CREAT, OFlag.O_WRONLY, OFlag.O_TRUNC]

/-- The comparisons of lines 115, 122 and 127 on `args[0]`. -/
def first_is_builtin (args : List Str) : Bool :=
  args[0]? = some str_exit || args[0]? = some str_cd || args[0]? = some str_path

/-- The diagnostic, as a system call. -/
def diagnostic : Event := Event.write STDERR_FILENO error_message

def Event.is_open : Event → Bool
  | Event.open_ _ _ _ _ => true
  | _ => false

def Event.is_fork : Event → Bool
  | Event.fork _ _ _ => true
  | _ => false

/-- An operating system in which every call succeeds in the parent: `open`
answers descriptor 3, `fork` answers pid 100. -/
def os_ok : OS :=
  { chdir := fun _ _ d => some d
    open_ := fun _ _ => 3
    fork := fun _ => 100
    dup2 := fun _ _ _ => 1
    execv := fun _ _ => false }

/-- An operating system in which every call fails. -/
def os_fail : OS :=
  { chdir := fun _ _ _ => none
    open_ := fun _ _ => -1
    fork := fun _ => -1
    dup2 := fun _ _ _ => -1
    execv := fun _ _ => false }

/-- An operating system seen from a child whose redirection fails and for which
no file can be executed: `fork` answers 0, `dup2` answers -1. -/
def os_child : OS :=
  { chdir := fun _ _ _ => none
    open_ := fun _ _ => 3
    fork := fun _ => 0
    dup2 := fun _ _ _ => -1
    execv := fun _ _ => false }

/-- As `os_child`, with a `dup2` that succeeds and `/b/foo` executable. -/
def os_child_b : OS :=
  { chdir := fun _ _ _ => none
    open_ := fun _ _ => 3
    fork := fun _ => 0
    dup2 := fun _ _ _ => 1
    execv := fun cmd _ => cmd = "/b/foo".toList }

/-- A directory name of 254 bytes. -/
def long_dir : Str := List.replicate 254 'a'

def Event.is_wait : Event → Bool
  | Event.wait _ => true
  | _ => false

def Event.is_write : Event → Bool
  | Event.write _ _ => true
  | _ => false

/-- The index of a store. -/
def Store.index : Store → Nat
  | Store.args i => i
  | Store.paths i => i
  | Store.commands i => i

/-- A store that stays inside its array: `char *args[MAX_ARGS]`,
`char *paths[MAX_PATHS]`, `char *commands[MAX_ARGS]`. -/
def Store.in_bounds : Store → Bool
  | Store.args i => decide (i < MAX_ARGS)
  | Store.paths i => decide (i < MAX_PATHS)
  | Store.commands i => decide (i < MAX_ARGS)

/-- The clauses of a parallel line: the pieces that `strtok_r` yields on `&`
in the loop of lines 179-181, each trimmed, in order. This is the sequence of
values the loop has to store, whatever the room in `commands`. -/
def clauses (input : Str) : List Str :=
  (tokenize_loop ['&'] (input.length + 1) input []).map trim

/-- The state after the first `n` stores into `commands`, at the indices
`0 .. n - 1`. -/
def stored (s : Shell) (n : Nat) : Shell :=
  { s with stores := s.stores ++ (List.range n).map Store.commands }

/-- The clause spawns a child in the words of the specification: it has a
token, the first is no built-in, and its redirection is absent (no token is
`>`) or well-formed (exactly one token is `>`, and it is the second-to-last
token, so that exactly one file name follows it). -/
def claimed_spawning (command : Str) : Bool :=
  let args := tokenize command
  !args.isEmpty && !first_is_builtin args
    && (!args.contains str_gt
        || (args.count str_gt == 1 && args.indexOf str_gt + 2 == args.length))

/-- The trace `t1` is `t0` followed by calls among which there is no `wait`,
every `write` is the diagnostic, and the diagnostic occurs at most `k` times. -/
def Emits (t0 t1 : List Event) (k : Nat) : Prop :=
  ∃ tail, t1 = t0 ++ tail
    ∧ (∀ e ∈ tail, e.is_wait = false ∧ (e.is_write = true → e = diagnostic))
    ∧ tail.count diagnostic ≤ k

/-- Everything but the trace and the status is the same in both states. -/
def Frame (s s1 : Shell) : Prop :=
  s1.paths = s.paths ∧ s1.path_count = s.path_count ∧ s1.stores = s.stores
    ∧ s1.children = s.children ∧ s1.cwd = s.cwd

/-- The stores of `s1` are those of `s` followed by stores at indices up to `n`. -/
def StoresWithin (s s1 : Shell) (n : Nat) : Prop :=
  ∃ st, s1.stores = s.stores ++ st ∧ ∀ x ∈ st, x.index ≤ n

/-- The calls made between the state `s` and the later state `s1`. -/
def new_calls (s s1 : Shell) : List Event :=
  s1.trace.drop s.trace.length

/-- The number of children created in a stretch of calls: the `fork`s that
answered a pid. -/
def spawned (calls : List Event) : Nat :=
  calls.countP (fun e =>
    match e with
    | Event.fork _ _ pid => decide (0 < pid)
    | _ => false)

/-- The clause is one that `parse_and_execute` hands to `execute_command`: it
has a token, the first is no built-in, and either no token is `>` or the first
`>` is the second-to-last token. -/
def spawning (command : Str) : Bool :=
  let args := tokenize command
  !args.isEmpty && !first_is_builtin args
    && (!args.contains str_gt || args.indexOf str_gt + 2 == args.length)

/-- The stores made by the loop of lines 107-109 and by line 110, one by one:
`args[arg_count++] = token` for each token that `strtok` yields, then
`args[arg_count] = NULL`. -/
def args_stores (delim : List Char) : Nat → Str → Nat → List Store → List Store
  | 0, _, arg_count, log => log ++ [Store.args arg_count]
  | fuel + 1, rest, arg_count, log =>
    match strtok delim rest with
    | none => log ++ [Store.args arg_count]
    | some (_, rest') =>
      args_stores delim fuel rest' (arg_count + 1) (log ++ [Store.args arg_count])

/-! ## The tokenizer -/

theorem tokenize_loop_acc (d : List Char) (n : Nat) (rest : Str) (acc : List Str) :
    tokenize_loop d n rest acc = acc ++ tokenize_loop d n rest [] := by
  induction n generalizing rest acc with
  | zero => simp [tokenize_loop]
  | succ n ih =>
    simp only [tokenize_loop]
    cases h : strtok d rest with
    | none => simp
    | some p =>
      obtain ⟨tok, rest'⟩ := p
      simp only []
      rw [ih rest' (acc ++ [tok]), ih rest' ([] ++ [tok])]
      simp

theorem dropWhile_head_false (p : Char → Bool) (s : Str) (c : Char) (cs : Str)
    (h : s.dropWhile p = c :: cs) : p c = false := by
  induction s with
  | nil => simp at h
  | cons a l ih =>
    rw [List.dropWhile_cons] at h
    by_cases ha : p a = true
    · rw [if_pos ha] at h; exact ih h
    · rw [if_neg ha] at h
      injection h with h1 _
      subst h1
      simpa using ha

theorem splitOnP_skip (p : Char → Bool) (s : Str) :
    (s.splitOnP p).filter (fun t => !t.isEmpty)
      = ((s.dropWhile p).splitOnP p).filter (fun t => !t.isEmpty) := by
  induction s with
  | nil => simp
  | cons c cs ih =>
    by_cases hc : p c = true
    · simp [List.splitOnP_cons, hc, List.dropWhile_cons, ih]
    · simp [List.dropWhile_cons, hc]

theorem splitOnP_run (p : Char → Bool) (l : Str) :
    l.splitOnP p = l.takeWhile (fun x => !p x) ::
      (match l.dropWhile (fun x => !p x) with
       | [] => []
       | _ :: r => r.splitOnP p) := by
  induction l with
  | nil => simp
  | cons c cs ih =>
    by_cases hc : p c = true
    · simp [List.splitOnP_cons, hc, List.takeWhile_cons, List.dropWhile_cons]
    · simp only [Bool.not_eq_true] at hc
      rw [List.splitOnP_cons, ih]
      simp [hc, List.takeWhile_cons, List.dropWhile_cons, List.modifyHead]

theorem tokenize_loop_eq (d : List Char) (n : Nat) (s : Str) (h : s.length < n) :
    tokenize_loop d n s []
      = (s.splitOnP (fun c => d.contains c)).filter (fun t => !t.isEmpty) := by
  induction n generalizing s with
  | zero => omega
  | succ n ih =>
    rw [splitOnP_skip]
    simp only [tokenize_loop, strtok]
    have hlen : (s.dropWhile (fun c => d.contains c)).length ≤ s.length :=
      (List.dropWhile_sublist _).length_le
    cases hs : s.dropWhile (fun c => d.contains c) with
    | nil => simp
    | cons c cs =>
      have hc : d.contains c = false := dropWhile_head_false _ s c cs hs
      rw [hs] at hlen
      simp only [List.nil_append]
      rw [tokenize_loop_acc, splitOnP_run (fun c => d.contains c) (c :: cs)]
      have hne : ((c :: cs).takeWhile (fun x => !d.contains x)) ≠ [] := by
        rw [List.takeWhile_cons, hc]; exact List.cons_ne_nil _ _
      rw [List.filter_cons_of_pos (by simpa using hne)]
      simp only [List.singleton_append, List.cons.injEq, true_and]
      have hlen2 : ((c :: cs).dropWhile (fun x => !d.contains x)).length ≤ (c :: cs).length :=
        (List.dropWhile_sublist _).length_le
      cases hr : (c :: cs).dropWhile (fun x => !d.contains x) with
      | nil =>
        cases n with
        | zero => simp [tokenize_loop]
        | succ m => simp [tokenize_loop, strtok]
      | cons x r =>
        rw [hr] at hlen2
        simp only [List.drop_succ_cons, List.drop_zero]
        apply ih
        simp only [List.length_cons] at hlen2 hlen
        omega

theorem tokenize_loop_good (d : List Char) (n : Nat) (s : Str) (acc : List Str)
    (hacc : ∀ t ∈ acc, t ≠ [] ∧ ∀ c ∈ t, c ∉ d) :
    ∀ t ∈ tokenize_loop d n s acc, t ≠ [] ∧ ∀ c ∈ t, c ∉ d := by
  induction n generalizing s acc with
  | zero => simpa [tokenize_loop] using hacc
  | succ n ih =>
    simp only [tokenize_loop, strtok]
    cases hs : s.dropWhile (fun c => d.contains c) with
    | nil => simpa using hacc
    | cons c cs =>
      have hc : d.contains c = false := dropWhile_head_false _ s c cs hs
      apply ih
      intro t ht
      rcases List.mem_append.1 ht with h | h
      · exact hacc t h
      · have ht' : t = (c :: cs).takeWhile (fun x => !d.contains x) := by simpa using h
        subst ht'
        refine ⟨?_, ?_⟩
        · rw [List.takeWhile_cons, hc]; exact List.cons_ne_nil _ _
        · intro x hx
          have := List.mem_takeWhile_imp hx
          simpa using this

theorem tokenize_all_delims (input : Str) (h : ∀ c ∈ input, c ∈ delims) :
    tokenize input = [] := by
  have hd : input.dropWhile (fun c => delims.contains c) = [] := by
    rw [List.dropWhile_eq_nil_iff]
    intro c hc
    simpa using h c hc
  simp only [tokenize, tokenize_loop, strtok, hd]

theorem runs_delim_cons (d : Char) (r : Str) (ts : List Str) (hd : d ∈ delims)
    (h : Runs r ts) : Runs (d :: r) ts := by
  cases h with
  | none gap hgap =>
    exact Runs.none (d :: r) (by
      intro c hc
      rcases List.mem_cons.1 hc with h1 | h1
      · rw [h1]; exact hd
      · exact hgap c h1)
  | run gap tok rest toks hgap hne htok hsep hrest =>
    have := Runs.run (d :: gap) tok rest toks (by
      intro c hc
      rcases List.mem_cons.1 hc with h1 | h1
      · rw [h1]; exact hd
      · exact hgap c h1) hne htok hsep hrest
    simpa using this

theorem runs_of_split (n : Nat) (s : Str) (hn : s.length < n) :
    Runs s ((s.splitOnP (fun c => delims.contains c)).filter (fun t => !t.isEmpty)) := by
  induction n generalizing s with
  | zero => omega
  | succ n ih =>
    rw [splitOnP_skip]
    have hsplit : s.takeWhile (fun c => delims.contains c)
        ++ s.dropWhile (fun c => delims.contains c) = s := List.takeWhile_append_dropWhile _ s
    have hgap : ∀ c ∈ s.takeWhile (fun c => delims.contains c), c ∈ delims := by
      intro c hc
      simpa using List.mem_takeWhile_imp hc
    have hlen : (s.dropWhile (fun c => delims.contains c)).length ≤ s.length :=
      (List.dropWhile_sublist _).length_le
    cases hs : s.dropWhile (fun c => delims.contains c) with
    | nil =>
      rw [hs, List.append_nil] at hsplit
      rw [← hsplit]
      simpa using Runs.none _ hgap
    | cons c cs =>
      have hc : delims.contains c = false := dropWhile_head_false _ s c cs hs
      rw [hs] at hlen hsplit
      rw [splitOnP_run (fun c => delims.contains c) (c :: cs)]
      have hne : (c :: cs).takeWhile (fun x => !delims.contains x) ≠ [] := by
        rw [List.takeWhile_cons, hc]; exact List.cons_ne_nil _ _
      rw [List.filter_cons_of_pos (by simpa using hne)]
      have htok : ∀ x ∈ (c :: cs).takeWhile (fun x => !delims.contains x), x ∉ delims := by
        intro x hx
        simpa using List.mem_takeWhile_imp hx
      have hsplit2 : (c :: cs).takeWhile (fun x => !delims.contains x)
          ++ (c :: cs).dropWhile (fun x => !delims.contains x) = c :: cs :=
        List.takeWhile_append_dropWhile _ _
      have hlen2 : ((c :: cs).dropWhile (fun x => !delims.contains x)).length
          ≤ (c :: cs).length := (List.dropWhile_sublist _).length_le
      have key : ∀ rest ts,
          (c :: cs).dropWhile (fun x => !delims.contains x) = rest →
          (rest = [] ∨ ∃ d r, rest = d :: r ∧ d ∈ delims) → Runs rest ts →
          Runs s ((c :: cs).takeWhile (fun x => !delims.contains x) :: ts) := by
        intro rest ts hr hsep hruns
        have := Runs.run _ _ rest ts hgap hne htok hsep hruns
        rw [← hr, List.append_assoc, hsplit2, hsplit] at this
        exact this
      cases hr : (c :: cs).dropWhile (fun x => !delims.contains x) with
      | nil =>
        simp only []
        exact key [] [] hr (Or.inl rfl) (Runs.none [] (by simp))
      | cons d r =>
        have hd : d ∈ delims := by
          have := dropWhile_head_false _ (c :: cs) d r hr
          simpa using this
        rw [hr] at hlen2
        simp only []
        refine key (d :: r) _ hr (Or.inr ⟨d, r, rfl, hd⟩) (runs_delim_cons d r _ hd (ih r ?_))
        simp only [List.length_cons] at hlen2 hlen
        omega

theorem split_of_runs (s : Str) (ts : List Str) (h : Runs s ts) :
    (s.splitOnP (fun c => delims.contains c)).filter (fun t => !t.isEmpty) = ts := by
  induction h with
  | none gap hgap =>
    have := tokenize_all_delims gap hgap
    rw [tokenize, tokenize_loop_eq delims _ gap (Nat.lt_succ_self _)] at this
    exact this
  | run gap tok rest toks hgap hne htok hsep hrest ih =>
    rw [splitOnP_skip]
    obtain ⟨c, cs, hcs⟩ := List.exists_cons_of_ne_nil hne
    have hc : delims.contains c = false := by
      have := htok c (by rw [hcs]; simp)
      simpa using this
    have hdrop : (gap ++ tok ++ rest).dropWhile (fun c => delims.contains c) = tok ++ rest := by
      rw [List.append_assoc, List.dropWhile_append_of_pos (by
        intro x hx; simpa using hgap x hx)]
      rw [hcs, List.cons_append, List.dropWhile_cons, hc]
      rfl
    rw [hdrop, splitOnP_run]
    have hhead : rest.takeWhile (fun x => !delims.contains x) = [] := by
      rcases hsep with h0 | ⟨d, r, h0, hd⟩
      · rw [h0]; rfl
      · rw [h0, List.takeWhile_cons]
        simp [hd]
    have htake : (tok ++ rest).takeWhile (fun x => !delims.contains x) = tok := by
      rw [List.takeWhile_append_of_pos (by intro x hx; simpa using htok x hx), hhead,
        List.append_nil]
    have hdrop2 : (tok ++ rest).dropWhile (fun x => !delims.contains x) = rest := by
      rw [List.dropWhile_append_of_pos (by intro x hx; simpa using htok x hx)]
      rcases hsep with h0 | ⟨d, r, h0, hd⟩
      · rw [h0]; rfl
      · rw [h0, List.dropWhile_cons]
        simp [hd]
    rw [htake, hdrop2, List.filter_cons_of_pos (by simpa using hne)]
    congr 1
    rcases hsep with h0 | ⟨d, r, h0, hd⟩
    · subst h0
      simp only []
      simpa using ih.symm
    · subst h0
      simp only []
      rw [← ih]
      simp [List.splitOnP_cons, hd]

/-- C1: the tokens of a line are exactly its maximal runs of bytes other than
space, tab and newline, in order: `Runs line (tokenize line)` holds and no other
list satisfies it; they are the line split at every delimiter with the empty
pieces left out. Every token is non-empty and free of delimiters, a line made
of delimiters only (or empty) has no token, and `"  ls   -l \t/tmp\n"` gives
`["ls", "-l", "/tmp"]`. -/
theorem C1_tokenize_maximal_runs :
    (∀ input : Str,
      Runs input (tokenize input)
        ∧ (∀ ts, Runs input ts → ts = tokenize input)
        ∧ tokenize input
          = (input.splitOnP (fun c => delims.contains c)).filter (fun t => !t.isEmpty)
        ∧ (∀ t ∈ tokenize input, t ≠ [] ∧ ∀ c ∈ t, c ∉ delims)
        ∧ ((∀ c ∈ input, c ∈ delims) → tokenize input = []))
      ∧ tokenize "  ls   -l \t/tmp\n".toList = ["ls".toList, "-l".toList, "/tmp".toList] := by
  have heq : ∀ input : Str, tokenize input
      = (input.splitOnP (fun c => delims.contains c)).filter (fun t => !t.isEmpty) :=
    fun input => tokenize_loop_eq delims (input.length + 1) input (Nat.lt_succ_self _)
  refine ⟨fun input => ⟨?_, ?_, heq input, ?_, tokenize_all_delims input⟩, by decide⟩
  · rw [heq]; exact runs_of_split (input.length + 1) input (Nat.lt_succ_self _)
  · intro ts hts
    rw [heq, split_of_runs input ts hts]
  · exact tokenize_loop_good delims (input.length + 1) input [] (by simp)

/-! ## Unfolding `parse_and_execute` -/

theorem parse_and_execute_of_tokens (os : OS) (s : Shell) (input : Str) (is_parallel : Int)
    (h : tokenize input ≠ []) :
    parse_and_execute os s input is_parallel
      = finish is_parallel (dispatch os
          { s with stores := s.stores ++
              (List.range ((tokenize input).length + 1)).map Store.args } (tokenize input)) := by
  have hl : (tokenize input).length ≠ 0 := by
    intro h0; exact h (List.length_eq_zero.1 h0)
  simp only [parse_and_execute, hl, if_false]

theorem str_names_ne : str_cd ≠ str_exit ∧ str_path ≠ str_exit ∧ str_path ≠ str_cd := by
  decide

theorem builtin_none_of (os : OS) (s : Shell) (args : List Str)
    (h : first_is_builtin args = false) : builtin os s args = none := by
  unfold first_is_builtin at h
  simp only [Bool.or_eq_false_iff, decide_eq_false_iff_not] at h
  obtain ⟨⟨h1, h2⟩, h3⟩ := h
  simp only [builtin, h1, h2, h3, if_false]

theorem builtin_some_of (os : OS) (s : Shell) (args : List Str)
    (h : first_is_builtin args = true) : (builtin os s args).isSome = true := by
  unfold first_is_builtin at h
  simp only [Bool.or_eq_true, decide_eq_true_eq] at h
  unfold builtin
  by_cases h1 : args[0]? = some str_exit
  · rw [if_pos h1]; split_ifs <;> rfl
  · rw [if_neg h1]
    by_cases h2 : args[0]? = some str_cd
    · rw [if_pos h2]
      split_ifs with hl
      · rfl
      · cases args[1]? with
        | none => rfl
        | some d => simp only []; split_ifs <;> rfl
    · rw [if_neg h2]
      by_cases h3 : args[0]? = some str_path
      · rw [if_pos h3]; rfl
      · exfalso; tauto

theorem dispatch_external (os : OS) (s : Shell) (args : List Str)
    (h : first_is_builtin args = false) : dispatch os s args = external os s args := by
  simp only [dispatch, builtin_none_of os s args h]

/-! ## The redirection scan -/

theorem redirect_scan_skip (os : OS) (args : List Str) (k m i : Nat) (s : Shell)
    (h : ∀ j, i ≤ j → j < i + k → args[j]? ≠ some str_gt) :
    redirect_scan os args (k + m) i s = redirect_scan os args m (i + k) s := by
  induction k generalizing i with
  | zero => simp
  | succ k ih =>
    have h0 : args[i]? ≠ some str_gt := h i (Nat.le_refl _) (by omega)
    rw [show k + 1 + m = (k + m) + 1 by omega]
    simp only [redirect_scan, h0, if_false]
    rw [ih (i + 1) (fun j h1 h2 => h j (by omega) (by omega))]
    congr 1; omega

theorem redirect_scan_none (os : OS) (args : List Str) (s : Shell) (h : str_gt ∉ args) :
    redirect_scan os args args.length 0 s = Scan.launch args STDOUT_FILENO s := by
  have := redirect_scan_skip os args args.length 0 0 s (by
    intro j _ _ hj
    exact h (List.getElem?_mem hj))
  simpa [redirect_scan] using this

/-- The scan stops at the first `>`: with exactly one token after it the file
is opened, otherwise the diagnostic is written and the function returns. -/
theorem redirect_scan_first (os : OS) (pre post : List Str) (s : Shell) (h : str_gt ∉ pre) :
    redirect_scan os (pre ++ str_gt :: post) (pre ++ str_gt :: post).length 0 s
      = match post with
        | [file] =>
          if os.open_ s.trace file < 0 then
            Scan.abort (print_error (emit s
              (Event.open_ file open_flags 0o644 (os.open_ s.trace file))))
          else
            Scan.launch pre (os.open_ s.trace file)
              { emit s (Event.open_ file open_flags 0o644 (os.open_ s.trace file)) with
                stores := s.stores ++ [Store.args pre.length] }
        | _ => Scan.abort (print_error s) := by
  have hskip := redirect_scan_skip os (pre ++ str_gt :: post) pre.length (post.length + 1) 0 s (by
    intro j _ hj hget
    rw [List.getElem?_append_left (by omega)] at hget
    exact h (List.getElem?_mem hget))
  have hlen : (pre ++ str_gt :: post).length = pre.length + (post.length + 1) := by simp
  rw [hlen, hskip, Nat.zero_add]
  have hat : (pre ++ str_gt :: post)[pre.length]? = some str_gt := by
    rw [List.getElem?_append_right (Nat.le_refl _)]; simp
  have hnext : (pre ++ str_gt :: post)[pre.length + 1]? = post[0]? := by
    rw [List.getElem?_append_right (by omega)]
    simp
  rw [redirect_scan, if_pos hat, hnext, hlen]
  match post with
  | [] =>
    rw [if_neg (by simp only [List.length_nil]; omega)]
  | [file] =>
    rw [if_pos (by simp only [List.length_cons, List.length_nil]; omega)]
    simp only [List.getElem?_cons_zero, open_flags, emit, List.take_left']
  | a :: b :: r =>
    rw [if_neg (by simp only [List.length_cons]; omega)]

/-! ## The launcher -/

theorem execute_command_parent (os : OS) (s : Shell) (args : List Str) (fd : Int)
    (h : 0 < os.fork s.trace) :
    execute_command os s args fd
      = Flow.next { emit s (Event.fork args fd (os.fork s.trace)) with
          children := s.children + 1 } := by
  unfold execute_command
  simp only []
  rw [if_neg (by omega), if_neg (by omega)]
  rfl

theorem execute_command_failed (os : OS) (s : Shell) (args : List Str) (fd : Int)
    (h : os.fork s.trace < 0) :
    execute_command os s args fd
      = Flow.next (print_error (emit s (Event.fork args fd (os.fork s.trace)))) := by
  unfold execute_command
  simp only []
  rw [if_pos h]

theorem execute_command_child (os : OS) (s : Shell) (args : List Str) (fd : Int)
    (h : os.fork s.trace = 0) :
    execute_command os s args fd
      = Flow.stop (child os { emit s (Event.fork args fd 0) with children := 0 } args fd) := by
  unfold execute_command
  simp only []
  rw [if_neg (by omega), if_pos h, h]

/-- The search loop writes nothing but `execv` calls. -/
theorem exec_paths_trace (os : OS) (args : List Str) (n i : Nat) (s : Shell) :
    ∃ tail, (exec_paths os args n i s).state.trace = s.trace ++ tail
      ∧ ∀ e ∈ tail, e.is_open = false ∧ e.is_fork = false := by
  induction n generalizing i s with
  | zero => exact ⟨[], by simp [exec_paths, Flow.state], by simp⟩
  | succ n ih =>
    unfold exec_paths
    cases hp : s.paths i with
    | none => exact ⟨[], by simp [Flow.state], by simp⟩
    | some dir =>
      cases ha : args[0]? with
      | none => exact ⟨[], by simp [Flow.state], by simp⟩
      | some name =>
        simp only []
        by_cases hx : os.execv (snprintf_cmd dir name) args = true
        · rw [if_pos hx]
          exact ⟨[Event.execv (snprintf_cmd dir name) args true],
            by simp [Flow.state, emit], by simp [Event.is_open, Event.is_fork]⟩
        · rw [if_neg hx]
          obtain ⟨tail, h1, h2⟩ := ih (i + 1) (emit s (Event.execv (snprintf_cmd dir name) args false))
          refine ⟨Event.execv (snprintf_cmd dir name) args false :: tail, ?_, ?_⟩
          · rw [h1]; simp [emit]
          · intro e he
            rcases List.mem_cons.1 he with h | h
            · subst h; simp [Event.is_open, Event.is_fork]
            · exact h2 e h

theorem child_exec_trace (os : OS) (s : Shell) (args : List Str) :
    ∃ tail, (child_exec os s args).trace = s.trace ++ tail
      ∧ ∀ e ∈ tail, e.is_open = false ∧ e.is_fork = false := by
  obtain ⟨tail, h1, h2⟩ := exec_paths_trace os args s.path_count 0 s
  unfold child_exec
  cases hf : exec_paths os args s.path_count 0 s with
  | stop s1 =>
    rw [hf] at h1
    exact ⟨tail, h1, h2⟩
  | next s1 =>
    rw [hf] at h1
    simp only [Flow.state] at h1
    refine ⟨tail ++ [diagnostic, Event.exit 1], ?_, ?_⟩
    · simp [sys_exit, print_error, emit, h1, diagnostic]
    · intro e he
      rcases List.mem_append.1 he with h | h
      · exact h2 e h
      · simp only [List.mem_cons, List.mem_singleton, List.not_mem_nil, or_false] at h
        rcases h with h | h <;> subst h <;> simp [Event.is_open, Event.is_fork, diagnostic]

/-- The child opens no file and spawns no process. -/
theorem child_trace (os : OS) (s : Shell) (args : List Str) (fd : Int) :
    ∃ tail, (child os s args fd).trace = s.trace ++ tail
      ∧ ∀ e ∈ tail, e.is_open = false ∧ e.is_fork = false := by
  unfold child
  by_cases hfd : fd ≠ STDOUT_FILENO
  · rw [if_pos hfd]
    simp only []
    by_cases hr : os.dup2 s.trace fd STDOUT_FILENO < 0
    · rw [if_pos hr]
      refine ⟨[Event.dup2 fd STDOUT_FILENO (os.dup2 s.trace fd STDOUT_FILENO), diagnostic,
        Event.exit 1], by simp [sys_exit, print_error, emit, diagnostic], ?_⟩
      intro e he
      simp only [List.mem_cons, List.mem_singleton, List.not_mem_nil, or_false] at he
      rcases he with h | h | h <;> subst h <;> simp [Event.is_open, Event.is_fork, diagnostic]
    · rw [if_neg hr]
      obtain ⟨tail, h1, h2⟩ := child_exec_trace os
        (emit (emit s (Event.dup2 fd STDOUT_FILENO (os.dup2 s.trace fd STDOUT_FILENO)))
          (Event.close fd)) args
      refine ⟨Event.dup2 fd STDOUT_FILENO (os.dup2 s.trace fd STDOUT_FILENO) :: Event.close fd :: tail,
        by rw [h1]; simp [emit], ?_⟩
      intro e he
      simp only [List.mem_cons] at he
      rcases he with h | h | h
      · subst h; simp [Event.is_open, Event.is_fork]
      · subst h; simp [Event.is_open, Event.is_fork]
      · exact h2 e h
  · rw [if_neg hfd]
    exact child_exec_trace os s args

/-! ## Redirection and launch of an external clause -/

/-- The outcome of a clause whose first `>` is not followed by exactly one
token: the diagnostic, and an early return. -/
theorem misplaced_gt_outcome (os : OS) (s : Shell) (input : Str) (is_parallel : Int)
    (pre post : List Str)
    (htok : tokenize input = pre ++ str_gt :: post) (hgt : str_gt ∉ pre)
    (hpost : post.length ≠ 1) (hb : first_is_builtin (tokenize input) = false) :
    (parse_and_execute os s input is_parallel).trace = s.trace ++ [diagnostic]
      ∧ (parse_and_execute os s input is_parallel).children = s.children
      ∧ (parse_and_execute os s input is_parallel).status = s.status
      ∧ registry (parse_and_execute os s input is_parallel) = registry s := by
  have hne : tokenize input ≠ [] := by rw [htok]; simp
  rw [parse_and_execute_of_tokens os s input is_parallel hne, dispatch_external _ _ _ hb]
  rw [htok] at *
  unfold external
  rw [redirect_scan_first os pre post _ hgt]
  match post, hpost with
  | [], _ => simp [finish, print_error, emit, diagnostic, registry]
  | [file], h => simp at h
  | a :: b :: r, _ => simp [finish, print_error, emit, diagnostic, registry]

/-- C2: a clause that is not a built-in and whose `>` is its second-to-last
token (the tokens are `pre`, then `>`, then one file name, and `>` does not
occur in `pre`): when `open` answers a descriptor `fd >= 0` and `fork` answers
a pid `> 0`, the calls made are the `open` of the last token with
`O_CREAT | O_WRONLY | O_TRUNC` and mode 0644, one `fork` for
`execute_command(pre, fd)`, the `close` of `fd`, and the wait loop when
sequential; one child is added. -/
theorem C2_redirect_launch (os : OS) (s : Shell) (input : Str) (is_parallel : Int)
    (pre : List Str) (file : Str) (fd pid : Int)
    (htok : tokenize input = pre ++ [str_gt, file]) (hgt : str_gt ∉ pre)
    (hb : first_is_builtin (tokenize input) = false)
    (hfd : os.open_ s.trace file = fd) (hopen : 0 ≤ fd)
    (hpid : os.fork (s.trace ++
      [Event.open_ file [OFlag.O_CREAT, OFlag.O_WRONLY, OFlag.O_TRUNC] 0o644 fd]) = pid)
    (hfork : 0 < pid) :
    (parse_and_execute os s input is_parallel).trace
        = s.trace
          ++ [Event.open_ file [OFlag.O_CREAT, OFlag.O_WRONLY, OFlag.O_TRUNC] 0o644 fd,
              Event.fork pre fd pid]
          ++ (if fd ≠ STDOUT_FILENO then [Event.close fd] else [])
          ++ (if is_parallel = 0 then wait_loop (s.children + 1) else [])
      ∧ (parse_and_execute os s input is_parallel).children
        = (if is_parallel = 0 then 0 else s.children + 1)
      ∧ (parse_and_execute os s input is_parallel).status = s.status := by
  have hne : tokenize input ≠ [] := by rw [htok]; simp
  rw [parse_and_execute_of_tokens os s input is_parallel hne, dispatch_external _ _ _ hb]
  rw [htok] at *
  unfold external
  rw [redirect_scan_first os pre [file] _ hgt]
  simp only [hfd, open_flags]
  rw [if_neg (by omega)]
  simp only []
  rw [execute_command_parent _ _ _ _ (by simpa [emit] using (by rw [hpid]; exact hfork))]
  by_cases hs : fd ≠ STDOUT_FILENO <;> by_cases hp : is_parallel = 0 <;>
    simp [finish, wait_all, emit, hs, hp, hpid]

/-- C2, witness: `cmd > out.txt` launches `["cmd"]` with `out.txt` as target. -/
theorem C2_redirect_launch_witness :
    (parse_and_execute os_ok (initial []) "cmd > out.txt".toList 0).trace
      = [Event.open_ "out.txt".toList [OFlag.O_CREAT, OFlag.O_WRONLY, OFlag.O_TRUNC] 0o644 3,
         Event.fork ["cmd".toList] 3 100, Event.close 3, Event.wait true, Event.wait false] :=
  (C2_redirect_launch os_ok (initial []) "cmd > out.txt".toList 0 ["cmd".toList]
    "out.txt".toList 3 100 (by decide) (by decide) (by decide) rfl (by decide) rfl
    (by decide)).1

/-- C3, as stated, fails: in `cmd > >` the last `>` token is followed by no
file name, yet the file `>` is opened and a child is spawned. -/
theorem C3_counterexample :
    tokenize "cmd > >".toList = ["cmd".toList, str_gt, str_gt]
      ∧ first_is_builtin (tokenize "cmd > >".toList) = false
      ∧ (parse_and_execute os_ok (initial []) "cmd > >".toList 0).trace
        = [Event.open_ str_gt [OFlag.O_CREAT, OFlag.O_WRONLY, OFlag.O_TRUNC] 0o644 3,
           Event.fork ["cmd".toList] 3 100, Event.close 3, Event.wait true, Event.wait false] := by
  decide

/-- C3, amended: when the first `>` of a clause that is not a built-in is
followed by no token or by more than one, the diagnostic is written once, no
file is opened, no process is spawned, and the function returns. -/
theorem C3_misplaced_redirect (os : OS) (s : Shell) (input : Str) (is_parallel : Int)
    (pre post : List Str)
    (htok : tokenize input = pre ++ str_gt :: post) (hgt : str_gt ∉ pre)
    (hpost : post.length ≠ 1) (hb : first_is_builtin (tokenize input) = false) :
    (parse_and_execute os s input is_parallel).trace = s.trace ++ [diagnostic]
      ∧ (parse_and_execute os s input is_parallel).children = s.children
      ∧ (parse_and_execute os s input is_parallel).status = s.status :=
  have h := misplaced_gt_outcome os s input is_parallel pre post htok hgt hpost hb
  ⟨h.1, h.2.1, h.2.2.1⟩

/-- C3, witnesses: `cmd >` and `cmd a > b > c` write the diagnostic and
nothing else. -/
theorem C3_misplaced_redirect_witness :
    (parse_and_execute os_ok (initial []) "cmd >".toList 0).trace = [diagnostic]
      ∧ (parse_and_execute os_ok (initial []) "cmd a > b > c".toList 0).trace = [diagnostic] :=
  ⟨(C3_misplaced_redirect os_ok (initial []) "cmd >".toList 0 ["cmd".toList] []
      (by decide) (by decide) (by decide) (by decide)).1,
   (C3_misplaced_redirect os_ok (initial []) "cmd a > b > c".toList 0
      ["cmd".toList, "a".toList] ["b".toList, str_gt, "c".toList]
      (by decide) (by decide) (by decide) (by decide)).1⟩

theorem wait_loop_mem (n : Nat) : ∀ e ∈ wait_loop n, ∃ b, e = Event.wait b := by
  induction n with
  | zero => intro e he; exact ⟨false, by simpa [wait_loop] using he⟩
  | succ n ih =>
    intro e he
    rcases List.mem_cons.1 he with h | h
    · exact ⟨true, h⟩
    · exact ih e h

theorem wait_loop_quiet (n : Nat) :
    ∀ e ∈ wait_loop n, e.is_open = false ∧ e.is_fork = false := by
  intro e he
  obtain ⟨b, hb⟩ := wait_loop_mem n e he
  subst hb
  exact ⟨rfl, rfl⟩

theorem first_occurrence (a : Str) (l : List Str) (h : a ∈ l) :
    ∃ pre post, l = pre ++ a :: post ∧ a ∉ pre ∧ pre.length = l.indexOf a := by
  induction l with
  | nil => simp at h
  | cons b l ih =>
    by_cases hba : b = a
    · subst hba
      exact ⟨[], l, by simp, by simp, by simp [List.indexOf_cons]⟩
    · have hal : a ∈ l := by
        rcases List.mem_cons.1 h with h1 | h1
        · exact absurd h1.symm hba
        · exact h1
      obtain ⟨pre, post, h1, h2, h3⟩ := ih hal
      refine ⟨b :: pre, post, by rw [h1]; simp, ?_, ?_⟩
      · intro hmem
        rcases List.mem_cons.1 hmem with h4 | h4
        · exact hba h4.symm
        · exact h2 h4
      · have hbeq : (b == a) = false := by simpa using hba
        rw [List.indexOf_cons, hbeq, List.length_cons, h3]
        rfl

/-- C4, as stated, fails: `ls > >` has two `>` tokens, yet the file `>` is
opened and a child is spawned, with no diagnostic. -/
theorem C4_counterexample :
    (tokenize "ls > >".toList).count str_gt = 2
      ∧ first_is_builtin (tokenize "ls > >".toList) = false
      ∧ (parse_and_execute os_ok (initial []) "ls > >".toList 1).trace
        = [Event.open_ str_gt [OFlag.O_CREAT, OFlag.O_WRONLY, OFlag.O_TRUNC] 0o644 3,
           Event.fork ["ls".toList] 3 100, Event.close 3] := by
  decide

/-- C4, amended: a clause that is not a built-in, has more than one `>` token,
and whose first `>` is not its second-to-last token (every such clause but one
that ends in `> >` with no `>` before) is a syntax error: the diagnostic is
written once, no file is opened and no process is spawned. -/
theorem C4_many_redirects (os : OS) (s : Shell) (input : Str) (is_parallel : Int)
    (hmany : 2 ≤ (tokenize input).count str_gt)
    (hfirst : (tokenize input).indexOf str_gt + 2 ≠ (tokenize input).length)
    (hb : first_is_builtin (tokenize input) = false) :
    (parse_and_execute os s input is_parallel).trace = s.trace ++ [diagnostic]
      ∧ (parse_and_execute os s input is_parallel).children = s.children
      ∧ (parse_and_execute os s input is_parallel).status = s.status := by
  have hmem : str_gt ∈ tokenize input := List.count_pos_iff.1 (by omega)
  obtain ⟨pre, post, h1, h2, h3⟩ := first_occurrence str_gt (tokenize input) hmem
  have hpost : post.length ≠ 1 := by
    intro hp
    apply hfirst
    rw [← h3]
    have := congrArg List.length h1
    simp only [List.length_append, List.length_cons] at this
    omega
  have h := misplaced_gt_outcome os s input is_parallel pre post h1 h2 hpost hb
  exact ⟨h.1, h.2.1, h.2.2.1⟩

/-- C4, witnesses: `cmd a > b > c` and `cmd > > f`. -/
theorem C4_many_redirects_witness :
    (parse_and_execute os_ok (initial []) "cmd a > b > c".toList 1).trace = [diagnostic]
      ∧ (parse_and_execute os_ok (initial []) "cmd > > f".toList 1).trace = [diagnostic] :=
  ⟨(C4_many_redirects os_ok (initial []) "cmd a > b > c".toList 1
      (by decide) (by decide) (by decide)).1,
   (C4_many_redirects os_ok (initial []) "cmd > > f".toList 1
      (by decide) (by decide) (by decide)).1⟩

/-- C5: a non-empty clause that is not a built-in and has no `>` token opens no
file and calls `execute_command` with all its tokens and `STDOUT_FILENO`: the
first call is that `fork`, no later call is an `open` or a `fork`, and when the
spawn succeeds nothing follows but the wait loop of the sequential mode. -/
theorem C5_no_redirect (os : OS) (s : Shell) (input : Str) (is_parallel : Int)
    (hne : tokenize input ≠ []) (hgt : str_gt ∉ tokenize input)
    (hb : first_is_builtin (tokenize input) = false) :
    ∃ tail,
      (parse_and_execute os s input is_parallel).trace
          = s.trace ++ Event.fork (tokenize input) STDOUT_FILENO (os.fork s.trace) :: tail
        ∧ (∀ e ∈ tail, e.is_open = false ∧ e.is_fork = false)
        ∧ (0 < os.fork s.trace →
            tail = (if is_parallel = 0 then wait_loop (s.children + 1) else [])
              ∧ (parse_and_execute os s input is_parallel).children
                = (if is_parallel = 0 then 0 else s.children + 1)) := by
  rw [parse_and_execute_of_tokens os s input is_parallel hne, dispatch_external _ _ _ hb]
  unfold external
  rw [redirect_scan_none os _ _ hgt]
  simp only []
  rcases lt_trichotomy (os.fork s.trace) 0 with hlt | heq | hgt0
  · rw [execute_command_failed _ _ _ _ (by simpa using hlt)]
    by_cases hp : is_parallel = 0
    · refine ⟨diagnostic :: wait_loop s.children, ?_, ?_, ?_⟩
      · simp [finish, wait_all, print_error, emit, hp, diagnostic]
      · intro e he
        rcases List.mem_cons.1 he with h | h
        · subst h; exact ⟨rfl, rfl⟩
        · exact wait_loop_quiet _ e h
      · intro h; omega
    · refine ⟨[diagnostic], ?_, ?_, ?_⟩
      · simp [finish, print_error, emit, hp, diagnostic]
      · simp [diagnostic, Event.is_open, Event.is_fork]
      · intro h; omega
  · rw [execute_command_child _ _ _ _ (by simpa using heq)]
    obtain ⟨tail, h1, h2⟩ := child_trace os
      { emit { s with stores := s.stores ++
          (List.range ((tokenize input).length + 1)).map Store.args }
          (Event.fork (tokenize input) STDOUT_FILENO 0) with children := 0 }
      (tokenize input) STDOUT_FILENO
    refine ⟨tail, ?_, h2, ?_⟩
    · simp only [finish]; rw [h1]; simp [emit, heq]
    · intro h; omega
  · rw [execute_command_parent _ _ _ _ (by simpa using hgt0)]
    by_cases hp : is_parallel = 0
    · exact ⟨wait_loop (s.children + 1), by simp [finish, wait_all, emit, hp, STDOUT_FILENO],
        wait_loop_quiet _, fun _ => by simp [finish, wait_all, emit, hp, STDOUT_FILENO]⟩
    · exact ⟨[], by simp [finish, emit, hp, STDOUT_FILENO], by simp,
        fun _ => by simp [finish, emit, hp, STDOUT_FILENO]⟩

/-- C5, witness: `ls -l` with a spawn that succeeds. -/
theorem C5_no_redirect_witness :
    (parse_and_execute os_ok (initial []) "ls -l".toList 0).trace
      = [Event.fork ["ls".toList, "-l".toList] STDOUT_FILENO 100,
         Event.wait true, Event.wait false] := by
  obtain ⟨tail, h1, _, h3⟩ := C5_no_redirect os_ok (initial []) "ls -l".toList 0
    (by decide) (by decide) (by decide)
  rw [h1, (h3 (by decide)).1]
  decide

/-! ## The `path` built-in -/

theorem registry_snoc (s : Shell) (v : Option Str) (st : List Store) :
    registry { s with
        paths := Function.update s.paths s.path_count v
        path_count := s.path_count + 1
        stores := st }
      = registry s ++ [v] := by
  simp only [registry, List.range_succ, List.map_append, List.map_cons, List.map_nil,
    Function.update_same]
  congr 1
  apply List.map_congr_left
  intro j hj
  have : j ≠ s.path_count := by
    have := List.mem_range.1 hj
    omega
  simp [Function.update_noteq this]

theorem path_loop_spec (args : List Str) (n i : Nat) (s : Shell) (h : i + n = args.length) :
    registry (path_loop args n i s) = registry s ++ (args.drop i).map some
      ∧ (path_loop args n i s).path_count = s.path_count + n
      ∧ (path_loop args n i s).trace = s.trace
      ∧ (path_loop args n i s).cwd = s.cwd
      ∧ (path_loop args n i s).children = s.children
      ∧ (path_loop args n i s).status = s.status := by
  induction n generalizing i s with
  | zero =>
    have : args.drop i = [] := List.drop_eq_nil_of_le (by omega)
    simp [path_loop, this]
  | succ n ih =>
    have hi : i < args.length := by omega
    have hd : args.drop i = args[i] :: args.drop (i + 1) := List.drop_eq_getElem_cons hi
    have hg : args[i]? = some args[i] := List.getElem?_eq_getElem hi
    unfold path_loop
    obtain ⟨h1, h2, h3, h4, h5, h6⟩ := ih (i + 1)
      { s with
        paths := Function.update s.paths s.path_count args[i]?
        path_count := s.path_count + 1
        stores := s.stores ++ [Store.paths s.path_count] } (by omega)
    dsimp only at h2 h3 h4 h5 h6
    refine ⟨?_, ?_, h3, h4, h5, h6⟩
    · rw [h1, registry_snoc, hg, hd, List.map_cons, List.append_assoc]; rfl
    · rw [h2]; omega

theorem set_paths_spec (s : Shell) (name : Str) (ds : List Str) :
    registry (set_paths s (name :: ds)) = ds.map some
      ∧ (set_paths s (name :: ds)).path_count = ds.length
      ∧ (set_paths s (name :: ds)).paths ds.length = none
      ∧ (set_paths s (name :: ds)).trace = s.trace
      ∧ (set_paths s (name :: ds)).cwd = s.cwd
      ∧ (set_paths s (name :: ds)).children = s.children
      ∧ (set_paths s (name :: ds)).status = s.status := by
  obtain ⟨h1, h2, h3, h4, h5, h6⟩ := path_loop_spec (name :: ds) ds.length 1
    { s with path_count := 0 } (by simp; omega)
  simp only [List.length_cons, Nat.add_sub_cancel, set_paths]
  dsimp only at h2 h3 h4 h5 h6
  simp only [Nat.zero_add] at h2
  refine ⟨?_, h2, ?_, h3, h4, h5, h6⟩
  · have : registry (path_loop (name :: ds) ds.length 1 { s with path_count := 0 })
        = ds.map some := by
      rw [h1]; simp [registry]
    rw [← this]
    simp only [registry]
    apply List.map_congr_left
    intro j hj
    have : j ≠ (path_loop (name :: ds) ds.length 1 { s with path_count := 0 }).path_count := by
      have := List.mem_range.1 hj
      omega
    simp [Function.update_noteq this]
  · rw [h2]; simp

/-! ## The built-ins -/

theorem dispatch_exit (os : OS) (s : Shell) (rest : List Str) :
    dispatch os s (str_exit :: rest)
      = if rest = [] then Flow.stop (sys_exit s 0) else Flow.next (print_error s) := by
  cases rest with
  | nil => simp [dispatch, builtin]
  | cons a r => simp [dispatch, builtin]

theorem dispatch_cd_arity (os : OS) (s : Shell) (rest : List Str) (h : rest.length ≠ 1) :
    dispatch os s (str_cd :: rest) = Flow.next (print_error s) := by
  have h1 : ¬ (some str_cd = some str_exit) := by decide
  have h2 : (str_cd :: rest).length ≠ 2 := by simp; omega
  simp only [dispatch, builtin, List.getElem?_cons_zero, h1, if_false, if_true, h2, ne_eq,
    not_false_eq_true]

theorem dispatch_cd (os : OS) (s : Shell) (dir : Str) :
    dispatch os s [str_cd, dir]
      = match os.chdir s.trace s.cwd dir with
        | some d => Flow.next { emit s (Event.chdir dir 0) with cwd := d }
        | none => Flow.next (print_error (emit s (Event.chdir dir (-1)))) := by
  have h1 : ¬ (some str_cd = some str_exit) := by decide
  simp only [dispatch, builtin, List.getElem?_cons_zero, h1, if_false, if_true, sys_chdir]
  cases h : os.chdir s.trace s.cwd dir <;> simp [h]

theorem dispatch_path (os : OS) (s : Shell) (ds : List Str) :
    dispatch os s (str_path :: ds) = Flow.next (set_paths s (str_path :: ds)) := by
  have h1 : ¬ (some str_path = some str_exit) := by decide
  have h2 : ¬ (some str_path = some str_cd) := by decide
  simp only [dispatch, builtin, List.getElem?_cons_zero, h1, h2, if_false, if_true]

theorem wait_loop_no_diagnostic (n : Nat) : (wait_loop n).count diagnostic = 0 := by
  rw [List.count_eq_zero]
  intro hmem
  obtain ⟨b, hb⟩ := wait_loop_mem n _ hmem
  simp [diagnostic] at hb

/-- C6: after a clause `path d1 ... dn` (n >= 0) the registry is exactly
`[d1, ..., dn]`, whatever it was before: `path_count = n`, `paths[n]` is `NULL`,
and the only calls made are those of the wait loop in sequential mode, so no
diagnostic is written. -/
theorem C6_path_replaces_registry (os : OS) (s : Shell) (input : Str) (is_parallel : Int)
    (ds : List Str) (htok : tokenize input = str_path :: ds) :
    registry (parse_and_execute os s input is_parallel) = ds.map some
      ∧ (parse_and_execute os s input is_parallel).path_count = ds.length
      ∧ (parse_and_execute os s input is_parallel).paths ds.length = none
      ∧ (parse_and_execute os s input is_parallel).trace
        = s.trace ++ (if is_parallel = 0 then wait_loop s.children else [])
      ∧ (parse_and_execute os s input is_parallel).trace.count diagnostic
        = s.trace.count diagnostic := by
  have hne : tokenize input ≠ [] := by rw [htok]; simp
  rw [parse_and_execute_of_tokens os s input is_parallel hne, htok, dispatch_path]
  obtain ⟨h1, h2, h3, h4, _, h6, _⟩ := set_paths_spec
    { s with stores := s.stores ++
        (List.range ((str_path :: ds).length + 1)).map Store.args } str_path ds
  by_cases hp : is_parallel = 0
  · simp only [finish, hp, if_true, wait_all]
    refine ⟨h1, h2, h3, ?_, ?_⟩
    · rw [h4, h6]
    · rw [h4, h6, List.count_append, wait_loop_no_diagnostic]; rfl
  · simp only [finish, hp, if_false]
    exact ⟨h1, h2, h3, by rw [h4]; simp, by rw [h4]⟩

/-- C6, witness: `path /a /b` replaces the default `/bin`, and `path` alone
empties the registry. -/
theorem C6_path_replaces_registry_witness :
    registry (parse_and_execute os_ok (initial []) "path /a /b".toList 0)
        = [some "/a".toList, some "/b".toList]
      ∧ registry (parse_and_execute os_ok (initial []) "path".toList 0) = [] :=
  ⟨(C6_path_replaces_registry os_ok (initial []) "path /a /b".toList 0
      ["/a".toList, "/b".toList] (by decide)).1,
   (C6_path_replaces_registry os_ok (initial []) "path".toList 0 [] (by decide)).1⟩

/-- C8: a clause whose first token is `exit`. Alone, it ends the process at
once with status 0, nothing else being written; with further tokens the
diagnostic is written once and the process goes on (its status is unchanged
and no `exit` is called). -/
theorem C8_exit (os : OS) (s : Shell) (input : Str) (is_parallel : Int) (rest : List Str)
    (htok : tokenize input = str_exit :: rest) :
    (rest = [] →
        (parse_and_execute os s input is_parallel).trace = s.trace ++ [Event.exit 0]
          ∧ (parse_and_execute os s input is_parallel).status = Status.exited 0)
      ∧ (rest ≠ [] →
        (parse_and_execute os s input is_parallel).trace
            = s.trace ++ diagnostic :: (if is_parallel = 0 then wait_loop s.children else [])
          ∧ (parse_and_execute os s input is_parallel).status = s.status) := by
  have hne : tokenize input ≠ [] := by rw [htok]; simp
  rw [parse_and_execute_of_tokens os s input is_parallel hne, htok, dispatch_exit]
  constructor
  · intro h
    simp [h, finish, sys_exit, emit]
  · intro h
    by_cases hp : is_parallel = 0 <;>
      simp [h, hp, finish, wait_all, print_error, emit, diagnostic]

/-- C8, witness: `exit extra` writes the diagnostic and does not end the
process; `exit` ends it with status 0. -/
theorem C8_exit_witness :
    ((parse_and_execute os_ok (initial []) "exit extra".toList 0).trace
          = [diagnostic, Event.wait false]
        ∧ (parse_and_execute os_ok (initial []) "exit extra".toList 0).status = Status.running)
      ∧ ((parse_and_execute os_ok (initial []) "exit".toList 0).trace = [Event.exit 0]
        ∧ (parse_and_execute os_ok (initial []) "exit".toList 0).status = Status.exited 0) :=
  ⟨(C8_exit os_ok (initial []) "exit extra".toList 0 ["extra".toList] (by decide)).2 (by decide),
   (C8_exit os_ok (initial []) "exit".toList 0 [] (by decide)).1 rfl⟩

/-- C9: a clause whose first token is `cd`. With a number of arguments other
than one, the diagnostic is written once and `chdir` is not called. With one
argument `chdir` is called on it once; when it succeeds the working directory
is the one `chdir` moved to and no diagnostic is written, when it fails the
diagnostic is written once and the working directory is unchanged. -/
theorem C9_cd (os : OS) (s : Shell) (input : Str) (is_parallel : Int) (rest : List Str)
    (htok : tokenize input = str_cd :: rest) :
    (rest.length ≠ 1 →
        (parse_and_execute os s input is_parallel).trace
            = s.trace ++ diagnostic :: (if is_parallel = 0 then wait_loop s.children else [])
          ∧ (parse_and_execute os s input is_parallel).cwd = s.cwd)
      ∧ (∀ dir, rest = [dir] →
          (∀ d, os.chdir s.trace s.cwd dir = some d →
            (parse_and_execute os s input is_parallel).trace
                = s.trace ++ Event.chdir dir 0
                    :: (if is_parallel = 0 then wait_loop s.children else [])
              ∧ (parse_and_execute os s input is_parallel).cwd = d)
          ∧ (os.chdir s.trace s.cwd dir = none →
            (parse_and_execute os s input is_parallel).trace
                = s.trace ++ Event.chdir dir (-1) :: diagnostic
                    :: (if is_parallel = 0 then wait_loop s.children else [])
              ∧ (parse_and_execute os s input is_parallel).cwd = s.cwd)) := by
  have hne : tokenize input ≠ [] := by rw [htok]; simp
  rw [parse_and_execute_of_tokens os s input is_parallel hne, htok]
  constructor
  · intro h
    rw [dispatch_cd_arity _ _ _ h]
    by_cases hp : is_parallel = 0 <;>
      simp [hp, finish, wait_all, print_error, emit, diagnostic]
  · intro dir hdir
    subst hdir
    rw [dispatch_cd]
    constructor
    · intro d hd
      simp only [hd]
      by_cases hp : is_parallel = 0 <;> simp [hp, finish, wait_all, emit]
    · intro hd
      simp only [hd]
      by_cases hp : is_parallel = 0 <;>
        simp [hp, finish, wait_all, print_error, emit, diagnostic]

/-- C9, witness: `cd /nonexistent` with a `chdir` that fails, `cd /tmp` with
one that succeeds, and `cd` with no argument. -/
theorem C9_cd_witness :
    ((parse_and_execute os_fail (initial "/home".toList) "cd /nonexistent".toList 0).trace
          = [Event.chdir "/nonexistent".toList (-1), diagnostic, Event.wait false]
        ∧ (parse_and_execute os_fail (initial "/home".toList) "cd /nonexistent".toList 0).cwd
          = "/home".toList)
      ∧ ((parse_and_execute os_ok (initial "/home".toList) "cd /tmp".toList 0).trace
          = [Event.chdir "/tmp".toList 0, Event.wait false]
        ∧ (parse_and_execute os_ok (initial "/home".toList) "cd /tmp".toList 0).cwd
          = "/tmp".toList)
      ∧ ((parse_and_execute os_ok (initial "/home".toList) "cd".toList 0).trace
          = [diagnostic, Event.wait false]
        ∧ (parse_and_execute os_ok (initial "/home".toList) "cd".toList 0).cwd
          = "/home".toList) :=
  ⟨((C9_cd os_fail (initial "/home".toList) "cd /nonexistent".toList 0 ["/nonexistent".toList]
      (by decide)).2 "/nonexistent".toList rfl).2 rfl,
   ((C9_cd os_ok (initial "/home".toList) "cd /tmp".toList 0 ["/tmp".toList]
      (by decide)).2 "/tmp".toList rfl).1 "/tmp".toList rfl,
   (C9_cd os_ok (initial "/home".toList) "cd".toList 0 [] (by decide)).1 (by decide)⟩

theorem head_eq_cons (l : List Str) (a : Str) (h : l[0]? = some a) : ∃ rest, l = a :: rest := by
  cases l with
  | nil => simp at h
  | cons b r =>
    simp only [List.getElem?_cons_zero, Option.some.injEq] at h
    exact ⟨r, by rw [h]⟩

theorem quiet_cons_wait (e0 : Event) (h0 : e0.is_open = false ∧ e0.is_fork = false)
    (is_parallel : Int) (n : Nat) :
    ∀ e ∈ e0 :: (if is_parallel = 0 then wait_loop n else []),
      e.is_open = false ∧ e.is_fork = false := by
  intro e he
  rcases List.mem_cons.1 he with h | h
  · subst h; exact h0
  · by_cases hp : is_parallel = 0
    · rw [if_pos hp] at h; exact wait_loop_quiet n e h
    · rw [if_neg hp] at h; simp at h

/-- A clause whose first token is `exit`, `cd` or `path` opens no file and
spawns no process. -/
theorem builtin_quiet (os : OS) (s : Shell) (input : Str) (is_parallel : Int)
    (h : first_is_builtin (tokenize input) = true) :
    ∃ tail, (parse_and_execute os s input is_parallel).trace = s.trace ++ tail
      ∧ ∀ e ∈ tail, e.is_open = false ∧ e.is_fork = false := by
  unfold first_is_builtin at h
  simp only [Bool.or_eq_true, decide_eq_true_eq] at h
  have hne : tokenize input ≠ [] := by
    intro h0
    rw [h0] at h
    simp at h
  rw [parse_and_execute_of_tokens os s input is_parallel hne]
  rcases h with (h | h) | h
  · obtain ⟨rest, hr⟩ := head_eq_cons _ _ h
    rw [hr, dispatch_exit]
    by_cases h0 : rest = []
    · exact ⟨[Event.exit 0], by simp [h0, finish, sys_exit, emit],
        by simp [Event.is_open, Event.is_fork]⟩
    · refine ⟨diagnostic :: (if is_parallel = 0 then wait_loop s.children else []), ?_,
        quiet_cons_wait diagnostic ⟨rfl, rfl⟩ _ _⟩
      by_cases hp : is_parallel = 0 <;>
        simp [h0, hp, finish, wait_all, print_error, emit, diagnostic]
  · obtain ⟨rest, hr⟩ := head_eq_cons _ _ h
    rw [hr]
    by_cases h1 : rest.length ≠ 1
    · rw [dispatch_cd_arity _ _ _ h1]
      refine ⟨diagnostic :: (if is_parallel = 0 then wait_loop s.children else []), ?_,
        quiet_cons_wait diagnostic ⟨rfl, rfl⟩ _ _⟩
      by_cases hp : is_parallel = 0 <;>
        simp [hp, finish, wait_all, print_error, emit, diagnostic]
    · obtain ⟨dir, hd⟩ := List.length_eq_one.1 (not_not.1 h1)
      rw [hd, dispatch_cd]
      cases hc : os.chdir s.trace s.cwd dir with
      | some d =>
        refine ⟨Event.chdir dir 0 :: (if is_parallel = 0 then wait_loop s.children else []), ?_,
          quiet_cons_wait (Event.chdir dir 0) ⟨rfl, rfl⟩ _ _⟩
        by_cases hp : is_parallel = 0 <;> simp [hc, hp, finish, wait_all, emit]
      | none =>
        refine ⟨Event.chdir dir (-1) ::
          (diagnostic :: (if is_parallel = 0 then wait_loop s.children else [])), ?_, ?_⟩
        · by_cases hp : is_parallel = 0 <;>
            simp [hc, hp, finish, wait_all, print_error, emit, diagnostic]
        · intro e he
          rcases List.mem_cons.1 he with h2 | h2
          · subst h2; exact ⟨rfl, rfl⟩
          · exact quiet_cons_wait diagnostic ⟨rfl, rfl⟩ _ _ e h2
  · obtain ⟨rest, hr⟩ := head_eq_cons _ _ h
    obtain ⟨_, _, _, h4, _, h6, _⟩ := set_paths_spec
      { s with stores := s.stores ++
          (List.range ((str_path :: rest).length + 1)).map Store.args } str_path rest
    rw [hr, dispatch_path]
    by_cases hp : is_parallel = 0
    · exact ⟨wait_loop s.children, by simp only [finish, hp, if_true, wait_all]; rw [h4, h6],
        wait_loop_quiet _⟩
    · exact ⟨[], by simp only [finish, hp, if_false]; rw [h4]; simp, by simp⟩

/-- C10: the chain of built-ins is entered exactly when the first token is
`exit`, `cd` or `path`, compared byte for byte; a clause that enters it opens no
file and spawns no process, whatever its other tokens; a non-empty clause with
any other first token runs the redirection scan and the launcher. `Exit`, `CD`
and `paths` are not built-ins, and `path > f` opens nothing. -/
theorem C10_builtin_dispatch (os : OS) (s : Shell) (input : Str) (is_parallel : Int) :
    ((∀ s0, (builtin os s0 (tokenize input)).isSome = true) ↔
        ((tokenize input)[0]? = some "exit".toList ∨ (tokenize input)[0]? = some "cd".toList
          ∨ (tokenize input)[0]? = some "path".toList))
      ∧ ((∀ s0, (builtin os s0 (tokenize input)).isSome = true) →
          ∃ tail, (parse_and_execute os s input is_parallel).trace = s.trace ++ tail
            ∧ ∀ e ∈ tail, e.is_open = false ∧ e.is_fork = false)
      ∧ (tokenize input ≠ [] → (∀ s0, builtin os s0 (tokenize input) = none) →
          parse_and_execute os s input is_parallel
            = finish is_parallel (external os
                { s with stores := s.stores ++
                    (List.range ((tokenize input).length + 1)).map Store.args }
                (tokenize input)))
      ∧ (builtin os s (tokenize "Exit".toList) = none
          ∧ builtin os s (tokenize "CD /tmp".toList) = none
          ∧ builtin os s (tokenize "paths /bin".toList) = none)
      ∧ (parse_and_execute os_ok (initial []) "path > f".toList 0).trace = [Event.wait false] := by
  have hiff : ∀ s0, (builtin os s0 (tokenize input)).isSome = true
      ↔ first_is_builtin (tokenize input) = true := by
    intro s0
    constructor
    · intro h
      by_contra hn
      rw [builtin_none_of os s0 _ (by simpa using hn)] at h
      simp at h
    · exact builtin_some_of os s0 _
  have hname : first_is_builtin (tokenize input) = true ↔
      ((tokenize input)[0]? = some "exit".toList ∨ (tokenize input)[0]? = some "cd".toList
          ∨ (tokenize input)[0]? = some "path".toList) := by
    unfold first_is_builtin
    simp only [Bool.or_eq_true, decide_eq_true_eq, or_assoc]
    rfl
  refine ⟨?_, ?_, ?_, ?_, by decide⟩
  · rw [← hname]
    exact ⟨fun h => (hiff s).1 (h s), fun h s0 => (hiff s0).2 h⟩
  · intro h
    exact builtin_quiet os s input is_parallel ((hiff s).1 (h s))
  · intro hne h
    rw [parse_and_execute_of_tokens os s input is_parallel hne]
    simp only [dispatch, h]
  · exact ⟨builtin_none_of os s _ (by decide), builtin_none_of os s _ (by decide),
      builtin_none_of os s _ (by decide)⟩

/-! ## The child: resolution against the registry -/

theorem registry_entries (s : Shell) (ds : List Str) (h : registry s = ds.map some) :
    s.path_count = ds.length ∧ ∀ j, j < ds.length → s.paths j = ds[j]? := by
  have hlen : s.path_count = ds.length := by
    have := congrArg List.length h
    simpa [registry] using this
  refine ⟨hlen, fun j hj => ?_⟩
  have h1 := congrArg (fun l => l[j]?) h
  simp only [registry, List.getElem?_map] at h1
  rw [List.getElem?_range (by omega)] at h1
  rw [List.getElem?_eq_getElem hj] at h1 ⊢
  simpa using h1

theorem exec_paths_all_fail (os : OS) (c : Str) (rest ds : List Str) (i : Nat) (s : Shell)
    (hp : ∀ j, j < ds.length → s.paths (i + j) = ds[j]?)
    (hx : ∀ d ∈ ds, os.execv (snprintf_cmd d c) (c :: rest) = false) :
    exec_paths os (c :: rest) ds.length i s
      = Flow.next { s with trace := (s.trace ++
          ds.map (fun d => Event.execv (snprintf_cmd d c) (c :: rest) false)) } := by
  induction ds generalizing i s with
  | nil => simp [exec_paths]
  | cons d ds ih =>
    have h0 : s.paths i = some d := by simpa using hp 0 (by simp)
    have hd : os.execv (snprintf_cmd d c) (c :: rest) = false := hx d (by simp)
    simp only [List.length_cons, exec_paths, h0, List.getElem?_cons_zero, hd]
    rw [if_neg (by simp)]
    rw [ih (i + 1) _ (fun j hj => by
      have := hp (j + 1) (by simp; omega)
      simpa [emit, Nat.add_assoc, Nat.add_comm 1 j] using this)
      (fun x hx1 => hx x (List.mem_cons_of_mem _ hx1))]
    simp [emit]

theorem exec_paths_first_success (os : OS) (c : Str) (rest ds1 : List Str) (d : Str)
    (n i : Nat) (s : Shell)
    (hp : ∀ j, j < ds1.length → s.paths (i + j) = ds1[j]?)
    (hd : s.paths (i + ds1.length) = some d)
    (hx : ∀ x ∈ ds1, os.execv (snprintf_cmd x c) (c :: rest) = false)
    (hok : os.execv (snprintf_cmd d c) (c :: rest) = true) :
    exec_paths os (c :: rest) (ds1.length + 1 + n) i s
      = Flow.stop { s with
          trace := (s.trace ++
            ds1.map (fun x => Event.execv (snprintf_cmd x c) (c :: rest) false)
            ++ [Event.execv (snprintf_cmd d c) (c :: rest) true]),
          status := (Status.replaced (snprintf_cmd d c) (c :: rest)) } := by
  induction ds1 generalizing i s with
  | nil =>
    have h0 : s.paths i = some d := by simpa using hd
    rw [show ([] : List Str).length + 1 + n = n + 1 by simp; omega]
    simp only [exec_paths, h0, List.getElem?_cons_zero, hok, if_true]
    simp [emit]
  | cons x ds1 ih =>
    have h0 : s.paths i = some x := by simpa using hp 0 (by simp)
    have hxf : os.execv (snprintf_cmd x c) (c :: rest) = false := hx x (by simp)
    rw [show (x :: ds1).length + 1 + n = (ds1.length + 1 + n) + 1 by simp; omega]
    simp only [exec_paths, h0, List.getElem?_cons_zero, hxf]
    rw [if_neg (by simp)]
    rw [ih (i + 1) _ (fun j hj => by
      have := hp (j + 1) (by simp; omega)
      simpa [emit, Nat.add_assoc, Nat.add_comm 1 j] using this)
      (by
        have : i + 1 + ds1.length = i + (x :: ds1).length := by simp; omega
        simpa [emit, this] using hd)
      (fun y hy => hx y (List.mem_cons_of_mem _ hy))]
    simp [emit]

theorem snprintf_cmd_short (d c : Str) (h : d.length + 1 + c.length < MAX_CMD_LEN) :
    snprintf_cmd d c = d ++ '/' :: c := by
  unfold snprintf_cmd
  apply List.take_of_length_le
  simp only [List.length_append, List.length_cons, MAX_CMD_LEN] at *
  omega

/-- What the child does once its standard output is in place: with the
registry `ds` it tries `snprintf_cmd d c` for each `d` in order. -/
theorem child_exec_spec (os : OS) (s : Shell) (c : Str) (rest ds : List Str)
    (hreg : registry s = ds.map some) :
    ((∀ d ∈ ds, os.execv (snprintf_cmd d c) (c :: rest) = false) →
        (child_exec os s (c :: rest)).trace
            = s.trace ++ ds.map (fun d => Event.execv (snprintf_cmd d c) (c :: rest) false)
              ++ [diagnostic, Event.exit 1]
          ∧ (child_exec os s (c :: rest)).status = Status.exited 1)
      ∧ (∀ ds1 d ds2, ds = ds1 ++ d :: ds2 →
          (∀ x ∈ ds1, os.execv (snprintf_cmd x c) (c :: rest) = false) →
          os.execv (snprintf_cmd d c) (c :: rest) = true →
          (child_exec os s (c :: rest)).trace
              = s.trace ++ ds1.map (fun x => Event.execv (snprintf_cmd x c) (c :: rest) false)
                ++ [Event.execv (snprintf_cmd d c) (c :: rest) true]
            ∧ (child_exec os s (c :: rest)).status
              = Status.replaced (snprintf_cmd d c) (c :: rest)) := by
  obtain ⟨hcount, hget⟩ := registry_entries s ds hreg
  constructor
  · intro hx
    have := exec_paths_all_fail os c rest ds 0 s (fun j hj => by simpa using hget j hj) hx
    simp [child_exec, hcount, this, sys_exit, print_error, emit, diagnostic]
  · intro ds1 d ds2 hds hx hok
    subst hds
    have hlen : (ds1 ++ d :: ds2).length = ds1.length + 1 + ds2.length := by
      simp; omega
    have := exec_paths_first_success os c rest ds1 d ds2.length 0 s
      (fun j hj => by
        have := hget j (by rw [hlen]; omega)
        rw [List.getElem?_append_left hj] at this
        simpa using this)
      (by
        have := hget ds1.length (by rw [hlen]; omega)
        rw [List.getElem?_append_right (Nat.le_refl _)] at this
        simpa using this)
      hx hok
    simp [child_exec, hcount, hlen, this]

set_option maxRecDepth 20000 in
/-- C7, as stated, fails. With the registry holding one directory of 254
bytes, the only string tried for `ls` is that directory itself, cut off before
the `/`; and when the redirection of standard output fails nothing is tried
at all. -/
theorem C7_counterexample :
    registry { initial [] with paths := fun _ => some long_dir } = [some long_dir]
      ∧ (execute_command os_child { initial [] with paths := fun _ => some long_dir }
            ["ls".toList] STDOUT_FILENO).state.trace
        = [Event.fork ["ls".toList] STDOUT_FILENO 0,
           Event.execv long_dir ["ls".toList] false, diagnostic, Event.exit 1]
      ∧ long_dir ≠ long_dir ++ "/ls".toList
      ∧ (execute_command os_child (initial []) ["ls".toList] 3).state.trace
        = [Event.fork ["ls".toList] 3 0, Event.dup2 3 STDOUT_FILENO (-1), diagnostic,
           Event.exit 1] := by
  decide

/-- The search of the child whose standard output is in place, in terms of the
strings that `snprintf` leaves in `cmd`. -/
theorem execute_command_search (os : OS) (s : Shell) (c : Str) (rest ds : List Str) (fd : Int)
    (hreg : registry s = ds.map some) (hfork : os.fork s.trace = 0)
    (hout : fd = STDOUT_FILENO
      ∨ 0 ≤ os.dup2 (s.trace ++ [Event.fork (c :: rest) fd 0]) fd STDOUT_FILENO) :
    ((∀ d ∈ ds, os.execv (snprintf_cmd d c) (c :: rest) = false) →
          (execute_command os s (c :: rest) fd).state.trace
              = s.trace ++ Event.fork (c :: rest) fd 0
                  :: (if fd = STDOUT_FILENO then []
                      else [Event.dup2 fd STDOUT_FILENO
                              (os.dup2 (s.trace ++ [Event.fork (c :: rest) fd 0]) fd STDOUT_FILENO),
                            Event.close fd])
                ++ ds.map (fun d => Event.execv (snprintf_cmd d c) (c :: rest) false)
                ++ [diagnostic, Event.exit 1]
            ∧ (execute_command os s (c :: rest) fd).state.status = Status.exited 1)
      ∧ (∀ ds1 d ds2, ds = ds1 ++ d :: ds2 →
          (∀ x ∈ ds1, os.execv (snprintf_cmd x c) (c :: rest) = false) →
          os.execv (snprintf_cmd d c) (c :: rest) = true →
          (execute_command os s (c :: rest) fd).state.trace
              = s.trace ++ Event.fork (c :: rest) fd 0
                  :: (if fd = STDOUT_FILENO then []
                      else [Event.dup2 fd STDOUT_FILENO
                              (os.dup2 (s.trace ++ [Event.fork (c :: rest) fd 0]) fd STDOUT_FILENO),
                            Event.close fd])
                ++ ds1.map (fun x => Event.execv (snprintf_cmd x c) (c :: rest) false)
                ++ [Event.execv (snprintf_cmd d c) (c :: rest) true]
            ∧ (execute_command os s (c :: rest) fd).state.status
              = Status.replaced (snprintf_cmd d c) (c :: rest)) := by
  rw [execute_command_child os s (c :: rest) fd hfork]
  simp only [Flow.state, child]
  by_cases hfd : fd = STDOUT_FILENO
  · rw [if_neg (by simpa using hfd), if_pos hfd]
    have hspec := child_exec_spec os
      { emit s (Event.fork (c :: rest) fd 0) with children := 0 } c rest ds
      (by simpa [registry, emit] using hreg)
    constructor
    · intro hx
      have := hspec.1 hx
      simpa [emit] using this
    · intro ds1 d ds2 hds hx hok
      have := hspec.2 ds1 d ds2 hds hx hok
      simpa [emit] using this
  · have hdup : ¬ os.dup2 (s.trace ++ [Event.fork (c :: rest) fd 0]) fd STDOUT_FILENO < 0 := by
      rcases hout with h | h
      · exact absurd h hfd
      · omega
    rw [if_pos hfd, if_neg hfd]
    simp only [emit] at hdup ⊢
    rw [if_neg hdup]
    have hspec := child_exec_spec os
      { s with
        trace := s.trace ++ [Event.fork (c :: rest) fd 0] ++
          [Event.dup2 fd STDOUT_FILENO
            (os.dup2 (s.trace ++ [Event.fork (c :: rest) fd 0]) fd STDOUT_FILENO)] ++
          [Event.close fd]
        children := 0 } c rest ds
      (by simpa [registry] using hreg)
    constructor
    · intro hx
      have := hspec.1 hx
      simpa using this
    · intro ds1 d ds2 hds hx hok
      have := hspec.2 ds1 d ds2 hds hx hok
      simpa using this

/-- When `dup2` fails in the child, the diagnostic is written and the child
exits with status 1; no `execv` is made. -/
theorem execute_command_dup2_failed (os : OS) (s : Shell) (args : List Str) (fd : Int)
    (hfork : os.fork s.trace = 0) (hfd : fd ≠ STDOUT_FILENO)
    (hdup : os.dup2 (s.trace ++ [Event.fork args fd 0]) fd STDOUT_FILENO < 0) :
    (execute_command os s args fd).state.trace
        = s.trace ++ [Event.fork args fd 0,
            Event.dup2 fd STDOUT_FILENO
              (os.dup2 (s.trace ++ [Event.fork args fd 0]) fd STDOUT_FILENO),
            diagnostic, Event.exit 1]
      ∧ (execute_command os s args fd).state.status = Status.exited 1 := by
  rw [execute_command_child os s args fd hfork]
  simp only [Flow.state, child]
  rw [if_pos hfd]
  simp only [emit] at hdup ⊢
  rw [if_pos hdup]
  simp [sys_exit, print_error, emit, diagnostic]

/-- C7, amended: in the child (`fork` answered 0), with the registry
`[d1, ..., dn]` and the command name `c`. When every `di/c` fits the buffer
`cmd` (at most `MAX_CMD_LEN - 1 = 254` bytes) and the standard output is in
place (no redirection, or `dup2` did not fail), the strings tried are `d1/c`,
..., `dn/c` in registry order; the search stops at the first `execv` that
succeeds; when none does (also when the registry is empty) the diagnostic is
written once and the child exits with status 1. When `dup2` fails, whatever the
registry, the diagnostic is written once and the child exits with status 1,
no string having been tried. -/
theorem C7_child_resolution (os : OS) (s : Shell) (c : Str) (rest ds : List Str) (fd : Int)
    (hreg : registry s = ds.map some) (hfork : os.fork s.trace = 0) :
    ((∀ d ∈ ds, d.length + 1 + c.length < MAX_CMD_LEN) →
      (fd = STDOUT_FILENO
        ∨ 0 ≤ os.dup2 (s.trace ++ [Event.fork (c :: rest) fd 0]) fd STDOUT_FILENO) →
      ((∀ d ∈ ds, os.execv (d ++ '/' :: c) (c :: rest) = false) →
          (execute_command os s (c :: rest) fd).state.trace
              = s.trace ++ Event.fork (c :: rest) fd 0
                  :: (if fd = STDOUT_FILENO then []
                      else [Event.dup2 fd STDOUT_FILENO
                              (os.dup2 (s.trace ++ [Event.fork (c :: rest) fd 0]) fd STDOUT_FILENO),
                            Event.close fd])
                ++ ds.map (fun d => Event.execv (d ++ '/' :: c) (c :: rest) false)
                ++ [diagnostic, Event.exit 1]
            ∧ (execute_command os s (c :: rest) fd).state.status = Status.exited 1)
      ∧ (∀ ds1 d ds2, ds = ds1 ++ d :: ds2 →
          (∀ x ∈ ds1, os.execv (x ++ '/' :: c) (c :: rest) = false) →
          os.execv (d ++ '/' :: c) (c :: rest) = true →
          (execute_command os s (c :: rest) fd).state.trace
              = s.trace ++ Event.fork (c :: rest) fd 0
                  :: (if fd = STDOUT_FILENO then []
                      else [Event.dup2 fd STDOUT_FILENO
                              (os.dup2 (s.trace ++ [Event.fork (c :: rest) fd 0]) fd STDOUT_FILENO),
                            Event.close fd])
                ++ ds1.map (fun x => Event.execv (x ++ '/' :: c) (c :: rest) false)
                ++ [Event.execv (d ++ '/' :: c) (c :: rest) true]
            ∧ (execute_command os s (c :: rest) fd).state.status
              = Status.replaced (d ++ '/' :: c) (c :: rest)))
      ∧ (fd ≠ STDOUT_FILENO →
          os.dup2 (s.trace ++ [Event.fork (c :: rest) fd 0]) fd STDOUT_FILENO < 0 →
          (execute_command os s (c :: rest) fd).state.trace
              = s.trace ++ [Event.fork (c :: rest) fd 0,
                  Event.dup2 fd STDOUT_FILENO
                    (os.dup2 (s.trace ++ [Event.fork (c :: rest) fd 0]) fd STDOUT_FILENO),
                  diagnostic, Event.exit 1]
            ∧ (execute_command os s (c :: rest) fd).state.status = Status.exited 1) := by
  refine ⟨fun hfit hout => ?_, fun hfd hdup =>
    execute_command_dup2_failed os s (c :: rest) fd hfork hfd hdup⟩
  have hs : ∀ d ∈ ds, snprintf_cmd d c = d ++ '/' :: c :=
    fun d hd => snprintf_cmd_short d c (hfit d hd)
  obtain ⟨h1, h2⟩ := execute_command_search os s c rest ds fd hreg hfork hout
  constructor
  · intro hx
    have hmap : ds.map (fun d => Event.execv (snprintf_cmd d c) (c :: rest) false)
        = ds.map (fun d => Event.execv (d ++ '/' :: c) (c :: rest) false) :=
      List.map_congr_left (fun d hd => by rw [hs d hd])
    have := h1 (fun d hd => by rw [hs d hd]; exact hx d hd)
    rw [hmap] at this
    exact this
  · intro ds1 d ds2 hds hx hok
    have hs1 : ∀ x ∈ ds1, snprintf_cmd x c = x ++ '/' :: c :=
      fun x hx1 => hs x (by rw [hds]; simp [hx1])
    have hsd : snprintf_cmd d c = d ++ '/' :: c := hs d (by rw [hds]; simp)
    have hmap : ds1.map (fun x => Event.execv (snprintf_cmd x c) (c :: rest) false)
        = ds1.map (fun x => Event.execv (x ++ '/' :: c) (c :: rest) false) :=
      List.map_congr_left (fun x hx1 => by rw [hs1 x hx1])
    have := h2 ds1 d ds2 hds (fun x hx1 => by rw [hs1 x hx1]; exact hx x hx1)
      (by rw [hsd]; exact hok)
    rw [hmap, hsd] at this
    exact this

/-- C7, witness: after `path /a /b`, the child resolving `foo` tries `/a/foo`,
which fails, and then `/b/foo`, which replaces it. -/
theorem C7_child_resolution_witness :
    (execute_command os_child_b (parse_and_execute os_ok (initial []) "path /a /b".toList 1)
        ["foo".toList] STDOUT_FILENO).state.trace
      = [Event.fork ["foo".toList] STDOUT_FILENO 0,
         Event.execv "/a/foo".toList ["foo".toList] false,
         Event.execv "/b/foo".toList ["foo".toList] true] :=
  (((C7_child_resolution os_child_b
      (parse_and_execute os_ok (initial []) "path /a /b".toList 1) "foo".toList []
      ["/a".toList, "/b".toList] STDOUT_FILENO (by decide) (by decide)).1
        (by decide) (Or.inl rfl)).2
    ["/a".toList] "/b".toList [] rfl (by decide) (by decide)).1.trans (by decide)

/-! ## What a clause can write -/

theorem emits_refl (t : List Event) (k : Nat) : Emits t t k :=
  ⟨[], by simp, by simp, by simp⟩

theorem emits_mono {t0 t1 : List Event} {k m : Nat} (h : Emits t0 t1 k) (hkm : k ≤ m) :
    Emits t0 t1 m := by
  obtain ⟨tail, h1, h2, h3⟩ := h
  exact ⟨tail, h1, h2, by omega⟩

theorem emits_trans {t0 t1 t2 : List Event} {k m : Nat} (h : Emits t0 t1 k)
    (h' : Emits t1 t2 m) : Emits t0 t2 (k + m) := by
  obtain ⟨a, ha1, ha2, ha3⟩ := h
  obtain ⟨b, hb1, hb2, hb3⟩ := h'
  refine ⟨a ++ b, by rw [hb1, ha1, List.append_assoc], ?_, ?_⟩
  · intro e he
    rcases List.mem_append.1 he with h1 | h1
    · exact ha2 e h1
    · exact hb2 e h1
  · rw [List.count_append]; omega

/-- One call that is neither a `wait` nor a `write`. -/
theorem emits_one (t : List Event) (e : Event) (hw : e.is_wait = false)
    (hr : e.is_write = false) : Emits t (t ++ [e]) 0 := by
  refine ⟨[e], rfl, ?_, ?_⟩
  · intro x hx
    rw [List.mem_singleton.1 hx]
    exact ⟨hw, fun h => by rw [hr] at h; cases h⟩
  · have : List.count diagnostic [e] = 0 := by
      rw [List.count_eq_zero]
      intro hmem
      rw [← List.mem_singleton.1 hmem] at hr
      cases hr
    omega

theorem emits_diagnostic (t : List Event) : Emits t (t ++ [diagnostic]) 1 :=
  ⟨[diagnostic], rfl, by
    intro x hx
    rw [List.mem_singleton.1 hx]
    exact ⟨rfl, fun _ => rfl⟩, by simp⟩

theorem frame_refl (s : Shell) : Frame s s := ⟨rfl, rfl, rfl, rfl, rfl⟩

theorem frame_trans {s s1 s2 : Shell} (h : Frame s s1) (h' : Frame s1 s2) : Frame s s2 := by
  obtain ⟨a1, a2, a3, a4, a5⟩ := h
  obtain ⟨b1, b2, b3, b4, b5⟩ := h'
  exact ⟨b1.trans a1, b2.trans a2, b3.trans a3, b4.trans a4, b5.trans a5⟩

theorem frame_emit (s : Shell) (e : Event) : Frame s (emit s e) := ⟨rfl, rfl, rfl, rfl, rfl⟩

theorem frame_print_error (s : Shell) : Frame s (print_error s) := ⟨rfl, rfl, rfl, rfl, rfl⟩

theorem frame_sys_exit (s : Shell) (n : Int) : Frame s (sys_exit s n) :=
  ⟨rfl, rfl, rfl, rfl, rfl⟩

/-- The search loop of the child. -/
theorem exec_paths_effect (os : OS) (args : List Str) (n i : Nat) (s : Shell) :
    Frame s (exec_paths os args n i s).state
      ∧ Emits s.trace (exec_paths os args n i s).state.trace 0 := by
  induction n generalizing i s with
  | zero => exact ⟨frame_refl s, emits_refl _ _⟩
  | succ n ih =>
    unfold exec_paths
    cases hp : s.paths i with
    | none => exact ⟨frame_refl s, emits_refl _ _⟩
    | some dir =>
      cases ha : args[0]? with
      | none => exact ⟨frame_refl s, emits_refl _ _⟩
      | some name =>
        simp only []
        by_cases hx : os.execv (snprintf_cmd dir name) args = true
        · rw [if_pos hx]
          exact ⟨frame_refl s, emits_one _ _ rfl rfl⟩
        · rw [if_neg hx]
          obtain ⟨h1, h2⟩ := ih (i + 1) (emit s (Event.execv (snprintf_cmd dir name) args false))
          exact ⟨frame_trans (frame_emit s _) h1,
            emits_trans (emits_one s.trace
              (Event.execv (snprintf_cmd dir name) args false) rfl rfl) h2⟩

theorem child_exec_effect (os : OS) (s : Shell) (args : List Str) :
    Frame s (child_exec os s args) ∧ Emits s.trace (child_exec os s args).trace 1 := by
  obtain ⟨h1, h2⟩ := exec_paths_effect os args s.path_count 0 s
  unfold child_exec
  cases hf : exec_paths os args s.path_count 0 s with
  | stop s1 =>
    rw [hf] at h1 h2
    exact ⟨h1, emits_mono h2 (by omega)⟩
  | next s1 =>
    rw [hf] at h1 h2
    simp only [Flow.state] at h1 h2
    refine ⟨frame_trans h1 (frame_trans (frame_print_error s1) (frame_sys_exit _ 1)), ?_⟩
    have h3 : Emits s1.trace (sys_exit (print_error s1) 1).trace 1 := by
      have := emits_trans (emits_diagnostic s1.trace)
        (emits_one (s1.trace ++ [diagnostic]) (Event.exit 1) rfl rfl)
      simpa [sys_exit, print_error, emit, diagnostic] using this
    exact emits_trans h2 h3

theorem child_effect (os : OS) (s : Shell) (args : List Str) (fd : Int) :
    Frame s (child os s args fd) ∧ Emits s.trace (child os s args fd).trace 1 := by
  unfold child
  by_cases hfd : fd ≠ STDOUT_FILENO
  · rw [if_pos hfd]
    simp only []
    by_cases hr : os.dup2 s.trace fd STDOUT_FILENO < 0
    · rw [if_pos hr]
      refine ⟨⟨rfl, rfl, rfl, rfl, rfl⟩, ?_⟩
      have := emits_trans (emits_trans (emits_one s.trace
        (Event.dup2 fd STDOUT_FILENO (os.dup2 s.trace fd STDOUT_FILENO)) rfl rfl)
        (emits_diagnostic _)) (emits_one _ (Event.exit 1) rfl rfl)
      simpa [sys_exit, print_error, emit, diagnostic] using this
    · rw [if_neg hr]
      obtain ⟨h1, h2⟩ := child_exec_effect os
        (emit (emit s (Event.dup2 fd STDOUT_FILENO (os.dup2 s.trace fd STDOUT_FILENO)))
          (Event.close fd)) args
      refine ⟨frame_trans (frame_trans (frame_emit s _) (frame_emit _ _)) h1, ?_⟩
      have h0 := emits_trans (emits_one s.trace
        (Event.dup2 fd STDOUT_FILENO (os.dup2 s.trace fd STDOUT_FILENO)) rfl rfl)
        (emits_one _ (Event.close fd) rfl rfl)
      have := emits_trans h0 h2
      simpa [emit] using this
  · rw [if_neg hfd]
    exact child_exec_effect os s args

theorem stores_within_refl (s s1 : Shell) (n : Nat) (h : s1.stores = s.stores) :
    StoresWithin s s1 n :=
  ⟨[], by simp [h], by simp⟩

theorem stores_within_trans {s s1 s2 : Shell} {n : Nat} (h : StoresWithin s s1 n)
    (h' : StoresWithin s1 s2 n) : StoresWithin s s2 n := by
  obtain ⟨a, ha1, ha2⟩ := h
  obtain ⟨b, hb1, hb2⟩ := h'
  refine ⟨a ++ b, by rw [hb1, ha1, List.append_assoc], ?_⟩
  intro x hx
  rcases List.mem_append.1 hx with h1 | h1
  · exact ha2 x h1
  · exact hb2 x h1

theorem execute_command_effect (os : OS) (s : Shell) (args : List Str) (fd : Int) :
    Emits s.trace (execute_command os s args fd).state.trace 1
      ∧ (execute_command os s args fd).state.paths = s.paths
      ∧ (execute_command os s args fd).state.path_count = s.path_count
      ∧ (execute_command os s args fd).state.stores = s.stores
      ∧ (execute_command os s args fd).state.cwd = s.cwd := by
  have hfork : Emits s.trace (s.trace ++ [Event.fork args fd (os.fork s.trace)]) 0 :=
    emits_one _ _ rfl rfl
  unfold execute_command
  simp only []
  by_cases h1 : os.fork s.trace < 0
  · rw [if_pos h1]
    refine ⟨?_, rfl, rfl, rfl, rfl⟩
    have := emits_trans hfork (emits_diagnostic _)
    simpa [Flow.state, print_error, emit, diagnostic] using this
  · rw [if_neg h1]
    by_cases h2 : os.fork s.trace = 0
    · rw [if_pos h2]
      obtain ⟨⟨f1, f2, f3, _, f5⟩, he⟩ := child_effect os
        { emit s (Event.fork args fd (os.fork s.trace)) with children := 0 } args fd
      refine ⟨?_, f1, f2, f3, f5⟩
      have := emits_trans hfork he
      simpa [Flow.state] using this
    · rw [if_neg h2]
      exact ⟨emits_mono hfork (by omega), rfl, rfl, rfl, rfl⟩

theorem redirect_scan_effect (os : OS) (args : List Str) (n i : Nat) (s : Shell) :
    match redirect_scan os args n i s with
    | Scan.abort s1 => Emits s.trace s1.trace 1 ∧ Frame s s1
    | Scan.launch _ _ s1 =>
      Emits s.trace s1.trace 0 ∧ s1.paths = s.paths ∧ s1.path_count = s.path_count
        ∧ s1.children = s.children ∧ s1.cwd = s.cwd ∧ s1.status = s.status
        ∧ StoresWithin s s1 args.length := by
  induction n generalizing i with
  | zero =>
    simp only [redirect_scan]
    exact ⟨emits_refl _ _, trivial, trivial, trivial, trivial, trivial,
      stores_within_refl _ _ _ rfl⟩
  | succ n ih =>
    unfold redirect_scan
    by_cases hgt : args[i]? = some str_gt
    · rw [if_pos hgt]
      by_cases hpos : (i : Int) = (args.length : Int) - 2
      · rw [if_pos hpos]
        cases hfile : args[i + 1]? with
        | none =>
          simp only []
          exact ⟨emits_refl _ _, frame_refl s⟩
        | some file =>
          simp only []
          have hopen : Emits s.trace (s.trace ++ [Event.open_ file
              [OFlag.O_CREAT, OFlag.O_WRONLY, OFlag.O_TRUNC] 0o644 (os.open_ s.trace file)]) 0 :=
            emits_one _ _ rfl rfl
          by_cases hfd : os.open_ s.trace file < 0
          · rw [if_pos hfd]
            simp only []
            refine ⟨?_, ⟨rfl, rfl, rfl, rfl, rfl⟩⟩
            have := emits_trans hopen (emits_diagnostic _)
            simpa [print_error, emit, diagnostic] using this
          · rw [if_neg hfd]
            simp only []
            refine ⟨hopen, rfl, rfl, rfl, rfl, rfl, ⟨[Store.args i], rfl, ?_⟩⟩
            intro x hx
            rw [List.mem_singleton.1 hx]
            simp only [Store.index]
            omega
      · rw [if_neg hpos]
        simp only []
        refine ⟨?_, ⟨rfl, rfl, rfl, rfl, rfl⟩⟩
        simpa [print_error, emit, diagnostic] using emits_diagnostic s.trace
    · rw [if_neg hgt]
      exact ih (i + 1)

theorem external_effect (os : OS) (s : Shell) (args : List Str) :
    Emits s.trace (external os s args).state.trace 1
      ∧ (external os s args).state.paths = s.paths
      ∧ (external os s args).state.path_count = s.path_count
      ∧ (external os s args).state.cwd = s.cwd
      ∧ StoresWithin s (external os s args).state args.length := by
  have hscan := redirect_scan_effect os args args.length 0 s
  unfold external
  cases hr : redirect_scan os args args.length 0 s with
  | abort s1 =>
    rw [hr] at hscan
    obtain ⟨he, f1, f2, f3, _, f5⟩ := hscan
    exact ⟨he, f1, f2, f5, stores_within_refl _ _ _ f3⟩
  | launch argv fd s1 =>
    rw [hr] at hscan
    obtain ⟨he, f1, f2, _, f5, _, f6⟩ := hscan
    obtain ⟨ce, c1, c2, c3, c5⟩ := execute_command_effect os s1 argv fd
    simp only []
    cases hx : execute_command os s1 argv fd with
    | stop s2 =>
      rw [hx] at ce c1 c2 c3 c5
      simp only [Flow.state] at ce c1 c2 c3 c5 ⊢
      exact ⟨by simpa using emits_trans he ce, c1.trans f1, c2.trans f2, c5.trans f5,
        stores_within_trans f6 (stores_within_refl _ _ _ c3)⟩
    | next s2 =>
      rw [hx] at ce c1 c2 c3 c5
      simp only [Flow.state] at ce c1 c2 c3 c5 ⊢
      by_cases hfd : fd ≠ STDOUT_FILENO
      · rw [if_pos hfd]
        refine ⟨?_, c1.trans f1, c2.trans f2, c5.trans f5,
          stores_within_trans f6 (stores_within_refl _ _ _ c3)⟩
        have := emits_trans (emits_trans he ce) (emits_one s2.trace (Event.close fd) rfl rfl)
        simpa [emit] using this
      · rw [if_neg hfd]
        exact ⟨by simpa using emits_trans he ce, c1.trans f1, c2.trans f2, c5.trans f5,
          stores_within_trans f6 (stores_within_refl _ _ _ c3)⟩

theorem path_loop_stores (args : List Str) (n i : Nat) (s : Shell) :
    (path_loop args n i s).path_count = s.path_count + n
      ∧ (path_loop args n i s).trace = s.trace
      ∧ ∃ st, (path_loop args n i s).stores = s.stores ++ st
          ∧ ∀ x ∈ st, x.index < s.path_count + n := by
  induction n generalizing i s with
  | zero => exact ⟨rfl, rfl, [], by simp [path_loop], by simp⟩
  | succ n ih =>
    unfold path_loop
    obtain ⟨h1, h2, st, h3, h4⟩ := ih (i + 1)
      { s with
        paths := Function.update s.paths s.path_count args[i]?
        path_count := s.path_count + 1
        stores := s.stores ++ [Store.paths s.path_count] }
    dsimp only at h1 h2 h3 h4
    refine ⟨by rw [h1]; omega, h2, Store.paths s.path_count :: st, by rw [h3]; simp, ?_⟩
    intro x hx
    rcases List.mem_cons.1 hx with h | h
    · rw [h]; simp only [Store.index]; omega
    · have := h4 x h
      omega

theorem set_paths_effect (s : Shell) (args : List Str) :
    (set_paths s args).trace = s.trace ∧ StoresWithin s (set_paths s args) args.length := by
  obtain ⟨h1, h2, st, h3, h4⟩ := path_loop_stores args (args.length - 1) 1
    { s with path_count := 0 }
  dsimp only at h1 h2 h3 h4
  unfold set_paths
  refine ⟨h2, st ++ [Store.paths (path_loop args (args.length - 1) 1
      { s with path_count := 0 }).path_count], ?_, ?_⟩
  · simp only []
    rw [h3, List.append_assoc]
  · intro x hx
    rcases List.mem_append.1 hx with h | h
    · have := h4 x h
      omega
    · rw [List.mem_singleton.1 h, h1]
      simp only [Store.index]
      omega

theorem builtin_effect (os : OS) (s : Shell) (args : List Str) (f : Flow)
    (h : builtin os s args = some f) :
    Emits s.trace f.state.trace 1 ∧ StoresWithin s f.state args.length
      ∧ (args[0]? ≠ some str_path →
          f.state.paths = s.paths ∧ f.state.path_count = s.path_count) := by
  have hdiag : Emits s.trace (print_error s).trace 1 := by
    simpa [print_error, emit, diagnostic] using emits_diagnostic s.trace
  unfold builtin at h
  by_cases h1 : args[0]? = some str_exit
  · rw [if_pos h1] at h
    by_cases hl : args.length ≠ 1
    · rw [if_pos hl] at h
      injection h with h; subst h
      exact ⟨hdiag, stores_within_refl _ _ _ rfl, fun _ => ⟨rfl, rfl⟩⟩
    · rw [if_neg hl] at h
      injection h with h; subst h
      refine ⟨?_, stores_within_refl _ _ _ rfl, fun _ => ⟨rfl, rfl⟩⟩
      have := emits_mono (emits_one s.trace (Event.exit 0) rfl rfl) (Nat.zero_le 1)
      simpa [Flow.state, sys_exit, emit] using this
  · rw [if_neg h1] at h
    by_cases h2 : args[0]? = some str_cd
    · rw [if_pos h2] at h
      by_cases hl : args.length ≠ 2
      · rw [if_pos hl] at h
        injection h with h; subst h
        exact ⟨hdiag, stores_within_refl _ _ _ rfl, fun _ => ⟨rfl, rfl⟩⟩
      · rw [if_neg hl] at h
        cases hd : args[1]? with
        | none =>
          rw [hd] at h
          injection h with h; subst h
          exact ⟨emits_refl _ _, stores_within_refl _ _ _ rfl, fun _ => ⟨rfl, rfl⟩⟩
        | some dir =>
          rw [hd] at h
          simp only [sys_chdir] at h
          cases hc : os.chdir s.trace s.cwd dir with
          | none =>
            rw [hc] at h
            simp only [] at h
            rw [if_pos (by decide)] at h
            injection h with h; subst h
            refine ⟨?_, stores_within_refl _ _ _ rfl, fun _ => ⟨rfl, rfl⟩⟩
            have := emits_trans (emits_one s.trace (Event.chdir dir (-1)) rfl rfl)
              (emits_diagnostic _)
            simpa [Flow.state, print_error, emit, diagnostic] using this
          | some d =>
            rw [hc] at h
            simp only [] at h
            rw [if_neg (by decide)] at h
            injection h with h; subst h
            refine ⟨?_, stores_within_refl _ _ _ rfl, fun _ => ⟨rfl, rfl⟩⟩
            have := emits_mono (emits_one s.trace (Event.chdir dir 0) rfl rfl) (Nat.zero_le 1)
            simpa [Flow.state, emit] using this
    · rw [if_neg h2] at h
      by_cases h3 : args[0]? = some str_path
      · rw [if_pos h3] at h
        injection h with h; subst h
        obtain ⟨ht, hs⟩ := set_paths_effect s args
        refine ⟨?_, hs, fun hn => absurd h3 hn⟩
        simp only [Flow.state]
        rw [ht]
        exact emits_refl _ _
      · rw [if_neg h3] at h
        cases h

theorem dispatch_effect (os : OS) (s : Shell) (args : List Str) :
    Emits s.trace (dispatch os s args).state.trace 1
      ∧ StoresWithin s (dispatch os s args).state args.length
      ∧ (args[0]? ≠ some str_path →
          (dispatch os s args).state.paths = s.paths
            ∧ (dispatch os s args).state.path_count = s.path_count) := by
  unfold dispatch
  cases hb : builtin os s args with
  | some f => exact builtin_effect os s args f hb
  | none =>
    obtain ⟨h1, h2, h3, _, h5⟩ := external_effect os s args
    exact ⟨h1, h5, fun _ => ⟨h2, h3⟩⟩

/-- Every run of `parse_and_execute`, in any process: the calls made are a
stretch without `wait` in which every `write` is the diagnostic and the
diagnostic occurs at most once, then the wait loop if the mode is sequential;
the stores are at indices up to the number of tokens; and unless the first
token is `path` the registry is untouched. -/
theorem parse_and_execute_effect (os : OS) (s : Shell) (input : Str) (is_parallel : Int) :
    (∃ tail w, (parse_and_execute os s input is_parallel).trace = s.trace ++ tail ++ w
        ∧ (∀ e ∈ tail, e.is_wait = false ∧ (e.is_write = true → e = diagnostic))
        ∧ tail.count diagnostic ≤ 1
        ∧ (w = [] ∨ (is_parallel = 0 ∧ ∃ n, w = wait_loop n)))
      ∧ StoresWithin s (parse_and_execute os s input is_parallel) (tokenize input).length
      ∧ ((tokenize input)[0]? ≠ some str_path →
          (parse_and_execute os s input is_parallel).paths = s.paths
            ∧ (parse_and_execute os s input is_parallel).path_count = s.path_count) := by
  have htok : StoresWithin s
      { s with stores := s.stores ++
          (List.range ((tokenize input).length + 1)).map Store.args }
      (tokenize input).length := by
    refine ⟨_, rfl, ?_⟩
    intro x hx
    obtain ⟨i, hi, rfl⟩ := List.mem_map.1 hx
    have := List.mem_range.1 hi
    simp only [Store.index]
    omega
  by_cases hne : tokenize input = []
  · have : parse_and_execute os s input is_parallel
        = { s with stores := s.stores ++
            (List.range ((tokenize input).length + 1)).map Store.args } := by
      simp [parse_and_execute, hne]
    rw [this]
    exact ⟨⟨[], [], by simp, by simp, by simp, Or.inl rfl⟩, htok, fun _ => ⟨rfl, rfl⟩⟩
  · rw [parse_and_execute_of_tokens os s input is_parallel hne]
    obtain ⟨⟨tail, h1, h2, h3⟩, hst, hreg⟩ := dispatch_effect os
      { s with stores := s.stores ++
          (List.range ((tokenize input).length + 1)).map Store.args } (tokenize input)
    dsimp only at h1
    cases hd : dispatch os
        { s with stores := s.stores ++
          (List.range ((tokenize input).length + 1)).map Store.args } (tokenize input) with
    | stop s1 =>
      rw [hd] at h1 hst hreg
      simp only [Flow.state] at h1 hst hreg
      simp only [finish]
      exact ⟨⟨tail, [], by simp [h1], h2, h3, Or.inl rfl⟩, stores_within_trans htok hst, hreg⟩
    | next s1 =>
      rw [hd] at h1 hst hreg
      simp only [Flow.state] at h1 hst hreg
      simp only [finish]
      by_cases hp : is_parallel = 0
      · rw [if_pos hp]
        refine ⟨⟨tail, wait_loop s1.children, by simp [wait_all, h1], h2, h3,
          Or.inr ⟨hp, _, rfl⟩⟩, ?_, hreg⟩
        exact stores_within_trans htok hst
      · rw [if_neg hp]
        exact ⟨⟨tail, [], by simp [h1], h2, h3, Or.inl rfl⟩, stores_within_trans htok hst, hreg⟩

/-! ## The parallel line -/

theorem new_calls_eq (s s1 : Shell) (tail : List Event) (h : s1.trace = s.trace ++ tail) :
    new_calls s s1 = tail := by
  simp [new_calls, h]

theorem commands_loop_done (fuel : Nat) (rest : Str) (acc : List Str) (s : Shell)
    (h : acc.length + (tokenize_loop ['&'] fuel rest []).length ≤ MAX_ARGS) :
    commands_loop fuel rest acc s
      = Split.done (acc ++ (tokenize_loop ['&'] fuel rest []).map trim)
          { s with stores := (s.stores
              ++ (List.range' acc.length (tokenize_loop ['&'] fuel rest []).length).map
                  Store.commands) } := by
  induction fuel generalizing rest acc s with
  | zero => simp [commands_loop, tokenize_loop]
  | succ n ih =>
    simp only [commands_loop, tokenize_loop] at h ⊢
    cases hk : strtok ['&'] rest with
    | none => simp
    | some p =>
      obtain ⟨command, rest'⟩ := p
      rw [hk] at h
      simp only [] at h ⊢
      rw [tokenize_loop_acc ['&'] n rest' ([] ++ [command])] at h ⊢
      simp only [List.nil_append, List.length_append, List.length_singleton] at h
      have hlt : acc.length < MAX_ARGS := by omega
      rw [if_pos hlt, ih rest' (acc ++ [trim command]) _ (by simp; omega)]
      simp [Nat.add_comm 1, List.range'_succ]

theorem commands_loop_overflow (fuel : Nat) (rest : Str) (acc : List Str) (s : Shell)
    (hacc : acc.length ≤ MAX_ARGS)
    (h : MAX_ARGS < acc.length + (tokenize_loop ['&'] fuel rest []).length) :
    commands_loop fuel rest acc s
      = Split.overflow
          { s with stores := (s.stores
              ++ (List.range' acc.length (MAX_ARGS + 1 - acc.length)).map Store.commands)
                   status := Status.undefined } := by
  induction fuel generalizing rest acc s with
  | zero => simp [tokenize_loop] at h; omega
  | succ n ih =>
    simp only [commands_loop, tokenize_loop] at h ⊢
    cases hk : strtok ['&'] rest with
    | none => rw [hk] at h; simp at h; omega
    | some p =>
      obtain ⟨command, rest'⟩ := p
      rw [hk] at h
      simp only [] at h ⊢
      rw [tokenize_loop_acc ['&'] n rest' ([] ++ [command])] at h
      simp only [List.nil_append, List.length_append, List.length_singleton] at h
      by_cases hlt : acc.length < MAX_ARGS
      · rw [if_pos hlt, ih rest' (acc ++ [trim command]) _ (by simp; omega) (by simp; omega)]
        have e : MAX_ARGS + 1 - acc.length = (MAX_ARGS + 1 - (acc.length + 1)) + 1 := by omega
        rw [e, List.range'_succ]
        simp
      · rw [if_neg hlt]
        have e : acc.length = MAX_ARGS := by omega
        simp [e]

/-- The clauses of a line are its non-empty pieces between `&`, trimmed, in order. -/
theorem clauses_eq (input : Str) :
    clauses input
      = ((input.splitOnP (fun c => ['&'].contains c)).filter (fun t => !t.isEmpty)).map trim := by
  rw [clauses, tokenize_loop_eq ['&'] _ input (Nat.lt_succ_self _)]

/-- With room for every clause, `execute_parallel` stores them all, runs them in
order and waits if the process is still running. -/
theorem execute_parallel_done (os : OS) (s : Shell) (input : Str)
    (h : (clauses input).length ≤ MAX_ARGS) :
    execute_parallel os s input
      = if (run_commands os (clauses input) (stored s (clauses input).length)).status
            = Status.running
        then wait_all (run_commands os (clauses input) (stored s (clauses input).length))
        else run_commands os (clauses input) (stored s (clauses input).length) := by
  have h1 : ([] : List Str).length
      + (tokenize_loop ['&'] (input.length + 1) input []).length ≤ MAX_ARGS := by
    simpa [clauses] using h
  simp only [execute_parallel]
  rw [commands_loop_done (input.length + 1) input [] s h1]
  simp only [List.nil_append, List.length_nil, List.range_eq_range', stored, clauses,
    List.length_map]

/-- With more clauses than `commands` has entries, `execute_parallel` stops at
the store `commands[MAX_ARGS]`, before any clause is run. -/
theorem execute_parallel_overflow (os : OS) (s : Shell) (input : Str)
    (h : MAX_ARGS < (clauses input).length) :
    execute_parallel os s input
      = { s with stores := s.stores ++ (List.range (MAX_ARGS + 1)).map Store.commands
                 status := Status.undefined } := by
  have h1 : MAX_ARGS < ([] : List Str).length
      + (tokenize_loop ['&'] (input.length + 1) input []).length := by
    simpa [clauses] using h
  simp only [execute_parallel]
  rw [commands_loop_overflow (input.length + 1) input [] s (by simp) h1]
  simp [List.range_eq_range']

/-- The loop of lines 179-181 on a whole line: with at most `MAX_ARGS` clauses
it stores them all, every store inside `commands`; with more it stops at the
store `commands[MAX_ARGS]`, which is outside. -/
theorem commands_loop_clauses (s : Shell) (input : Str) :
    ((clauses input).length ≤ MAX_ARGS →
        commands_loop (input.length + 1) input [] s
            = Split.done (clauses input) (stored s (clauses input).length)
          ∧ ∀ x ∈ (List.range (clauses input).length).map Store.commands,
              x.in_bounds = true)
      ∧ (MAX_ARGS < (clauses input).length →
        commands_loop (input.length + 1) input [] s
            = Split.overflow
                { s with stores := s.stores ++ (List.range (MAX_ARGS + 1)).map Store.commands
                         status := Status.undefined }
          ∧ (Store.commands MAX_ARGS).in_bounds = false) := by
  constructor
  · intro h
    have h1 : ([] : List Str).length
        + (tokenize_loop ['&'] (input.length + 1) input []).length ≤ MAX_ARGS := by
      simpa [clauses] using h
    constructor
    · rw [commands_loop_done (input.length + 1) input [] s h1]
      simp only [List.nil_append, List.length_nil, List.range_eq_range', stored, clauses,
        List.length_map]
    · intro x hx
      obtain ⟨i, hi, rfl⟩ := List.mem_map.1 hx
      have := List.mem_range.1 hi
      simp only [Store.in_bounds, decide_eq_true_eq]
      omega
  · intro h
    have h1 : MAX_ARGS < ([] : List Str).length
        + (tokenize_loop ['&'] (input.length + 1) input []).length := by
      simpa [clauses] using h
    constructor
    · rw [commands_loop_overflow (input.length + 1) input [] s (by simp) h1]
      simp [List.range_eq_range']
    · simp [Store.in_bounds]

theorem run_commands_effect (os : OS) (commands : List Str) (s : Shell) :
    ∃ work, (run_commands os commands s).trace = s.trace ++ work
      ∧ (∀ e ∈ work, e.is_wait = false ∧ (e.is_write = true → e = diagnostic)) := by
  induction commands generalizing s with
  | nil => exact ⟨[], by simp [run_commands], by simp⟩
  | cons c cs ih =>
    obtain ⟨⟨tail, w, h1, h2, _, h4⟩, _, _⟩ := parse_and_execute_effect os s c 1
    have hw : w = [] := by
      rcases h4 with h | ⟨h, _⟩
      · exact h
      · exact absurd h (by decide)
    subst hw
    simp only [run_commands]
    by_cases hs : (parse_and_execute os s c 1).status = Status.running
    · rw [if_pos hs]
      obtain ⟨work, h5, h6⟩ := ih (parse_and_execute os s c 1)
      refine ⟨tail ++ work, by rw [h5, h1]; simp, ?_⟩
      intro e he
      rcases List.mem_append.1 he with h | h
      · exact h2 e h
      · exact h6 e h
    · rw [if_neg hs]
      exact ⟨tail, by simpa using h1, h2⟩

/-- C11: in `execute_parallel` every clause is run before any `wait`. The
clauses are the pieces of the line between `&`, in order. When they fit in
`commands` (at most `MAX_ARGS` of them), the loop over the clauses runs them
from left to right and makes no `wait`, and the wait loop comes after all of
them, if the process is still running. When there are more, the run ends at the
store `commands[MAX_ARGS]`, which is out of bounds, and no call at all, so no
`wait`, has been made up to there. `cmd1 & cmd2 & cmd3` makes three `fork`s and
then waits. -/
theorem C11_parallel_waits_last (os : OS) (s : Shell) (input : Str) :
    ((clauses input).length ≤ MAX_ARGS →
        ∃ work, (run_commands os (clauses input) (stored s (clauses input).length)).trace
            = s.trace ++ work
          ∧ (∀ e ∈ work, e.is_wait = false)
          ∧ (execute_parallel os s input).trace
            = s.trace ++ work
              ++ (if (run_commands os (clauses input)
                        (stored s (clauses input).length)).status = Status.running
                  then wait_loop (run_commands os (clauses input)
                        (stored s (clauses input).length)).children
                  else []))
      ∧ (MAX_ARGS < (clauses input).length →
          (execute_parallel os s input).status = Status.undefined
            ∧ (execute_parallel os s input).trace = s.trace
            ∧ (execute_parallel os s input).stores
              = s.stores ++ (List.range (MAX_ARGS + 1)).map Store.commands)
      ∧ clauses input
        = ((input.splitOnP (fun c => ['&'].contains c)).filter (fun t => !t.isEmpty)).map trim
      ∧ (execute_parallel os_ok (initial []) "cmd1 & cmd2 & cmd3".toList).trace
        = [Event.fork ["cmd1".toList] STDOUT_FILENO 100,
           Event.fork ["cmd2".toList] STDOUT_FILENO 100,
           Event.fork ["cmd3".toList] STDOUT_FILENO 100,
           Event.wait true, Event.wait true, Event.wait true, Event.wait false] := by
  refine ⟨fun hroom => ?_, fun hover => ?_, clauses_eq input, by decide⟩
  · obtain ⟨work, h1, h2⟩ :=
      run_commands_effect os (clauses input) (stored s (clauses input).length)
    have h1a : (run_commands os (clauses input) (stored s (clauses input).length)).trace
        = s.trace ++ work := h1
    refine ⟨work, h1a, fun e he => (h2 e he).1, ?_⟩
    rw [execute_parallel_done os s input hroom]
    by_cases hs : (run_commands os (clauses input)
        (stored s (clauses input).length)).status = Status.running
    · rw [if_pos hs, if_pos hs]
      simp [wait_all, h1a]
    · rw [if_neg hs, if_neg hs]
      simp [h1a]
  · rw [execute_parallel_overflow os s input hover]
    exact ⟨rfl, rfl, rfl⟩

/-! ## The registry changes only under `path` -/

/-- C12: a clause whose first token is not `path` (no token at all, `exit`
with arguments, `cd`, an external command, a faulty redirection) leaves
`paths` and `path_count` as they were, in whatever process runs it; and so
does `execute_command` itself. -/
theorem C12_registry_frame (os : OS) (s : Shell) (input : Str) (is_parallel : Int)
    (h : (tokenize input)[0]? ≠ some "path".toList) :
    (parse_and_execute os s input is_parallel).paths = s.paths
      ∧ (parse_and_execute os s input is_parallel).path_count = s.path_count
      ∧ registry (parse_and_execute os s input is_parallel) = registry s
      ∧ (∀ args fd, (execute_command os s args fd).state.paths = s.paths
          ∧ (execute_command os s args fd).state.path_count = s.path_count) := by
  obtain ⟨h1, h2⟩ := (parse_and_execute_effect os s input is_parallel).2.2 h
  refine ⟨h1, h2, by simp only [registry, h1, h2], fun args fd => ?_⟩
  obtain ⟨_, h3, h4, _, _⟩ := execute_command_effect os s args fd
  exact ⟨h3, h4⟩

/-- C12, witness: the empty clause, `exit now`, `cd /tmp`, `ls > out` and
`ls >` leave the registry `[/bin]` in place. -/
theorem C12_registry_frame_witness :
    registry (parse_and_execute os_ok (initial []) "  ".toList 0) = [some "/bin".toList]
      ∧ registry (parse_and_execute os_ok (initial []) "exit now".toList 0)
        = [some "/bin".toList]
      ∧ registry (parse_and_execute os_ok (initial []) "cd /tmp".toList 0)
        = [some "/bin".toList]
      ∧ registry (parse_and_execute os_ok (initial []) "ls > out".toList 0)
        = [some "/bin".toList]
      ∧ registry (parse_and_execute os_ok (initial []) "ls >".toList 0)
        = [some "/bin".toList] :=
  ⟨(C12_registry_frame os_ok (initial []) "  ".toList 0 (by decide)).2.2.1.trans (by decide),
   (C12_registry_frame os_ok (initial []) "exit now".toList 0 (by decide)).2.2.1.trans (by decide),
   (C12_registry_frame os_ok (initial []) "cd /tmp".toList 0 (by decide)).2.2.1.trans (by decide),
   (C12_registry_frame os_ok (initial []) "ls > out".toList 0 (by decide)).2.2.1.trans (by decide),
   (C12_registry_frame os_ok (initial []) "ls >".toList 0 (by decide)).2.2.1.trans (by decide)⟩

/-! ## The diagnostic -/

theorem emits_new_calls (s s1 : Shell) (k : Nat) (h : Emits s.trace s1.trace k) :
    (∀ e ∈ new_calls s s1, e.is_write = true → e = diagnostic)
      ∧ (new_calls s s1).count diagnostic ≤ k := by
  obtain ⟨tail, h1, h2, h3⟩ := h
  rw [new_calls_eq s s1 tail h1]
  exact ⟨fun e he => (h2 e he).2, h3⟩

theorem parse_and_execute_diagnostic (os : OS) (s : Shell) (input : Str) (is_parallel : Int) :
    (∀ e ∈ new_calls s (parse_and_execute os s input is_parallel),
        e.is_write = true → e = diagnostic)
      ∧ (new_calls s (parse_and_execute os s input is_parallel)).count diagnostic ≤ 1 := by
  obtain ⟨⟨tail, w, h1, h2, h3, h4⟩, _, _⟩ := parse_and_execute_effect os s input is_parallel
  rw [new_calls_eq s _ (tail ++ w) (by rw [h1, List.append_assoc])]
  have hw : ∀ e ∈ w, ∃ b, e = Event.wait b := by
    rcases h4 with h | ⟨_, n, h⟩
    · rw [h]; simp
    · rw [h]; exact wait_loop_mem n
  constructor
  · intro e he hwr
    rcases List.mem_append.1 he with h | h
    · exact (h2 e h).2 hwr
    · obtain ⟨b, hb⟩ := hw e h
      rw [hb] at hwr
      cases hwr
  · have : w.count diagnostic = 0 := by
      rw [List.count_eq_zero]
      intro hmem
      obtain ⟨b, hb⟩ := hw _ hmem
      simp [diagnostic] at hb
    rw [List.count_append, this]
    omega

theorem open_failure_outcome (os : OS) (s : Shell) (input : Str) (is_parallel : Int)
    (pre : List Str) (file : Str)
    (htok : tokenize input = pre ++ [str_gt, file]) (hgt : str_gt ∉ pre)
    (hb : first_is_builtin (tokenize input) = false)
    (hopen : os.open_ s.trace file < 0) :
    (parse_and_execute os s input is_parallel).trace
        = s.trace ++ [Event.open_ file open_flags 0o644 (os.open_ s.trace file), diagnostic]
      ∧ (parse_and_execute os s input is_parallel).status = s.status
      ∧ (parse_and_execute os s input is_parallel).children = s.children := by
  have hne : tokenize input ≠ [] := by rw [htok]; simp
  rw [parse_and_execute_of_tokens os s input is_parallel hne, dispatch_external _ _ _ hb]
  rw [htok] at *
  unfold external
  rw [redirect_scan_first os pre [file] _ hgt]
  simp only []
  rw [if_pos hopen]
  simp [finish, print_error, emit, diagnostic]

theorem child_unresolved (os : OS) (s : Shell) (c : Str) (rest ds : List Str) (fd : Int)
    (hreg : registry s = ds.map some)
    (hout : fd = STDOUT_FILENO ∨ 0 ≤ os.dup2 s.trace fd STDOUT_FILENO)
    (hx : ∀ d ∈ ds, os.execv (snprintf_cmd d c) (c :: rest) = false) :
    diagnostic ∈ new_calls s (child os s (c :: rest) fd)
      ∧ (child os s (c :: rest) fd).status = Status.exited 1 := by
  unfold child
  by_cases hfd : fd = STDOUT_FILENO
  · rw [if_neg (by simpa using hfd)]
    obtain ⟨h1, h2⟩ := (child_exec_spec os s c rest ds hreg).1 hx
    refine ⟨?_, h2⟩
    rw [new_calls_eq s _ _ (by rw [h1, List.append_assoc])]
    simp
  · have hdup : ¬ os.dup2 s.trace fd STDOUT_FILENO < 0 := by
      rcases hout with h | h
      · exact absurd h hfd
      · omega
    rw [if_pos hfd]
    simp only []
    rw [if_neg hdup]
    obtain ⟨h1, h2⟩ := (child_exec_spec os
      (emit (emit s (Event.dup2 fd STDOUT_FILENO (os.dup2 s.trace fd STDOUT_FILENO)))
        (Event.close fd)) c rest ds (by simpa [registry, emit] using hreg)).1 hx
    refine ⟨?_, h2⟩
    rw [new_calls_eq s _ (Event.dup2 fd STDOUT_FILENO (os.dup2 s.trace fd STDOUT_FILENO)
      :: Event.close fd
      :: (ds.map (fun d => Event.execv (snprintf_cmd d c) (c :: rest) false)
          ++ [diagnostic, Event.exit 1])) (by rw [h1]; simp [emit])]
    simp

/-- C13: in every run of `parse_and_execute` and of `execute_command`, in the
interpreter or in the child, every `write` is the string
`"An error has occurred\n"` sent to standard error, and it is written at most
once. Each error condition writes it: `exit` with arguments, `cd` with a wrong
number of arguments or a failing `chdir`, a faulty redirection, a failing
`open`, a failing `fork`, a failing `dup2`, a command that no directory of the
registry resolves. -/
theorem C13_single_diagnostic (os : OS) (s : Shell) (input : Str) (is_parallel : Int) :
    ((∀ e ∈ new_calls s (parse_and_execute os s input is_parallel), e.is_write = true →
          e = Event.write STDERR_FILENO "An error has occurred\n".toList)
        ∧ (new_calls s (parse_and_execute os s input is_parallel)).count
            (Event.write STDERR_FILENO "An error has occurred\n".toList) ≤ 1)
      ∧ (∀ args fd,
          (∀ e ∈ new_calls s (execute_command os s args fd).state, e.is_write = true →
              e = Event.write STDERR_FILENO "An error has occurred\n".toList)
            ∧ (new_calls s (execute_command os s args fd).state).count
                (Event.write STDERR_FILENO "An error has occurred\n".toList) ≤ 1)
      ∧ (∀ rest, tokenize input = str_exit :: rest → rest ≠ [] →
          diagnostic ∈ new_calls s (parse_and_execute os s input is_parallel))
      ∧ (∀ rest, tokenize input = str_cd :: rest → rest.length ≠ 1 →
          diagnostic ∈ new_calls s (parse_and_execute os s input is_parallel))
      ∧ (∀ dir, tokenize input = [str_cd, dir] → os.chdir s.trace s.cwd dir = none →
          diagnostic ∈ new_calls s (parse_and_execute os s input is_parallel))
      ∧ (∀ pre post, tokenize input = pre ++ str_gt :: post → str_gt ∉ pre →
          post.length ≠ 1 → first_is_builtin (tokenize input) = false →
          diagnostic ∈ new_calls s (parse_and_execute os s input is_parallel))
      ∧ (∀ pre file, tokenize input = pre ++ [str_gt, file] → str_gt ∉ pre →
          first_is_builtin (tokenize input) = false → os.open_ s.trace file < 0 →
          diagnostic ∈ new_calls s (parse_and_execute os s input is_parallel))
      ∧ (∀ args fd, os.fork s.trace < 0 →
          new_calls s (execute_command os s args fd).state
            = [Event.fork args fd (os.fork s.trace), diagnostic])
      ∧ (∀ args fd, os.fork s.trace = 0 → fd ≠ STDOUT_FILENO →
          os.dup2 (s.trace ++ [Event.fork args fd 0]) fd STDOUT_FILENO < 0 →
          new_calls s (execute_command os s args fd).state
            = [Event.fork args fd 0,
               Event.dup2 fd STDOUT_FILENO
                 (os.dup2 (s.trace ++ [Event.fork args fd 0]) fd STDOUT_FILENO),
               diagnostic, Event.exit 1])
      ∧ (∀ (c : Str) (rest ds : List Str) (fd : Int), os.fork s.trace = 0 → registry s = ds.map some →
          (fd = STDOUT_FILENO
            ∨ 0 ≤ os.dup2 (s.trace ++ [Event.fork (c :: rest) fd 0]) fd STDOUT_FILENO) →
          (∀ d ∈ ds, os.execv (snprintf_cmd d c) (c :: rest) = false) →
          diagnostic ∈ new_calls s (execute_command os s (c :: rest) fd).state
            ∧ (execute_command os s (c :: rest) fd).state.status = Status.exited 1) := by
  have hne : ∀ t, tokenize input = t → t ≠ [] → tokenize input ≠ [] := by
    intro t h1 h2; rw [h1]; exact h2
  refine ⟨parse_and_execute_diagnostic os s input is_parallel,
    fun args fd => emits_new_calls s _ 1 (execute_command_effect os s args fd).1,
    ?_, ?_, ?_, ?_, ?_, ?_, ?_, ?_⟩
  · intro rest htok hrest
    rw [parse_and_execute_of_tokens os s input is_parallel (hne _ htok (by simp)), htok,
      dispatch_exit, if_neg hrest]
    by_cases hp : is_parallel = 0 <;>
      simp [new_calls, finish, hp, wait_all, print_error, emit, diagnostic]
  · intro rest htok hrest
    rw [parse_and_execute_of_tokens os s input is_parallel (hne _ htok (by simp)), htok,
      dispatch_cd_arity _ _ _ hrest]
    by_cases hp : is_parallel = 0 <;>
      simp [new_calls, finish, hp, wait_all, print_error, emit, diagnostic]
  · intro dir htok hdir
    rw [parse_and_execute_of_tokens os s input is_parallel (hne _ htok (by simp)), htok,
      dispatch_cd]
    simp only [hdir]
    by_cases hp : is_parallel = 0 <;>
      simp [new_calls, finish, hp, wait_all, print_error, emit, diagnostic]
  · intro pre post htok hgt hpost hb
    rw [new_calls_eq s _ [diagnostic]
      (misplaced_gt_outcome os s input is_parallel pre post htok hgt hpost hb).1]
    simp
  · intro pre file htok hgt hb hopen
    rw [new_calls_eq s _ _
      (open_failure_outcome os s input is_parallel pre file htok hgt hb hopen).1]
    simp
  · intro args fd hfork
    rw [execute_command_failed os s args fd hfork]
    simp [new_calls, Flow.state, print_error, emit, diagnostic]
  · intro args fd hfork hfd hdup
    rw [execute_command_child os s args fd hfork]
    simp only [Flow.state, child, emit]
    rw [if_pos hfd, if_pos hdup]
    simp [new_calls, sys_exit, print_error, emit, diagnostic]
  · intro c rest ds fd hfork hreg hout hx
    rw [execute_command_child os s (c :: rest) fd hfork]
    obtain ⟨h1, h2⟩ := child_unresolved os
      { emit s (Event.fork (c :: rest) fd 0) with children := 0 } c rest ds fd
      (by simpa [registry, emit] using hreg) (by simpa [emit] using hout) hx
    refine ⟨?_, h2⟩
    simp only [Flow.state]
    simp only [new_calls, emit, List.length_append, List.length_singleton] at h1 ⊢
    exact List.mem_of_mem_drop (by simpa using h1)

/-! ## The four shapes of an external clause -/

theorem external_no_gt (os : OS) (s : Shell) (args : List Str) (h : str_gt ∉ args) :
    external os s args = execute_command os s args STDOUT_FILENO := by
  unfold external
  rw [redirect_scan_none os args s h]
  simp only []
  cases execute_command os s args STDOUT_FILENO with
  | stop s2 => rfl
  | next s2 => simp

theorem external_misplaced (os : OS) (s : Shell) (pre post : List Str) (hgt : str_gt ∉ pre)
    (hpost : post.length ≠ 1) :
    external os s (pre ++ str_gt :: post) = Flow.stop (print_error s) := by
  unfold external
  rw [redirect_scan_first os pre post s hgt]
  match post, hpost with
  | [], _ => rfl
  | [file], h => simp at h
  | a :: b :: r, _ => rfl

theorem external_open_failed (os : OS) (s : Shell) (pre : List Str) (file : Str)
    (hgt : str_gt ∉ pre) (hopen : os.open_ s.trace file < 0) :
    external os s (pre ++ [str_gt, file])
      = Flow.stop (print_error (emit s
          (Event.open_ file open_flags 0o644 (os.open_ s.trace file)))) := by
  unfold external
  rw [redirect_scan_first os pre [file] s hgt]
  simp only []
  rw [if_pos hopen]

theorem external_redirect (os : OS) (s : Shell) (pre : List Str) (file : Str)
    (hgt : str_gt ∉ pre) (hopen : 0 ≤ os.open_ s.trace file) :
    external os s (pre ++ [str_gt, file])
      = match execute_command os
            { emit s (Event.open_ file open_flags 0o644 (os.open_ s.trace file)) with
              stores := s.stores ++ [Store.args pre.length] } pre (os.open_ s.trace file) with
        | Flow.stop s2 => Flow.stop s2
        | Flow.next s2 =>
          Flow.next (if os.open_ s.trace file ≠ STDOUT_FILENO
            then emit s2 (Event.close (os.open_ s.trace file)) else s2) := by
  unfold external
  rw [redirect_scan_first os pre [file] s hgt]
  simp only []
  rw [if_neg (by omega)]

/-- The shape of a token list with respect to its first `>`. -/
theorem gt_shape (args : List Str) :
    str_gt ∉ args
      ∨ (∃ pre post, args = pre ++ str_gt :: post ∧ str_gt ∉ pre ∧ post.length ≠ 1
          ∧ args.indexOf str_gt + 2 ≠ args.length)
      ∨ (∃ pre file, args = pre ++ [str_gt, file] ∧ str_gt ∉ pre
          ∧ args.indexOf str_gt + 2 = args.length) := by
  by_cases h : str_gt ∈ args
  · obtain ⟨pre, post, h1, h2, h3⟩ := first_occurrence str_gt args h
    have hlen : args.length = pre.length + 1 + post.length := by
      rw [h1]; simp; omega
    by_cases hp : post.length = 1
    · obtain ⟨file, hf⟩ := List.length_eq_one.1 hp
      subst hf
      exact Or.inr (Or.inr ⟨pre, file, h1, h2, by rw [← h3, hlen]; simp⟩)
    · exact Or.inr (Or.inl ⟨pre, post, h1, h2, hp, by rw [← h3, hlen]; omega⟩)
  · exact Or.inl h

/-- The only `fork` among the calls of `execute_command(args, fd)` is the one
that carries `args` and `fd`. -/
theorem execute_command_forks (os : OS) (s : Shell) (args : List Str) (fd : Int) :
    ∃ tail, (execute_command os s args fd).state.trace
        = s.trace ++ Event.fork args fd (os.fork s.trace) :: tail
      ∧ ∀ e ∈ tail, e.is_open = false ∧ e.is_fork = false := by
  rcases lt_trichotomy (os.fork s.trace) 0 with hlt | heq | hgt0
  · rw [execute_command_failed os s args fd hlt]
    refine ⟨[diagnostic], by simp [Flow.state, print_error, emit, diagnostic], ?_⟩
    intro e he
    rw [List.mem_singleton.1 he]
    exact ⟨rfl, rfl⟩
  · rw [execute_command_child os s args fd heq]
    obtain ⟨tail, h1, h2⟩ := child_trace os
      { emit s (Event.fork args fd 0) with children := 0 } args fd
    exact ⟨tail, by simp only [Flow.state]; rw [h1]; simp [emit, heq], h2⟩
  · rw [execute_command_parent os s args fd hgt0]
    exact ⟨[], by simp [Flow.state, emit], by simp⟩

/-! ## The argument vector handed to the launcher -/

theorem takeWhile_no_gt (args : List Str) (h : str_gt ∉ args) :
    args.takeWhile (fun t => t != str_gt) = args := by
  rw [List.takeWhile_eq_self_iff]
  intro t ht
  have : t ≠ str_gt := fun h1 => h (h1 ▸ ht)
  simpa using this

theorem takeWhile_first_gt (pre post : List Str) (h : str_gt ∉ pre) :
    (pre ++ str_gt :: post).takeWhile (fun t => t != str_gt) = pre := by
  rw [List.takeWhile_append_of_pos (by
    intro t ht
    have : t ≠ str_gt := fun h1 => h (h1 ▸ ht)
    simpa using this)]
  simp

theorem finish_trace (is_parallel : Int) (f : Flow) :
    ∃ w, (finish is_parallel f).trace = f.state.trace ++ w ∧ ∀ e ∈ w, ∃ b, e = Event.wait b := by
  cases f with
  | stop s1 => exact ⟨[], by simp [finish, Flow.state], by simp⟩
  | next s1 =>
    by_cases hp : is_parallel = 0
    · exact ⟨wait_loop s1.children, by simp [finish, hp, wait_all, Flow.state],
        wait_loop_mem _⟩
    · exact ⟨[], by simp [finish, hp, Flow.state], by simp⟩

theorem external_forks (os : OS) (s : Shell) (args : List Str) :
    ∃ tail, (external os s args).state.trace = s.trace ++ tail
      ∧ ∀ e ∈ tail, e.is_fork = true →
          ∃ fd pid, e = Event.fork (args.takeWhile (fun t => t != str_gt)) fd pid := by
  rcases gt_shape args with h | ⟨pre, post, h1, h2, h3, _⟩ | ⟨pre, file, h1, h2, _⟩
  · rw [external_no_gt os s args h, takeWhile_no_gt args h]
    obtain ⟨tail, h4, h5⟩ := execute_command_forks os s args STDOUT_FILENO
    refine ⟨_, h4, ?_⟩
    intro e he hf
    rcases List.mem_cons.1 he with h6 | h6
    · exact ⟨_, _, h6⟩
    · rw [(h5 e h6).2] at hf; cases hf
  · subst h1
    rw [external_misplaced os s pre post h2 h3]
    refine ⟨[diagnostic], by simp [Flow.state, print_error, emit, diagnostic], ?_⟩
    intro e he hf
    rw [List.mem_singleton.1 he] at hf
    cases hf
  · subst h1
    rw [takeWhile_first_gt pre [file] h2]
    by_cases hopen : os.open_ s.trace file < 0
    · rw [external_open_failed os s pre file h2 hopen]
      refine ⟨[Event.open_ file open_flags 0o644 (os.open_ s.trace file), diagnostic],
        by simp [Flow.state, print_error, emit, diagnostic], ?_⟩
      intro e he hf
      simp only [List.mem_cons, List.mem_singleton, List.not_mem_nil, or_false] at he
      rcases he with h | h <;> rw [h] at hf <;> cases hf
    · rw [external_redirect os s pre file h2 (by omega)]
      obtain ⟨tail, h4, h5⟩ := execute_command_forks os
        { emit s (Event.open_ file open_flags 0o644 (os.open_ s.trace file)) with
          stores := s.stores ++ [Store.args pre.length] } pre (os.open_ s.trace file)
      have hmem : ∀ (l : List Event), (∀ e ∈ l, e.is_fork = false) →
          ∀ e ∈ Event.open_ file open_flags 0o644 (os.open_ s.trace file)
            :: Event.fork pre (os.open_ s.trace file)
                (os.fork (s.trace ++ [Event.open_ file open_flags 0o644 (os.open_ s.trace file)]))
            :: (tail ++ l), e.is_fork = true →
          ∃ fd pid, e = Event.fork pre fd pid := by
        intro l hl e he hf
        simp only [List.mem_cons, List.mem_append] at he
        rcases he with h | h | h | h
        · rw [h] at hf; cases hf
        · exact ⟨_, _, h⟩
        · rw [(h5 e h).2] at hf; cases hf
        · rw [hl e h] at hf; cases hf
      cases hx : execute_command os
          { emit s (Event.open_ file open_flags 0o644 (os.open_ s.trace file)) with
            stores := s.stores ++ [Store.args pre.length] } pre (os.open_ s.trace file) with
      | stop s2 =>
        rw [hx] at h4
        simp only [Flow.state, emit] at h4 ⊢
        exact ⟨(Event.open_ file open_flags 0o644 (os.open_ s.trace file)
            :: Event.fork pre (os.open_ s.trace file)
                (os.fork (s.trace ++ [Event.open_ file open_flags 0o644 (os.open_ s.trace file)]))
            :: (tail ++ [])), by rw [h4]; simp, hmem [] (by simp)⟩
      | next s2 =>
        rw [hx] at h4
        simp only [Flow.state, emit] at h4 ⊢
        by_cases hfd : os.open_ s.trace file ≠ STDOUT_FILENO
        · rw [if_pos hfd]
          exact ⟨(Event.open_ file open_flags 0o644 (os.open_ s.trace file)
            :: Event.fork pre (os.open_ s.trace file)
                (os.fork (s.trace ++ [Event.open_ file open_flags 0o644 (os.open_ s.trace file)]))
            :: (tail ++ [Event.close (os.open_ s.trace file)])),
            by simp only []; rw [h4]; simp,
            hmem [Event.close (os.open_ s.trace file)] (by
              intro e he; rw [List.mem_singleton.1 he]; rfl)⟩
        · rw [if_neg hfd]
          exact ⟨(Event.open_ file open_flags 0o644 (os.open_ s.trace file)
            :: Event.fork pre (os.open_ s.trace file)
                (os.fork (s.trace ++ [Event.open_ file open_flags 0o644 (os.open_ s.trace file)]))
            :: (tail ++ [])), by rw [h4]; simp, hmem [] (by simp)⟩

/-- Every `fork` of a clause carries the tokens before the first `>` as its
argument vector. -/
theorem parse_and_execute_forks (os : OS) (s : Shell) (input : Str) (is_parallel : Int) :
    ∀ e ∈ new_calls s (parse_and_execute os s input is_parallel), e.is_fork = true →
      ∃ fd pid, e = Event.fork ((tokenize input).takeWhile (fun t => t != str_gt)) fd pid := by
  by_cases hne : tokenize input = []
  · have : (parse_and_execute os s input is_parallel).trace = s.trace ++ [] := by
      simp [parse_and_execute, hne]
    rw [new_calls_eq s _ [] this]
    simp
  · by_cases hb : first_is_builtin (tokenize input) = true
    · obtain ⟨tail, h1, h2⟩ := builtin_quiet os s input is_parallel hb
      rw [new_calls_eq s _ tail h1]
      intro e he hf
      rw [(h2 e he).2] at hf
      cases hf
    · rw [parse_and_execute_of_tokens os s input is_parallel hne,
        dispatch_external _ _ _ (by simpa using hb)]
      obtain ⟨tail, h1, h2⟩ := external_forks os
        { s with stores := s.stores ++
            (List.range ((tokenize input).length + 1)).map Store.args } (tokenize input)
      obtain ⟨w, h3, h4⟩ := finish_trace is_parallel (external os
        { s with stores := s.stores ++
            (List.range ((tokenize input).length + 1)).map Store.args } (tokenize input))
      rw [new_calls_eq s _ (tail ++ w) (by rw [h3, h1, List.append_assoc])]
      intro e he hf
      rcases List.mem_append.1 he with h | h
      · exact h2 e h hf
      · obtain ⟨b, hb1⟩ := h4 e h
        rw [hb1] at hf
        cases hf

/-- C14, the code at the failing input `> out.txt`: the clause has the two
tokens `>` and `out.txt`, the file is opened, and `execute_command` is called
with an empty argument vector (`args[0]` is the terminator); in the child the
search of the registry then hands that `NULL` to `snprintf`. In general the
argument vector of every `fork` is the list of tokens before the first `>`, so
it is non-empty, with the first token of the clause at its head, exactly when
the clause does not begin with `>`. -/
theorem C14_empty_argument_vector :
    (tokenize "> out.txt".toList = [str_gt, "out.txt".toList]
        ∧ (parse_and_execute os_ok (initial []) "> out.txt".toList 0).trace
          = [Event.open_ "out.txt".toList [OFlag.O_CREAT, OFlag.O_WRONLY, OFlag.O_TRUNC] 0o644 3,
             Event.fork [] 3 100, Event.close 3, Event.wait true, Event.wait false]
        ∧ (parse_and_execute os_child_b (initial []) "> out.txt".toList 0).trace
          = [Event.open_ "out.txt".toList [OFlag.O_CREAT, OFlag.O_WRONLY, OFlag.O_TRUNC] 0o644 3,
             Event.fork [] 3 0, Event.dup2 3 STDOUT_FILENO 1, Event.close 3]
        ∧ (parse_and_execute os_child_b (initial []) "> out.txt".toList 0).status
          = Status.undefined)
      ∧ (∀ (os : OS) (s : Shell) (input : Str) (is_parallel : Int),
          ∀ e ∈ new_calls s (parse_and_execute os s input is_parallel), e.is_fork = true →
            ∃ fd pid,
              e = Event.fork ((tokenize input).takeWhile (fun t => t != str_gt)) fd pid) :=
  ⟨by decide, parse_and_execute_forks⟩

/-! ## The registry after `path` -/

theorem path_outcome (os : OS) (s : Shell) (input : Str) (is_parallel : Int) (ds : List Str)
    (htok : tokenize input = str_path :: ds) :
    registry (parse_and_execute os s input is_parallel) = ds.map some
      ∧ (parse_and_execute os s input is_parallel).path_count = ds.length
      ∧ (parse_and_execute os s input is_parallel).paths ds.length = none
      ∧ (parse_and_execute os s input is_parallel).status = s.status := by
  have hne : tokenize input ≠ [] := by rw [htok]; simp
  rw [parse_and_execute_of_tokens os s input is_parallel hne, htok, dispatch_path]
  obtain ⟨h1, h2, h3, _, _, _, h7⟩ := set_paths_spec
    { s with stores := s.stores ++
        (List.range ((str_path :: ds).length + 1)).map Store.args } str_path ds
  by_cases hp : is_parallel = 0
  · simp only [finish, hp, if_true, wait_all]
    exact ⟨h1, h2, h3, h7⟩
  · simp only [finish, hp, if_false]
    exact ⟨h1, h2, h3, h7⟩

/-- C15: running a `path` clause a second time leaves the registry as the first
run left it: same list of directories, same `path_count`, whatever the state
before, the mode, and the answers of the operating system. -/
theorem C15_path_idempotent (os os1 : OS) (s : Shell) (input : Str) (is_parallel p1 : Int)
    (ds : List Str) (htok : tokenize input = str_path :: ds) :
    registry (parse_and_execute os1 (parse_and_execute os s input is_parallel) input p1)
        = registry (parse_and_execute os s input is_parallel)
      ∧ (parse_and_execute os1 (parse_and_execute os s input is_parallel) input p1).path_count
        = (parse_and_execute os s input is_parallel).path_count := by
  obtain ⟨h1, h2, _, _⟩ := path_outcome os s input is_parallel ds htok
  obtain ⟨h3, h4, _, _⟩ := path_outcome os1 (parse_and_execute os s input is_parallel) input p1
    ds htok
  exact ⟨h3.trans h1.symm, h4.trans h2.symm⟩

/-- C15, witness: `path /bin` run twice from the start-up state, and from a
state holding another registry. -/
theorem C15_path_idempotent_witness :
    registry (parse_and_execute os_ok
        (parse_and_execute os_ok (initial []) "path /bin".toList 0) "path /bin".toList 0)
        = registry (parse_and_execute os_ok (initial []) "path /bin".toList 0)
      ∧ registry (parse_and_execute os_ok (initial []) "path /bin".toList 0)
        = [some "/bin".toList]
      ∧ registry (parse_and_execute os_ok
          (parse_and_execute os_ok
            (parse_and_execute os_ok (initial []) "path /a /b".toList 0)
            "path /bin".toList 0) "path /bin".toList 0)
        = [some "/bin".toList] :=
  ⟨(C15_path_idempotent os_ok os_ok (initial []) "path /bin".toList 0 0 ["/bin".toList]
      (by decide)).1,
   by decide,
   ((C15_path_idempotent os_ok os_ok
      (parse_and_execute os_ok (initial []) "path /a /b".toList 0) "path /bin".toList 0 0
      ["/bin".toList] (by decide)).1).trans (by decide)⟩

/-! ## Outstanding children -/

theorem execute_command_stop (os : OS) (s : Shell) (args : List Str) (fd : Int) (s2 : Shell)
    (h : execute_command os s args fd = Flow.stop s2) : s2.children = 0 := by
  unfold execute_command at h
  simp only [] at h
  by_cases h1 : os.fork s.trace < 0
  · rw [if_pos h1] at h; cases h
  · rw [if_neg h1] at h
    by_cases h2 : os.fork s.trace = 0
    · rw [if_pos h2] at h
      injection h with h
      rw [← h]
      exact (child_effect os _ args fd).1.2.2.2.1
    · rw [if_neg h2] at h; cases h

theorem external_stop_children (os : OS) (s : Shell) (args : List Str) (s1 : Shell)
    (h : external os s args = Flow.stop s1) : s1.children = s.children ∨ s1.children = 0 := by
  have hscan := redirect_scan_effect os args args.length 0 s
  unfold external at h
  cases hr : redirect_scan os args args.length 0 s with
  | abort s0 =>
    rw [hr] at hscan h
    simp only [] at h
    injection h with h
    rw [← h]
    exact Or.inl hscan.2.2.2.2.1
  | launch argv fd s0 =>
    rw [hr] at h
    simp only [] at h
    cases hx : execute_command os s0 argv fd with
    | stop s2 =>
      rw [hx] at h
      simp only [] at h
      injection h with h
      rw [← h]
      exact Or.inr (execute_command_stop os s0 argv fd s2 hx)
    | next s2 =>
      rw [hx] at h
      cases h

theorem builtin_children (os : OS) (s : Shell) (args : List Str) (f : Flow)
    (h : builtin os s args = some f) : f.state.children = s.children := by
  unfold builtin at h
  by_cases h1 : args[0]? = some str_exit
  · rw [if_pos h1] at h
    by_cases hl : args.length ≠ 1
    · rw [if_pos hl] at h; injection h with h; subst h; rfl
    · rw [if_neg hl] at h; injection h with h; subst h; rfl
  · rw [if_neg h1] at h
    by_cases h2 : args[0]? = some str_cd
    · rw [if_pos h2] at h
      by_cases hl : args.length ≠ 2
      · rw [if_pos hl] at h; injection h with h; subst h; rfl
      · rw [if_neg hl] at h
        cases hd : args[1]? with
        | none => rw [hd] at h; injection h with h; subst h; rfl
        | some dir =>
          rw [hd] at h
          simp only [sys_chdir] at h
          cases hc : os.chdir s.trace s.cwd dir with
          | none =>
            rw [hc] at h
            simp only [] at h
            rw [if_pos (by decide)] at h
            injection h with h; subst h; rfl
          | some d =>
            rw [hc] at h
            simp only [] at h
            rw [if_neg (by decide)] at h
            injection h with h; subst h; rfl
    · rw [if_neg h2] at h
      by_cases h3 : args[0]? = some str_path
      · rw [if_pos h3] at h
        injection h with h; subst h
        obtain ⟨rest, hr⟩ := head_eq_cons args str_path h3
        rw [hr]
        exact (set_paths_spec s str_path rest).2.2.2.2.2.1
      · rw [if_neg h3] at h
        cases h

theorem sequential_children (os : OS) (s : Shell) (input : Str) :
    (parse_and_execute os s input 0).children = s.children
      ∨ (parse_and_execute os s input 0).children = 0 := by
  by_cases hne : tokenize input = []
  · left
    simp [parse_and_execute, hne]
  · rw [parse_and_execute_of_tokens os s input 0 hne]
    cases hd : dispatch os
        { s with stores := s.stores ++
          (List.range ((tokenize input).length + 1)).map Store.args } (tokenize input) with
    | next s1 => right; simp [finish, wait_all]
    | stop s1 =>
      simp only [finish]
      unfold dispatch at hd
      cases hb : builtin os
          { s with stores := s.stores ++
            (List.range ((tokenize input).length + 1)).map Store.args } (tokenize input) with
      | some f =>
        rw [hb] at hd
        simp only [] at hd
        have := builtin_children os _ _ f hb
        rw [hd] at this
        exact Or.inl this
      | none =>
        rw [hb] at hd
        simp only [] at hd
        exact external_stop_children os
          { s with stores := s.stores ++
            (List.range ((tokenize input).length + 1)).map Store.args } (tokenize input) s1 hd

/-- C16: with the children of the process counted (`fork` answering a pid adds
one, the wait loop brings the count to zero), a line that starts with no child
outstanding ends with none: always in sequential mode, and in parallel mode
whenever the process is still running after the line. A parallel line with
more than `MAX_ARGS` clauses does not end running: its run is undefined from the
store `commands[MAX_ARGS]` on. -/
theorem C16_no_child_left (os : OS) (s : Shell) (input : Str) (h0 : s.children = 0) :
    (parse_and_execute os s input 0).children = 0
      ∧ ((execute_parallel os s input).status = Status.running →
          (execute_parallel os s input).children = 0)
      ∧ (MAX_ARGS < (clauses input).length →
          (execute_parallel os s input).status = Status.undefined) := by
  refine ⟨?_, ?_, ?_⟩
  · rcases sequential_children os s input with h | h
    · rw [h, h0]
    · exact h
  · intro hrun
    by_cases hroom : (clauses input).length ≤ MAX_ARGS
    · rw [execute_parallel_done os s input hroom] at hrun ⊢
      by_cases hs : (run_commands os (clauses input)
          (stored s (clauses input).length)).status = Status.running
      · rw [if_pos hs]; rfl
      · rw [if_neg hs] at hrun
        exact absurd hrun hs
    · rw [execute_parallel_overflow os s input (by omega)] at hrun
      exact absurd hrun (by simp)
  · intro hover
    rw [execute_parallel_overflow os s input hover]

/-- C16, witness: `ls` alone and `ls & pwd > f & cd` leave no child behind, the
spawns having succeeded. -/
theorem C16_no_child_left_witness :
    ((parse_and_execute os_ok (initial []) "ls".toList 0).children = 0
        ∧ (parse_and_execute os_ok (initial []) "ls".toList 0).trace
          = [Event.fork ["ls".toList] STDOUT_FILENO 100, Event.wait true, Event.wait false])
      ∧ (execute_parallel os_ok (initial []) "ls & pwd > f & cd".toList).children = 0 :=
  ⟨⟨(C16_no_child_left os_ok (initial []) "ls".toList rfl).1, by decide⟩,
   (C16_no_child_left os_ok (initial []) "ls & pwd > f & cd".toList rfl).2.1 (by decide)⟩

/-! ## The interpreter's own run of a clause -/

theorem builtin_status (os : OS) (s : Shell) (args : List Str) (f : Flow)
    (h : builtin os s args = some f) (hexit : args ≠ [str_exit]) :
    f.state.status = s.status := by
  unfold builtin at h
  by_cases h1 : args[0]? = some str_exit
  · rw [if_pos h1] at h
    by_cases hl : args.length ≠ 1
    · rw [if_pos hl] at h; injection h with h; subst h; rfl
    · exfalso
      obtain ⟨a, ha⟩ := List.length_eq_one.1 (not_not.1 hl)
      rw [ha] at h1
      simp only [List.getElem?_cons_zero, Option.some.injEq] at h1
      exact hexit (by rw [ha, h1])
  · rw [if_neg h1] at h
    by_cases h2 : args[0]? = some str_cd
    · rw [if_pos h2] at h
      by_cases hl : args.length ≠ 2
      · rw [if_pos hl] at h; injection h with h; subst h; rfl
      · rw [if_neg hl] at h
        cases hd : args[1]? with
        | none =>
          exfalso
          have := List.getElem?_eq_none_iff.1 hd
          omega
        | some dir =>
          rw [hd] at h
          simp only [sys_chdir] at h
          cases hc : os.chdir s.trace s.cwd dir with
          | none =>
            rw [hc] at h
            simp only [] at h
            rw [if_pos (by decide)] at h
            injection h with h; subst h; rfl
          | some d =>
            rw [hc] at h
            simp only [] at h
            rw [if_neg (by decide)] at h
            injection h with h; subst h; rfl
    · rw [if_neg h2] at h
      by_cases h3 : args[0]? = some str_path
      · rw [if_pos h3] at h
        injection h with h; subst h
        obtain ⟨rest, hr⟩ := head_eq_cons args str_path h3
        rw [hr]
        exact (set_paths_spec s str_path rest).2.2.2.2.2.2
      · rw [if_neg h3] at h
        cases h

theorem execute_command_interp (os : OS) (s : Shell) (args : List Str) (fd : Int)
    (hfork : os.fork s.trace ≠ 0) :
    ∃ s1, execute_command os s args fd = Flow.next s1 ∧ s1.status = s.status := by
  rcases lt_trichotomy (os.fork s.trace) 0 with hlt | heq | hgt0
  · exact ⟨_, execute_command_failed os s args fd hlt, rfl⟩
  · exact absurd heq hfork
  · exact ⟨_, execute_command_parent os s args fd hgt0, rfl⟩

theorem external_interp_status (os : OS) (s : Shell) (args : List Str)
    (hfork : ∀ h, os.fork h ≠ 0) : (external os s args).state.status = s.status := by
  rcases gt_shape args with h | ⟨pre, post, h1, h2, h3, _⟩ | ⟨pre, file, h1, h2, _⟩
  · rw [external_no_gt os s args h]
    obtain ⟨s1, h4, h5⟩ := execute_command_interp os s args STDOUT_FILENO (hfork _)
    rw [h4]; exact h5
  · subst h1
    rw [external_misplaced os s pre post h2 h3]
    rfl
  · subst h1
    by_cases hopen : os.open_ s.trace file < 0
    · rw [external_open_failed os s pre file h2 hopen]
      rfl
    · rw [external_redirect os s pre file h2 (by omega)]
      obtain ⟨s1, h4, h5⟩ := execute_command_interp os
        { emit s (Event.open_ file open_flags 0o644 (os.open_ s.trace file)) with
          stores := s.stores ++ [Store.args pre.length] } pre (os.open_ s.trace file) (hfork _)
      rw [h4]
      simp only [Flow.state]
      split_ifs
      · exact h5
      · exact h5

/-- In the interpreter (no `fork` answers 0) a clause other than `exit` alone
leaves the process running as it was. -/
theorem clause_interp_status (os : OS) (s : Shell) (c : Str) (is_parallel : Int)
    (hfork : ∀ h, os.fork h ≠ 0) (hexit : tokenize c ≠ [str_exit]) :
    (parse_and_execute os s c is_parallel).status = s.status := by
  by_cases hne : tokenize c = []
  · simp [parse_and_execute, hne]
  · rw [parse_and_execute_of_tokens os s c is_parallel hne]
    have key : ∀ s0 : Shell, (dispatch os s0 (tokenize c)).state.status = s0.status := by
      intro s0
      unfold dispatch
      cases hb : builtin os s0 (tokenize c) with
      | some f => exact builtin_status os s0 _ f hb hexit
      | none => exact external_interp_status os s0 _ hfork
    have hd := key { s with stores := s.stores ++
          (List.range ((tokenize c).length + 1)).map Store.args }
    dsimp only at hd
    cases hf : dispatch os
        { s with stores := s.stores ++
          (List.range ((tokenize c).length + 1)).map Store.args } (tokenize c) with
    | stop s1 => rw [hf] at hd; exact hd
    | next s1 =>
      rw [hf] at hd
      simp only [Flow.state] at hd
      simp only [finish]
      split_ifs
      · exact hd
      · exact hd

theorem run_commands_running (os : OS) (commands : List Str) (s : Shell)
    (hfork : ∀ h, os.fork h ≠ 0) (hrun : s.status = Status.running)
    (hexit : ∀ c ∈ commands, tokenize c ≠ [str_exit]) :
    (run_commands os commands s).status = Status.running := by
  induction commands generalizing s with
  | nil => exact hrun
  | cons c cs ih =>
    have h1 : (parse_and_execute os s c 1).status = Status.running := by
      rw [clause_interp_status os s c 1 hfork (hexit c (by simp))]
      exact hrun
    simp only [run_commands]
    rw [if_pos h1]
    exact ih _ h1 (fun x hx => hexit x (List.mem_cons_of_mem _ hx))

theorem run_commands_append (os : OS) (a b : List Str) (s : Shell)
    (h : (run_commands os a s).status = Status.running) :
    run_commands os (a ++ b) s = run_commands os b (run_commands os a s) := by
  induction a generalizing s with
  | nil => rfl
  | cons c cs ih =>
    by_cases h1 : (parse_and_execute os s c 1).status = Status.running
    · have hs : ∀ l, run_commands os (c :: l) s
          = run_commands os l (parse_and_execute os s c 1) := by
        intro l
        simp only [run_commands]
        rw [if_pos h1]
      rw [hs] at h
      rw [List.cons_append, hs, hs]
      exact ih _ h
    · have hs : run_commands os (c :: cs) s = parse_and_execute os s c 1 := by
        simp only [run_commands]
        rw [if_neg h1]
      rw [hs] at h
      exact absurd h h1

theorem exit_clause (os : OS) (s : Shell) (c : Str) (is_parallel : Int)
    (hc : tokenize c = [str_exit]) :
    (parse_and_execute os s c is_parallel).trace = s.trace ++ [Event.exit 0]
      ∧ (parse_and_execute os s c is_parallel).status = Status.exited 0
      ∧ (parse_and_execute os s c is_parallel).children = s.children := by
  have hne : tokenize c ≠ [] := by rw [hc]; simp
  rw [parse_and_execute_of_tokens os s c is_parallel hne, hc, dispatch_exit]
  simp [finish, sys_exit, emit]

set_option maxRecDepth 20000 in
/-- C19, counterexample: a line of 101 clauses, a hundred times `ls` and then
`exit`. The loop of lines 179-181 stores the 101st piece at `commands[100]`,
past the end of the array, before any clause is run: the run is undefined from
there, and is not a run that ends in `exit(0)` at the clause `exit`. -/
theorem C19_counterexample :
    (clauses ((List.replicate 100 "ls&".toList).flatten ++ "exit".toList)).length = 101
      ∧ (clauses ((List.replicate 100 "ls&".toList).flatten ++ "exit".toList)).getLast?
        = some "exit".toList
      ∧ (execute_parallel os_ok (initial [])
          ((List.replicate 100 "ls&".toList).flatten ++ "exit".toList)).status = Status.undefined
      ∧ Event.exit 0 ∉ (execute_parallel os_ok (initial [])
          ((List.replicate 100 "ls&".toList).flatten ++ "exit".toList)).trace
      ∧ Store.commands 100 ∈ (execute_parallel os_ok (initial [])
          ((List.replicate 100 "ls&".toList).flatten ++ "exit".toList)).stores
      ∧ (Store.commands 100).in_bounds = false := by
  have hlen : (clauses ((List.replicate 100 "ls&".toList).flatten ++ "exit".toList)).length
      = 101 := by decide
  have hover : MAX_ARGS
      < (clauses ((List.replicate 100 "ls&".toList).flatten ++ "exit".toList)).length := by
    rw [hlen]; decide
  refine ⟨hlen, by decide, ?_, ?_, ?_, by decide⟩
  · rw [execute_parallel_overflow _ _ _ hover]
  · rw [execute_parallel_overflow _ _ _ hover]
    simp [initial]
  · rw [execute_parallel_overflow _ _ _ hover]
    simp [initial, MAX_ARGS]

/-- C19: in a parallel line of at most `MAX_ARGS` clauses, let `c` be the first
clause that is `exit` alone, `before` the clauses to its left and `after` those
to its right. The interpreter (the process in which no `fork` answers 0), once
the clauses are stored, runs the clauses of `before`, then calls `exit(0)`:
that is the last call, whatever `after` holds; no `wait` is ever made, and the
children spawned by `before` are left outstanding. -/
theorem C19_exit_stops_parallel (os : OS) (s : Shell) (input : Str)
    (before after : List Str) (c : Str)
    (hrun : s.status = Status.running) (hfork : ∀ h, os.fork h ≠ 0)
    (hroom : (clauses input).length ≤ MAX_ARGS)
    (hsplit : clauses input = before ++ c :: after)
    (hc : tokenize c = ["exit".toList])
    (hbefore : ∀ b ∈ before, tokenize b ≠ ["exit".toList]) :
    (execute_parallel os s input).trace
        = (run_commands os before (stored s (clauses input).length)).trace ++ [Event.exit 0]
      ∧ (execute_parallel os s input).status = Status.exited 0
      ∧ (execute_parallel os s input).children
        = (run_commands os before (stored s (clauses input).length)).children
      ∧ (run_commands os before (stored s (clauses input).length)).status = Status.running
      ∧ (∀ e ∈ new_calls s (execute_parallel os s input), e.is_wait = false) := by
  have hrun0 : (stored s (clauses input).length).status = Status.running := hrun
  have hb : (run_commands os before (stored s (clauses input).length)).status
      = Status.running :=
    run_commands_running os before _ hfork hrun0 hbefore
  obtain ⟨h1, h2, h3⟩ :=
    exit_clause os (run_commands os before (stored s (clauses input).length)) c 1 hc
  have hrc : run_commands os (before ++ c :: after) (stored s (clauses input).length)
      = parse_and_execute os (run_commands os before (stored s (clauses input).length)) c 1 := by
    rw [run_commands_append os before (c :: after) _ hb]
    simp only [run_commands]
    rw [if_neg (by rw [h2]; simp)]
  have hx : execute_parallel os s input
      = parse_and_execute os (run_commands os before (stored s (clauses input).length)) c 1 := by
    rw [execute_parallel_done os s input hroom]
    have hrc1 : run_commands os (clauses input) (stored s (clauses input).length)
        = parse_and_execute os
            (run_commands os before (stored s (clauses input).length)) c 1 := by
      rw [← hrc, ← hsplit]
    rw [hrc1, if_neg (by rw [h2]; simp)]
  rw [hx]
  refine ⟨h1, h2, h3, hb, ?_⟩
  obtain ⟨work, h4, h5⟩ := run_commands_effect os before (stored s (clauses input).length)
  have h4a : (run_commands os before (stored s (clauses input).length)).trace
      = s.trace ++ work := h4
  rw [new_calls_eq s _ (work ++ [Event.exit 0]) (by rw [h1, h4a, List.append_assoc])]
  intro e he
  rcases List.mem_append.1 he with h | h
  · exact (h5 e h).1
  · rw [List.mem_singleton.1 h]; rfl

/-- C19, witness: in `ls & exit & pwd` one child is spawned, then the process
exits with status 0; `pwd` is not run and nothing is waited for. -/
theorem C19_exit_stops_parallel_witness :
    (execute_parallel os_ok (initial []) "ls & exit & pwd".toList).trace
        = [Event.fork ["ls".toList] STDOUT_FILENO 100, Event.exit 0]
      ∧ (execute_parallel os_ok (initial []) "ls & exit & pwd".toList).status = Status.exited 0
      ∧ (execute_parallel os_ok (initial []) "ls & exit & pwd".toList).children = 1 :=
  have h := C19_exit_stops_parallel os_ok (initial []) "ls & exit & pwd".toList
    ["ls".toList] ["pwd".toList] "exit".toList rfl (fun _ => by show (100 : Int) ≠ 0; decide)
    (by decide) (by decide) (by decide) (by decide)
  ⟨h.1.trans (by decide), h.2.1, h.2.2.1.trans (by decide)⟩

/-! ## Counting the children of a parallel line -/

theorem spawned_append (a b : List Event) : spawned (a ++ b) = spawned a + spawned b := by
  simp [spawned, List.countP_append]

theorem spawned_of_no_fork (l : List Event) (h : ∀ e ∈ l, e.is_fork = false) :
    spawned l = 0 := by
  unfold spawned
  rw [List.countP_eq_zero]
  intro e he
  have := h e he
  cases e <;> simp_all [Event.is_fork]

/-- With every `open` and every `fork` succeeding, a clause spawns one child
when it is a `spawning` one and none otherwise. -/
theorem clause_spawned (os : OS) (s : Shell) (c : Str) (is_parallel : Int)
    (hfork : ∀ h, 0 < os.fork h) (hopen : ∀ h f, 0 ≤ os.open_ h f) :
    ∃ tail, (parse_and_execute os s c is_parallel).trace = s.trace ++ tail
      ∧ spawned tail = if spawning c = true then 1 else 0 := by
  by_cases hne : tokenize c = []
  · refine ⟨[], by simp [parse_and_execute, hne], ?_⟩
    simp [spawning, hne, spawned]
  · by_cases hb : first_is_builtin (tokenize c) = true
    · obtain ⟨tail, h1, h2⟩ := builtin_quiet os s c is_parallel hb
      refine ⟨tail, h1, ?_⟩
      rw [spawned_of_no_fork tail (fun e he => (h2 e he).2)]
      simp [spawning, hb]
    · have hb' : first_is_builtin (tokenize c) = false := by simpa using hb
      have hempty : (tokenize c).isEmpty = false := by
        cases h : tokenize c with
        | nil => exact absurd h hne
        | cons a l => rfl
      rw [parse_and_execute_of_tokens os s c is_parallel hne, dispatch_external _ _ _ hb']
      obtain ⟨w, h3, h4⟩ := finish_trace is_parallel (external os
        { s with stores := s.stores ++
            (List.range ((tokenize c).length + 1)).map Store.args } (tokenize c))
      have hw : spawned w = 0 := spawned_of_no_fork w (by
        intro e he
        obtain ⟨b, hb1⟩ := h4 e he
        rw [hb1]; rfl)
      have key : ∀ s0 : Shell, ∃ tail, (external os s0 (tokenize c)).state.trace
          = s0.trace ++ tail ∧ spawned tail = if spawning c = true then 1 else 0 := by
        intro s0
        rcases gt_shape (tokenize c) with h | ⟨pre, post, h1, h2, h5, h6⟩ | ⟨pre, file, h1, h2, h6⟩
        · rw [external_no_gt os s0 _ h, execute_command_parent os s0 _ _ (hfork _)]
          refine ⟨[Event.fork (tokenize c) STDOUT_FILENO (os.fork s0.trace)],
            by simp [Flow.state, emit], ?_⟩
          simp [spawned, spawning, hfork, hb', hempty, h]
        · have hc : str_gt ∈ tokenize c := by
            rw [h1]; simp
          refine ⟨[diagnostic], ?_, ?_⟩
          · rw [h1, external_misplaced os s0 pre post h2 h5]
            simp [Flow.state, print_error, emit, diagnostic]
          · simp [spawned, spawning, hb', hempty, hc, h6, diagnostic]
        · have hc : str_gt ∈ tokenize c := by
            rw [h1]; simp
          refine ⟨Event.open_ file open_flags 0o644 (os.open_ s0.trace file)
            :: Event.fork pre (os.open_ s0.trace file)
                (os.fork (s0.trace ++ [Event.open_ file open_flags 0o644 (os.open_ s0.trace file)]))
            :: (if os.open_ s0.trace file ≠ STDOUT_FILENO
                then [Event.close (os.open_ s0.trace file)] else []), ?_, ?_⟩
          · rw [h1, external_redirect os s0 pre file h2 (hopen _ _),
              execute_command_parent os _ _ _ (hfork _)]
            by_cases hfd : os.open_ s0.trace file ≠ STDOUT_FILENO <;>
              simp [Flow.state, emit, hfd]
          · by_cases hfd : os.open_ s0.trace file ≠ STDOUT_FILENO <;>
              simp [spawned, spawning, hfork, hb', hempty, hc, h6, hfd]
      obtain ⟨tail, h5, h6⟩ := key
        { s with stores := s.stores ++
            (List.range ((tokenize c).length + 1)).map Store.args }
      refine ⟨tail ++ w, by rw [h3, h5, List.append_assoc], ?_⟩
      rw [spawned_append, hw, h6, Nat.add_zero]

theorem run_commands_spawned (os : OS) (commands : List Str) (s : Shell)
    (hrun : s.status = Status.running)
    (hfork : ∀ h, 0 < os.fork h) (hopen : ∀ h f, 0 ≤ os.open_ h f)
    (hexit : ∀ c ∈ commands, tokenize c ≠ [str_exit]) :
    ∃ work, (run_commands os commands s).trace = s.trace ++ work
      ∧ spawned work = commands.countP spawning
      ∧ (run_commands os commands s).status = Status.running := by
  induction commands generalizing s with
  | nil => exact ⟨[], by simp [run_commands], by simp [spawned], hrun⟩
  | cons c cs ih =>
    have h1 : (parse_and_execute os s c 1).status = Status.running := by
      rw [clause_interp_status os s c 1 (fun h => by have := hfork h; omega)
        (hexit c (by simp))]
      exact hrun
    obtain ⟨tail, h2, h3⟩ := clause_spawned os s c 1 hfork hopen
    obtain ⟨work, h4, h5, h6⟩ := ih (parse_and_execute os s c 1) h1
      (fun x hx => hexit x (List.mem_cons_of_mem _ hx))
    simp only [run_commands]
    rw [if_pos h1]
    refine ⟨tail ++ work, by rw [h4, h2, List.append_assoc], ?_, h6⟩
    rw [spawned_append, h3, h5, List.countP_cons]
    omega

/-- A clause that spawns by the test of the code and not in the words of the
specification ends in `> >`, with no `>` before. -/
theorem spawning_not_claimed (c : Str) (h1 : spawning c = true)
    (h2 : claimed_spawning c = false) :
    ∃ pre, tokenize c = pre ++ [str_gt, str_gt] ∧ str_gt ∉ pre := by
  rcases gt_shape (tokenize c) with h | ⟨pre, post, h3, _, _, h6⟩ | ⟨pre, file, h3, h4, h6⟩
  · exfalso
    simp [spawning, claimed_spawning, h] at h1 h2
    simp [h1] at h2
  · exfalso
    have hc : str_gt ∈ tokenize c := by rw [h3]; simp
    simp [spawning, h6] at h1
    exact h1.2 hc
  · refine ⟨pre, ?_, h4⟩
    by_cases hf : file = str_gt
    · rw [h3, hf]
    · exfalso
      have hc : str_gt ∈ tokenize c := by rw [h3]; simp
      have hcount : (tokenize c).count str_gt = 1 := by
        rw [h3, List.count_append, List.count_eq_zero_of_not_mem h4]
        simp [List.count_cons, hf]
      simp [spawning, claimed_spawning, hc, h6, hcount] at h1 h2
      simp [h1] at h2

set_option maxRecDepth 20000 in
/-- C17, counterexample: in `ls > > & pwd` the clause `ls > >` has two `>`
tokens, so its redirection is not well-formed and the line has one clause that
counts, yet two children are spawned, the first with its output in the file
`>`. And a line of 101 clauses `ls` has 101 clauses that count, but the 101st
piece is stored at `commands[100]`, past the end of the array: the run is
undefined from there and no number of children is fixed. -/
theorem C17_counterexample :
    ((execute_parallel os_ok (initial []) "ls > > & pwd".toList).trace
          = [Event.open_ ">".toList open_flags 0o644 3,
             Event.fork ["ls".toList] 3 100, Event.close 3,
             Event.fork ["pwd".toList] STDOUT_FILENO 100,
             Event.wait true, Event.wait true, Event.wait false]
        ∧ spawned (new_calls (initial [])
            (execute_parallel os_ok (initial []) "ls > > & pwd".toList)) = 2
        ∧ (clauses "ls > > & pwd".toList).countP claimed_spawning = 1)
      ∧ ((clauses (List.replicate 101 "ls&".toList).flatten).countP claimed_spawning = 101
        ∧ (execute_parallel os_ok (initial [])
            (List.replicate 101 "ls&".toList).flatten).status = Status.undefined
        ∧ Store.commands 100 ∈ (execute_parallel os_ok (initial [])
            (List.replicate 101 "ls&".toList).flatten).stores
        ∧ (Store.commands 100).in_bounds = false) := by
  have hlen : (clauses (List.replicate 101 "ls&".toList).flatten).length = 101 := by decide
  have hover : MAX_ARGS < (clauses (List.replicate 101 "ls&".toList).flatten).length := by
    rw [hlen]; decide
  refine ⟨⟨by decide, by decide, by decide⟩, by decide, ?_, ?_, by decide⟩
  · rw [execute_parallel_overflow _ _ _ hover]
  · rw [execute_parallel_overflow _ _ _ hover]
    simp [initial, MAX_ARGS]

/-- C17: in a parallel line of at most `MAX_ARGS` clauses run by the
interpreter, with every `open` and every `fork` succeeding and no clause being
`exit` alone, each clause that has a token, does not begin with a built-in, and
either has no `>` or has its first `>` as second-to-last token spawns exactly
one child; every other clause spawns none; and the number of children spawned
by `execute_parallel` is the number of clauses of the first kind. These are
the clauses with no redirection or a well-formed one, and those that end in
`> >` with no `>` before. -/
theorem C17_parallel_spawn_count (os : OS) (s : Shell) (input : Str)
    (hrun : s.status = Status.running)
    (hfork : ∀ h, 0 < os.fork h) (hopen : ∀ h f, 0 ≤ os.open_ h f)
    (hexit : ∀ c ∈ clauses input, tokenize c ≠ ["exit".toList])
    (hroom : (clauses input).length ≤ MAX_ARGS) :
    spawned (new_calls s (execute_parallel os s input)) = (clauses input).countP spawning
      ∧ (∀ (s1 : Shell) (c : Str),
          spawned (new_calls s1 (parse_and_execute os s1 c 1))
            = if spawning c = true then 1 else 0)
      ∧ (∀ c, spawning c = true ↔
          (tokenize c ≠ [] ∧ first_is_builtin (tokenize c) = false
            ∧ (str_gt ∉ tokenize c
              ∨ (tokenize c).indexOf str_gt + 2 = (tokenize c).length)))
      ∧ (∀ c, claimed_spawning c = true → spawning c = true)
      ∧ (∀ c, spawning c = true → claimed_spawning c = false →
          ∃ pre, tokenize c = pre ++ [str_gt, str_gt] ∧ str_gt ∉ pre) := by
  refine ⟨?_, ?_, ?_, ?_, spawning_not_claimed⟩
  · have hrun0 : (stored s (clauses input).length).status = Status.running := hrun
    obtain ⟨work, h1, h2, h3⟩ := run_commands_spawned os (clauses input)
      (stored s (clauses input).length) hrun0 hfork hopen hexit
    have h1a : (run_commands os (clauses input) (stored s (clauses input).length)).trace
        = s.trace ++ work := h1
    rw [execute_parallel_done os s input hroom, if_pos h3]
    rw [new_calls_eq s _ (work ++ wait_loop (run_commands os (clauses input)
        (stored s (clauses input).length)).children)
      (by simp [wait_all, h1a])]
    rw [spawned_append, h2, spawned_of_no_fork _ (wait_loop_quiet _ · · |>.2)]
    rfl
  · intro s1 c
    obtain ⟨tail, h1, h2⟩ := clause_spawned os s1 c 1 hfork hopen
    rw [new_calls_eq s1 _ tail h1, h2]
  · intro c
    simp [spawning, List.isEmpty_iff, and_assoc]
  · intro c h
    simp only [claimed_spawning, spawning, Bool.and_eq_true, Bool.or_eq_true] at h ⊢
    exact ⟨h.1, h.2.imp id (fun x => x.2)⟩

/-- C17, witness: of the clauses of `ls & cd /tmp & pwd > f & cat > & path`
two spawn a child, `ls` and `pwd > f`. -/
theorem C17_parallel_spawn_count_witness :
    spawned (new_calls (initial [])
        (execute_parallel os_ok (initial []) "ls & cd /tmp & pwd > f & cat > & path".toList)) = 2
      ∧ (clauses "ls & cd /tmp & pwd > f & cat > & path".toList).map spawning
        = [true, false, true, false, false] :=
  ⟨(C17_parallel_spawn_count os_ok (initial []) "ls & cd /tmp & pwd > f & cat > & path".toList
      rfl (fun _ => by show (0 : Int) < 100; decide) (fun _ _ => by show (0 : Int) ≤ 3; decide)
      (by decide) (by decide)).1.trans (by decide),
   by decide⟩

/-! ## Empty clauses -/

theorem empty_clause (os : OS) (s : Shell) (input : Str) (is_parallel : Int)
    (h : tokenize input = []) :
    parse_and_execute os s input is_parallel
      = { s with stores := s.stores ++ [Store.args 0] } := by
  simp [parse_and_execute, h, List.range_succ]

theorem trim_blank (t : Str) (h : ∀ c ∈ t, c ∈ delims) : trim t = [] := by
  have hd : t.dropWhile (fun c => delims.contains c) = [] := by
    rw [List.dropWhile_eq_nil_iff]
    intro c hc
    simpa using h c hc
  simp only [trim, hd]

theorem clauses_loop_blank (fuel : Nat) (rest : Str) (acc : List Str)
    (hrest : ∀ c ∈ rest, c = '&' ∨ c ∈ delims) (hacc : ∀ x ∈ acc, trim x = []) :
    ∀ x ∈ tokenize_loop ['&'] fuel rest acc, trim x = [] := by
  induction fuel generalizing rest acc with
  | zero => simpa [tokenize_loop] using hacc
  | succ n ih =>
    simp only [tokenize_loop, strtok]
    cases hs : rest.dropWhile (fun c => ['&'].contains c) with
    | nil => simpa using hacc
    | cons c cs =>
      have hsub : ∀ x ∈ c :: cs, x ∈ rest := by
        intro x hx
        rw [← hs] at hx
        exact (List.dropWhile_sublist _).subset hx
      simp only []
      apply ih
      · intro x hx
        have h1 := List.mem_of_mem_drop hx
        exact hrest x (hsub x ((List.dropWhile_sublist _).subset h1))
      · intro x hx
        rcases List.mem_append.1 hx with h | h
        · exact hacc x h
        · rw [List.mem_singleton.1 h]
          apply trim_blank
          intro y hy
          have hy1 : y ≠ '&' := by
            have := List.mem_takeWhile_imp hy
            simpa using this
          rcases hrest y (hsub y ((List.takeWhile_sublist _).subset hy)) with h2 | h2
          · exact absurd h2 hy1
          · exact h2

/-- Every clause of a line made of `&` and blanks is empty. -/
theorem clauses_blank (input : Str) (h : ∀ c ∈ input, c = '&' ∨ c ∈ delims) :
    ∀ x ∈ clauses input, x = [] := by
  intro x hx
  obtain ⟨y, hy, rfl⟩ := List.mem_map.1 hx
  exact clauses_loop_blank _ input [] h (by simp) y hy

theorem run_commands_blank (os : OS) (commands : List Str) (s : Shell)
    (h : ∀ x ∈ commands, x = []) :
    (run_commands os commands s).trace = s.trace
      ∧ (run_commands os commands s).status = s.status
      ∧ (run_commands os commands s).children = s.children
      ∧ (run_commands os commands s).paths = s.paths
      ∧ (run_commands os commands s).path_count = s.path_count := by
  induction commands generalizing s with
  | nil => exact ⟨rfl, rfl, rfl, rfl, rfl⟩
  | cons c cs ih =>
    have hc : c = [] := h c (by simp)
    subst hc
    have h1 := empty_clause os s [] 1 (by decide)
    simp only [run_commands]
    rw [h1]
    obtain ⟨i1, i2, i3, i4, i5⟩ := ih { s with stores := s.stores ++ [Store.args 0] }
      (fun x hx => h x (List.mem_cons_of_mem _ hx))
    split_ifs
    · exact ⟨i1, i2, i3, i4, i5⟩
    · exact ⟨rfl, rfl, rfl, rfl, rfl⟩

set_option maxRecDepth 20000 in
/-- C18: a clause made of spaces, tabs and newlines only (or empty) is dropped:
`parse_and_execute` makes no call at all, so no diagnostic, no `open`, no
`fork`, and leaves the registry, the children and the status as they were. A
line made of `&` and blanks only has none but empty clauses, and
`execute_parallel` writes no diagnostic, spawns no process and leaves the
registry as it was: when the clauses fit in `commands` (at most `MAX_ARGS` of
them) it makes no call but those of its final wait loop; when there are more,
it makes no call at all before the store `commands[MAX_ARGS]`, at which the run
ends undefined. Such lines are `&` and ` & & `, and 150 times ` &` for the
second kind. -/
theorem C18_empty_clause (os : OS) (s : Shell) (input : Str) (is_parallel : Int) :
    ((∀ c ∈ input, c ∈ delims) →
        (parse_and_execute os s input is_parallel).trace = s.trace
          ∧ (parse_and_execute os s input is_parallel).paths = s.paths
          ∧ (parse_and_execute os s input is_parallel).path_count = s.path_count
          ∧ (parse_and_execute os s input is_parallel).children = s.children
          ∧ (parse_and_execute os s input is_parallel).status = s.status)
      ∧ ((∀ c ∈ input, c = '&' ∨ c ∈ delims) →
        (new_calls s (execute_parallel os s input)).count diagnostic = 0
          ∧ spawned (new_calls s (execute_parallel os s input)) = 0
          ∧ (execute_parallel os s input).paths = s.paths
          ∧ (execute_parallel os s input).path_count = s.path_count
          ∧ ((clauses input).length ≤ MAX_ARGS →
              (execute_parallel os s input).trace
                = s.trace ++ (if s.status = Status.running then wait_loop s.children else [])
              ∧ (execute_parallel os s input).status = s.status)
          ∧ (MAX_ARGS < (clauses input).length →
              (execute_parallel os s input).trace = s.trace
              ∧ (execute_parallel os s input).status = Status.undefined))
      ∧ (execute_parallel os_ok (initial []) "&".toList).trace = [Event.wait false]
      ∧ (execute_parallel os_ok (initial []) " & & ".toList).trace = [Event.wait false]
      ∧ (parse_and_execute os_ok (initial []) " \t ".toList 0).trace = []
      ∧ (execute_parallel os_ok (initial [])
          (List.replicate 150 " &".toList).flatten).status = Status.undefined := by
  refine ⟨?_, ?_, by decide, by decide, by decide, ?_⟩
  · intro h
    rw [empty_clause os s input is_parallel (tokenize_all_delims input h)]
    exact ⟨rfl, rfl, rfl, rfl, rfl⟩
  · intro h
    have hover : MAX_ARGS < (clauses input).length →
        execute_parallel os s input
          = { s with stores := s.stores ++ (List.range (MAX_ARGS + 1)).map Store.commands
                     status := Status.undefined } :=
      execute_parallel_overflow os s input
    obtain ⟨h1, h2, h3, h4, h5⟩ := run_commands_blank os (clauses input)
      (stored s (clauses input).length) (clauses_blank input h)
    have h1a : (run_commands os (clauses input) (stored s (clauses input).length)).trace
        = s.trace := h1
    have h2a : (run_commands os (clauses input) (stored s (clauses input).length)).status
        = s.status := h2
    have h3a : (run_commands os (clauses input) (stored s (clauses input).length)).children
        = s.children := h3
    have htr : (clauses input).length ≤ MAX_ARGS → (execute_parallel os s input).trace
        = s.trace ++ (if s.status = Status.running then wait_loop s.children else []) := by
      intro hroom
      rw [execute_parallel_done os s input hroom, h2a]
      by_cases hs : s.status = Status.running
      · rw [if_pos hs, if_pos hs]
        simp [wait_all, h1a, h3a]
      · rw [if_neg hs, if_neg hs]
        simp [h1a]
    have hq : ∀ e ∈ (if s.status = Status.running then wait_loop s.children else []),
        ∃ b, e = Event.wait b := by
      intro e he
      by_cases hs : s.status = Status.running
      · rw [if_pos hs] at he; exact wait_loop_mem _ e he
      · rw [if_neg hs] at he; simp at he
    have hcalls : ∀ e ∈ new_calls s (execute_parallel os s input), ∃ b, e = Event.wait b := by
      by_cases hroom : (clauses input).length ≤ MAX_ARGS
      · rw [new_calls_eq s _ _ (htr hroom)]
        exact hq
      · rw [hover (by omega), new_calls_eq s _ [] (by simp)]
        simp
    refine ⟨?_, ?_, ?_, ?_, fun hroom => ⟨htr hroom, ?_⟩, fun hov => ?_⟩
    · rw [List.count_eq_zero]
      intro hmem
      obtain ⟨b, hb⟩ := hcalls _ hmem
      simp [diagnostic] at hb
    · apply spawned_of_no_fork
      intro e he
      obtain ⟨b, hb⟩ := hcalls e he
      rw [hb]; rfl
    · by_cases hroom : (clauses input).length ≤ MAX_ARGS
      · rw [execute_parallel_done os s input hroom]
        split_ifs
        · exact h4
        · exact h4
      · rw [hover (by omega)]
    · by_cases hroom : (clauses input).length ≤ MAX_ARGS
      · rw [execute_parallel_done os s input hroom]
        split_ifs
        · exact h5
        · exact h5
      · rw [hover (by omega)]
    · rw [execute_parallel_done os s input hroom]
      split_ifs
      · exact h2a
      · exact h2a
    · rw [hover hov]
      exact ⟨rfl, rfl⟩
  · have hlen : (clauses (List.replicate 150 " &".toList).flatten).length = 150 := by decide
    rw [execute_parallel_overflow _ _ _ (by rw [hlen]; decide)]

/-! ## The stores into `args` and `paths` -/

theorem in_bounds_of_index (x : Store) (h : x.index < 100) : x.in_bounds = true := by
  cases x <;> simpa [Store.in_bounds, Store.index, MAX_ARGS, MAX_PATHS] using h

theorem finish_stores (is_parallel : Int) (f : Flow) :
    (finish is_parallel f).stores = f.state.stores := by
  cases f with
  | stop s1 => rfl
  | next s1 =>
    simp only [finish, Flow.state]
    split_ifs <;> rfl

theorem path_loop_stores_exact (args : List Str) (n i : Nat) (s : Shell) :
    (path_loop args n i s).stores
        = s.stores ++ (List.range' s.path_count n).map Store.paths
      ∧ (path_loop args n i s).path_count = s.path_count + n := by
  induction n generalizing i s with
  | zero => simp [path_loop]
  | succ n ih =>
    unfold path_loop
    obtain ⟨h1, h2⟩ := ih (i + 1)
      { s with
        paths := Function.update s.paths s.path_count args[i]?
        path_count := s.path_count + 1
        stores := s.stores ++ [Store.paths s.path_count] }
    dsimp only at h1 h2
    refine ⟨?_, by rw [h2]; omega⟩
    rw [h1, List.range'_succ]
    simp

theorem set_paths_stores (s : Shell) (name : Str) (ds : List Str) :
    (set_paths s (name :: ds)).stores
      = s.stores ++ (List.range (ds.length + 1)).map Store.paths := by
  obtain ⟨h1, h2⟩ := path_loop_stores_exact (name :: ds) ds.length 1 { s with path_count := 0 }
  dsimp only at h1 h2
  simp only [set_paths, List.length_cons, Nat.add_sub_cancel]
  rw [h1, h2, List.range_succ, List.range_eq_range']
  simp

theorem args_stores_eq (d : List Char) (n : Nat) (rest : Str) (k : Nat) (log : List Store) :
    args_stores d n rest k log
      = log ++ (List.range' k ((tokenize_loop d n rest []).length + 1)).map Store.args := by
  induction n generalizing rest k log with
  | zero => simp [args_stores, tokenize_loop]
  | succ n ih =>
    simp only [args_stores, tokenize_loop]
    cases hs : strtok d rest with
    | none => simp
    | some p =>
      obtain ⟨tok, rest1⟩ := p
      simp only []
      rw [ih rest1 (k + 1) (log ++ [Store.args k]), tokenize_loop_acc d n rest1 ([] ++ [tok])]
      simp only [List.nil_append, List.length_append, List.length_singleton]
      rw [show 1 + (tokenize_loop d n rest1 []).length + 1
          = ((tokenize_loop d n rest1 []).length + 1) + 1 by omega]
      simp [List.range'_succ]

/-- C20: for a clause of at most `MAX_ARGS - 1 = 99` tokens every store into the
two arrays is in bounds. The stores of `parse_and_execute` are `args[0]` to
`args[n]` for the `n` tokens and the terminator (as the loop of lines 107-110
makes them one by one), then the others: `args[i]` for a redirection, and for a
clause `path d1 ... dk` exactly `paths[0]` to `paths[k]`, terminator included;
each has its index below `MAX_ARGS = 100`, respectively `MAX_PATHS = 100`.
After a `path` clause `path_count` is the number of directories stored, and
`paths[path_count]` is `NULL`. -/
theorem C20_stores_in_bounds (os : OS) (s : Shell) (input : Str) (is_parallel : Int)
    (h : (tokenize input).length ≤ MAX_ARGS - 1) :
    (∃ rest, (parse_and_execute os s input is_parallel).stores
          = s.stores ++ args_stores delims (input.length + 1) input 0 [] ++ rest
        ∧ args_stores delims (input.length + 1) input 0 []
          = (List.range ((tokenize input).length + 1)).map Store.args
        ∧ (∀ x ∈ args_stores delims (input.length + 1) input 0 [] ++ rest,
            x.in_bounds = true)
        ∧ (∀ ds, tokenize input = "path".toList :: ds →
            rest = (List.range (ds.length + 1)).map Store.paths))
      ∧ (∀ ds, tokenize input = "path".toList :: ds →
          (parse_and_execute os s input is_parallel).path_count = ds.length
            ∧ (parse_and_execute os s input is_parallel).paths
                (parse_and_execute os s input is_parallel).path_count = none
            ∧ registry (parse_and_execute os s input is_parallel) = ds.map some) := by
  have hn : (tokenize input).length ≤ 99 := by simpa [MAX_ARGS] using h
  have hlog : args_stores delims (input.length + 1) input 0 []
      = (List.range ((tokenize input).length + 1)).map Store.args := by
    rw [args_stores_eq, List.range_eq_range']
    rfl
  have hargs : ∀ x ∈ (List.range ((tokenize input).length + 1)).map Store.args,
      x.index ≤ (tokenize input).length := by
    intro x hx
    obtain ⟨i, hi, rfl⟩ := List.mem_map.1 hx
    have := List.mem_range.1 hi
    simp only [Store.index]
    omega
  rw [hlog]
  constructor
  · by_cases hne : tokenize input = []
    · refine ⟨[], ?_, rfl, ?_, ?_⟩
      · rw [empty_clause os s input is_parallel hne, hne]
        simp [List.range_succ]
      · intro x hx
        rw [List.append_nil] at hx
        exact in_bounds_of_index x (by have := hargs x hx; omega)
      · intro ds hds
        rw [hds] at hne
        exact absurd hne (by simp)
    · rw [parse_and_execute_of_tokens os s input is_parallel hne, finish_stores]
      obtain ⟨_, ⟨st, h1, h2⟩, _⟩ := dispatch_effect os
        { s with stores := s.stores ++
            (List.range ((tokenize input).length + 1)).map Store.args } (tokenize input)
      dsimp only at h1
      refine ⟨st, h1, rfl, ?_, ?_⟩
      · intro x hx
        rcases List.mem_append.1 hx with h3 | h3
        · exact in_bounds_of_index x (by have := hargs x h3; omega)
        · exact in_bounds_of_index x (by have := h2 x h3; omega)
      · intro ds hds
        have hds1 : tokenize input = str_path :: ds := hds
        rw [hds1, dispatch_path] at h1
        simp only [Flow.state] at h1
        rw [set_paths_stores] at h1
        exact (List.append_cancel_left h1).symm
  · intro ds hds
    obtain ⟨h1, h2, h3, _⟩ := path_outcome os s input is_parallel ds hds
    exact ⟨h2, by rw [h2]; exact h3, h1⟩

/-- C20, witness: `path /a /b` stores `args[0..3]` and `paths[0..2]`; a clause
of 99 tokens stores up to `args[99]`. -/
theorem C20_stores_in_bounds_witness :
    (parse_and_execute os_ok (initial []) "path /a /b".toList 0).stores
        = [Store.args 0, Store.args 1, Store.args 2, Store.args 3,
           Store.paths 0, Store.paths 1, Store.paths 2]
      ∧ (parse_and_execute os_ok (initial []) "path /a /b".toList 0).path_count = 2
      ∧ (parse_and_execute os_ok (initial []) "path /a /b".toList 0).paths 2 = none :=
  have h := C20_stores_in_bounds os_ok (initial []) "path /a /b".toList 0 (by decide)
  ⟨by decide, (h.2 ["/a".toList, "/b".toList] (by decide)).1,
    (h.2 ["/a".toList, "/b".toList] (by decide)).2.1.trans (by decide)⟩

end Rush
